import Mathlib

/-!
The alternative Hough tracker (alternativeHT) of uvdar_core.

A shallow embedding of `include/alternativeHT/alternativeHT.cpp`, and of the method
`DataFrameCheck` of `src/new_uvdar_rx.cpp` (a vector of `int` is a list of integers).

Modelling conventions.

* `double` values (pixel coordinates, time stamps in seconds, frame rate) are exact rationals.
  The staleness test of `cleanPotentialBuffer`, where the rounding of the `double` operations
  decides at the boundary, is also given with these operations as a parameter (`DoubleArith`):
  `exactArith` is the exact instance, `binary64` the one with rounding to nearest.
* A track (`std::vector<PointState>` behind a `seqPointer`) is a list of observations,
  oldest first.  The member `gen_sequences_` is the list of tracks; a shared pointer held in a
  local vector of handles (`p_gen_seq`, `sequences_no_insert`) is the index of its track in
  `gen_sequences_`, which is stable during one frame because tracks are only pushed at the back.
* Behaviour that C++ leaves undefined (`end()[-1]` of an empty vector, `original_sequences_[0]`
  of an empty code set, a call through the null `matcher_`) is the result `none`.
* `ros::Time::now()` is an argument of the operation that reads the clock: one reading for the
  placeholders of a frame (`now`) and one for a run of `cleanPotentialBuffer`.
* The constants of the header `alternativeHT.h` and the functions of the classes
  `ExtendedSearch` and `SignalMatcher` are parameters (`Consts`, `ExtendedSearch`, the field
  `matcher_`).
-/

namespace uvdar

/-- The type `cv::Point2d`. -/
structure Point2d where
  x : ℚ
  y : ℚ
deriving DecidableEq

/-- The record `PointState`: the members the tracker reads or writes. -/
structure PointState where
  point : Point2d
  led_state : Bool
  insert_time : ℚ
  extended_search : Bool
  ellipse : Point2d
  predicted : Point2d
  x_coeff : List ℚ
  y_coeff : List ℚ
deriving DecidableEq

/-- A track: the vector behind a `seqPointer`, oldest observation first. -/
abbrev Track := List PointState

/-- The record `PredictionStatistics` returned by the regression. -/
structure PredictionStatistics where
  mean : ℚ
  coeff : List ℚ
  predicted_coordinate : ℚ
  ellipse_val : ℚ
  used_poly_order : ℤ
deriving DecidableEq

/-- The member functions of the class `ExtendedSearch` that the tracker calls. -/
structure ExtendedSearch where
  calculateWeightVector : List ℚ → List ℚ
  calcWeightedMean : List ℚ → List ℚ → ℚ
  calcWSTD : List ℚ → List ℚ → ℚ → ℚ
  polyReg : List ℚ → List ℚ → List ℚ → PredictionStatistics
  confidenceInterval : PredictionStatistics → List ℚ → List ℚ → ℕ → ℚ
  checkIfInsideEllipse : Point2d → Point2d → Point2d → Bool

/-- The constants declared in the header, the default-constructed `PointState`, and the
`ExtendedSearch` object built by the constructor. -/
structure Consts where
  max_pixel_shift_x_ : ℤ
  max_pixel_shift_y_ : ℤ
  prediction_margin_ : ℚ
  size_for_saved_seqs_ : ℕ
  blank : PointState
  extended_search_ : ExtendedSearch

/-- The mutable members of the class `alternativeHT`. -/
structure alternativeHT where
  original_sequences_ : List (List Bool)
  matcher_ : Option (List Bool → ℤ)
  framerate_ : ℚ
  gen_sequences_ : List Track

/-- The method `setSequences`; `mk` is the constructor of `SignalMatcher`. -/
def setSequences (mk : List (List Bool) → List Bool → ℤ) (s : alternativeHT)
    (i_sequences : List (List Bool)) : alternativeHT :=
  { s with original_sequences_ := i_sequences, matcher_ := some (mk i_sequences) }

/-- The method `updateFramerate`. -/
def updateFramerate (s : alternativeHT) (input : ℚ) : alternativeHT :=
  if input > 1 then { s with framerate_ := input } else s

/-- The method `computeXYDiff`. -/
def computeXYDiff (first second : Point2d) : Point2d :=
  { x := |first.x - second.x|, y := |first.y - second.y| }

/-- The bound `original_sequences_[0].size() * size_for_saved_seqs_` that
`insertPointToSequence` evaluates at each call; `none` when the code set is empty. -/
def bufferCap (c : Consts) (original_sequences_ : List (List Bool)) : Option ℕ :=
  match original_sequences_ with
  | [] => none
  | s0 :: _ => some (s0.length * c.size_for_saved_seqs_)

/-- The method `insertPointToSequence`, given the value of the bound. -/
def insertPointToSequence (cap : ℕ) (sequence : Track) (signal : PointState) : Track :=
  let pushed := sequence ++ [signal]
  if pushed.length > cap then pushed.tail else pushed

/-- The member `led_state` of `seq->end()[-k]`, for `k ≥ 1`. -/
def ledFromEnd (seq : Track) (k : ℕ) : Option Bool :=
  (seq[seq.length - k]?).map (fun p => p.led_state)

/-- The method `checkSequenceValidityWithNewInsert`. -/
def checkSequenceValidityWithNewInsert (seq : Track) : Bool :=
  if seq.length > 1 ∧ ledFromEnd seq 1 = some true ∧ ledFromEnd seq 2 = some true then false
  else if seq.length > 2 ∧ ledFromEnd seq 1 = some false ∧ ledFromEnd seq 2 = some false
      ∧ ledFromEnd seq 3 = some false then false
  else true

/-- The observation `(*seq)->end()[-1]` of the track behind handle `h`; `none` when the track is
empty. -/
def backOf (tracks : List Track) (h : ℕ) : Option PointState :=
  (tracks[h]?).bind List.getLast?

/-- The fast-pass gate of `findClosestPixelAndInsert` (line 61). -/
def withinShift (c : Consts) (curr_point last_inserted : PointState) : Bool :=
  let diff := computeXYDiff curr_point.point last_inserted.point
  decide (diff.x ≤ (c.max_pixel_shift_x_ : ℚ) ∧ diff.y ≤ (c.max_pixel_shift_y_ : ℚ))

/-- The inner loop of `findClosestPixelAndInsert` (lines 58-69) up to the match: the position in
`p_gen_seq` of the first handle whose track ends within the gate of `curr_point`
(`some none` when the scan reaches the end, so that `nn == false`). -/
def scanPool (c : Consts) (tracks : List Track) (curr_point : PointState) :
    List ℕ → Option (Option ℕ)
  | [] => some none
  | h :: rest =>
    match backOf tracks h with
    | none => none
    | some last_inserted =>
      if withinShift c curr_point last_inserted then some (some 0)
      else (scanPool c tracks curr_point rest).map (Option.map (fun j => j + 1))

/-- The state of one run of `findClosestPixelAndInsert`: the tracks (written through the
handles), the handle vector `p_gen_seq` and the vector `no_nn`. -/
structure Assoc where
  tracks : List Track
  pool : List ℕ
  no_nn : List PointState

/-- One iteration of the outer loop of `findClosestPixelAndInsert` (lines 55-73); `bound` is
the value of `bufferCap`, needed only when a point is inserted. -/
def fastStep (c : Consts) (bound : Option ℕ) (a : Assoc) (curr_point : PointState) :
    Option Assoc :=
  match scanPool c a.tracks curr_point a.pool with
  | none => none
  | some none => some { a with no_nn := a.no_nn ++ [curr_point] }
  | some (some j) =>
    match a.pool[j]?, bound with
    | some h, some cap =>
      some { a with
        tracks := a.tracks.set h (insertPointToSequence cap (a.tracks.getD h []) curr_point),
        pool := a.pool.eraseIdx j }
    | _, _ => none

/-- The outer loop of `findClosestPixelAndInsert` (lines 54-73) over `current_frame`. -/
def fastPass (c : Consts) (bound : Option ℕ) : Assoc → List PointState → Option Assoc
  | a, [] => some a
  | a, curr_point :: rest =>
    match fastStep c bound a curr_point with
    | none => none
    | some a1 => fastPass c bound a1 rest

/-- The method `selectStatisticsValues`. -/
def selectStatisticsValues (c : Consts) (values time : List ℚ) (insert_time : ℚ)
    (max_pix_shift : ℤ) : PredictionStatistics :=
  let es := c.extended_search_
  let weight_vect := es.calculateWeightVector time
  let weighted_mean := es.calcWeightedMean values weight_vect
  let std := es.calcWSTD values weight_vect weighted_mean
  let st0 := es.polyReg values time weight_vect
  let coeff := st0.coeff
  let all_coeff_zero := coeff.all (fun q => decide (q = 0))
  let summed : ℚ := List.foldl (fun acc i => acc + coeff.getD i 0 * insert_time ^ i)
    st0.predicted_coordinate (List.range coeff.length)
  let st1 : PredictionStatistics :=
    if all_coeff_zero then st0 else { st0 with predicted_coordinate := summed }
  let poly1 : Bool := !all_coeff_zero
  let fits : Bool := decide ((values.length : ℤ) > st1.used_poly_order)
  let st2 : PredictionStatistics :=
    if fits then { st1 with ellipse_val := es.confidenceInterval st1 values weight_vect 75 }
    else st1
  let poly_reg_computed : Bool := if fits then poly1 else false
  if poly_reg_computed then st2
  else { st2 with
    predicted_coordinate := weighted_mean,
    ellipse_val := if std < (max_pix_shift : ℚ) then ((max_pix_shift * 2 : ℤ) : ℚ) else std * 2,
    coeff := [0] }

/-- The write through `last_point` in `expandedSearch` (lines 109-132): the predictive members of
the track's last observation, computed from the observed samples of the track. -/
def withPrediction (c : Consts) (insert_time : ℚ) (seq : Track) (last_point : PointState) :
    PointState :=
  let lit := seq.filter (fun p => p.led_state)
  let x := lit.map (fun p => p.point.x)
  let y := lit.map (fun p => p.point.y)
  let time := lit.map (fun p => p.insert_time)
  let x_predictions := selectStatisticsValues c x time insert_time c.max_pixel_shift_x_
  let y_predictions := selectStatisticsValues c y time insert_time c.max_pixel_shift_y_
  { last_point with
    ellipse := { x := x_predictions.ellipse_val, y := y_predictions.ellipse_val },
    predicted := { x := x_predictions.predicted_coordinate,
                   y := y_predictions.predicted_coordinate },
    x_coeff := x_predictions.coeff,
    y_coeff := y_predictions.coeff,
    extended_search := true }

/-- The copy of a detection that `expandedSearch` appends (lines 136-140). -/
def tagDetection (last_point det : PointState) : PointState :=
  { det with
    extended_search := true,
    x_coeff := last_point.x_coeff,
    y_coeff := last_point.y_coeff,
    ellipse := last_point.ellipse,
    predicted := last_point.predicted }

/-- The loop `for k` of `expandedSearch` (lines 102-147), from index `k` on; the loop runs at most
`fuel` iterations, and `expandedSearch` starts it with `fuel = sequences_no_insert.size()`. -/
def expandedLoop (c : Consts) (bound : Option ℕ) (insert_time : ℚ) :
    ℕ → ℕ → Assoc → Option Assoc
  | 0, _, a => some a
  | fuel + 1, k, a =>
    match a.pool[k]? with
    | none => some a
    | some h =>
      let seq := a.tracks.getD h []
      if checkSequenceValidityWithNewInsert seq = false then
        expandedLoop c bound insert_time fuel (k + 1) a
      else
        match seq.getLast? with
        | none => none
        | some last0 =>
          let last_point := withPrediction c insert_time seq last0
          let seq1 := seq.dropLast ++ [last_point]
          match a.no_nn.findIdx? (fun q =>
              c.extended_search_.checkIfInsideEllipse last_point.point last_point.ellipse
                q.point) with
          | none =>
            expandedLoop c bound insert_time fuel (k + 1) { a with tracks := a.tracks.set h seq1 }
          | some i =>
            match a.no_nn[i]?, bound with
            | some q, some cap =>
              expandedLoop c bound insert_time fuel (k + 1)
                { tracks := a.tracks.set h (insertPointToSequence cap seq1 (tagDetection last_point q)),
                  pool := a.pool.eraseIdx k,
                  no_nn := a.no_nn.eraseIdx i }
            | _, _ => none

/-- The method `insertVPforSequencesWithNoInsert` on the track behind handle `h`. -/
def insertVPforSequencesWithNoInsert (bound : Option ℕ) (now : ℚ) (tracks : List Track)
    (h : ℕ) : Option (List Track) :=
  match backOf tracks h, bound with
  | some last, some cap =>
    let pVirtual : PointState := { last with insert_time := now, led_state := false }
    some (tracks.set h (insertPointToSequence cap (tracks.getD h []) pVirtual))
  | _, _ => none

/-- The loop of `expandedSearch` over `sequences_no_insert` (lines 163-165). -/
def insertVPs (bound : Option ℕ) (now : ℚ) : List Track → List ℕ → Option (List Track)
  | tracks, [] => some tracks
  | tracks, h :: rest =>
    match insertVPforSequencesWithNoInsert bound now tracks h with
    | none => none
    | some tracks1 => insertVPs bound now tracks1 rest

/-- The first part of `expandedSearch` (lines 99-148): the search loop, entered when
`no_nn_current_frame` is not empty, with the target time taken from its first element. -/
def expandedMatch (c : Consts) (bound : Option ℕ) (a : Assoc) : Option Assoc :=
  match a.no_nn with
  | [] => some a
  | p0 :: _ => expandedLoop c bound (p0.insert_time + c.prediction_margin_) a.pool.length 0 a

/-- The method `expandedSearch`: the search loop, the placeholders for the handles left in
`sequences_no_insert`, and the new tracks pushed to `gen_sequences_`. -/
def expandedSearch (c : Consts) (bound : Option ℕ) (now : ℚ) (a : Assoc) :
    Option (List Track) :=
  match expandedMatch c bound a with
  | none => none
  | some a1 =>
    match insertVPs bound now a1.tracks a1.pool with
    | none => none
    | some tracks2 => some (tracks2 ++ a1.no_nn.map (fun point => [point]))

/-- The method `findClosestPixelAndInsert` on the track list. -/
def findClosestPixelAndInsert (c : Consts) (original_sequences_ : List (List Bool)) (now : ℚ)
    (gen_sequences_ : List Track) (current_frame : List PointState) : Option (List Track) :=
  let bound := bufferCap c original_sequences_
  match fastPass c bound
      { tracks := gen_sequences_, pool := List.range gen_sequences_.length, no_nn := [] }
      current_frame with
  | none => none
  | some a => expandedSearch c bound now a

/-- The timing tolerance of `cleanPotentialBuffer` (lines 247-250) without rounding; `5/60` is
an integer division. -/
def timingTolerance (framerate_ : ℚ) : ℚ :=
  if framerate_ ≠ 0 then (1 / framerate_) * 4 else ((5 / 60 : ℤ) : ℚ)

/-- The decision of `cleanPotentialBuffer` for one track, without rounding: `true` when the
track stays. It is `keepTrackWith` on the operations `exactArith`. -/
def keepTrack (framerate_ now : ℚ) (seq : Track) : Bool :=
  match seq.getLast? with
  | none => true
  | some last =>
    if seq.length > 2 ∧ ledFromEnd seq 1 = some false ∧ ledFromEnd seq 2 = some false
        ∧ ledFromEnd seq 3 = some false then false
    else if |last.insert_time - now| > timingTolerance framerate_ then false
    else true

/-- The method `cleanPotentialBuffer`. -/
def cleanPotentialBuffer (now : ℚ) (s : alternativeHT) : alternativeHT :=
  { s with gen_sequences_ := s.gen_sequences_.filter (keepTrack s.framerate_ now) }

/-- The operations of `cleanPotentialBuffer` (lines 247-271) whose result is rounded:
`ros::Time::toSec`, which turns a time stamp into a `double`, and the subtraction, the division
and the multiplication of `double` values. A finite `double` is the rational it denotes and a
time stamp is its exact number of seconds; `std::abs`, the comparisons and the conversions of
the integers `1`, `4` and `5/60` to `double` are exact. -/
structure DoubleArith where
  toSec : ℚ → ℚ
  sub : ℚ → ℚ → ℚ
  div : ℚ → ℚ → ℚ
  mul : ℚ → ℚ → ℚ

/-- The operations without rounding: those of `timingTolerance` and `keepTrack`. -/
def exactArith : DoubleArith :=
  { toSec := fun t => t
    sub := fun x y => x - y
    div := fun x y => x / y
    mul := fun x y => x * y }

/-- The integer nearest to `n`, the even one of the two when `n` lies halfway. -/
def roundHalfEven (n : ℚ) : ℤ :=
  if n - ⌊n⌋ < 1 / 2 then ⌊n⌋
  else if 1 / 2 < n - ⌊n⌋ then ⌊n⌋ + 1
  else if ⌊n⌋ % 2 = 0 then ⌊n⌋ else ⌊n⌋ + 1

/-- The binary64 value nearest to a positive rational `r`: with `2 ^ e ≤ r < 2 ^ (e + 1)` the
significand `r / 2 ^ (e - 52)` is rounded to an integer of 53 bits, ties to even. The exponent
is not bounded: the values of the tracker are far from overflow and from the subnormal
range. -/
def roundPos (r : ℚ) : ℚ :=
  (roundHalfEven (r / 2 ^ (Int.log 2 r - 52)) : ℚ) * 2 ^ (Int.log 2 r - 52)

/-- Rounding to binary64, to nearest, ties to even. -/
def roundDouble (r : ℚ) : ℚ :=
  if r = 0 then 0 else if r < 0 then - roundPos (-r) else roundPos r

/-- The operations in binary64: each returns the exact result rounded. `toSec` is
`(double)sec + 1e-9 * (double)nsec` of `ros::Time`, for a stamp of `sec` whole seconds and
`nsec` nanoseconds; the literal `1e-9` is the `double` nearest to it. -/
def binary64 : DoubleArith :=
  { toSec := fun t =>
      roundDouble ((⌊t⌋ : ℚ) + roundDouble (roundDouble (1 / 10 ^ 9) * ((t - ⌊t⌋) * 10 ^ 9)))
    sub := fun x y => roundDouble (x - y)
    div := fun x y => roundDouble (x / y)
    mul := fun x y => roundDouble (x * y) }

/-- The timing tolerance of `cleanPotentialBuffer` (lines 247-250) as the code computes it;
`5/60` is an integer division. -/
def timingToleranceWith (ar : DoubleArith) (framerate_ : ℚ) : ℚ :=
  if framerate_ ≠ 0 then ar.mul (ar.div 1 framerate_) 4 else ((5 / 60 : ℤ) : ℚ)

/-- The decision of `cleanPotentialBuffer` for one track (lines 254-276) as the code computes
it: `true` when the track stays. -/
def keepTrackWith (ar : DoubleArith) (framerate_ now : ℚ) (seq : Track) : Bool :=
  match seq.getLast? with
  | none => true
  | some last =>
    if seq.length > 2 ∧ ledFromEnd seq 1 = some false ∧ ledFromEnd seq 2 = some false
        ∧ ledFromEnd seq 3 = some false then false
    else
      let insert_time := ar.toSec last.insert_time
      let diff_last_insert := |ar.sub insert_time (ar.toSec now)|
      if diff_last_insert > timingToleranceWith ar framerate_ then false
      else true

/-- The method `cleanPotentialBuffer` with the `double` operations `ar`. -/
def cleanPotentialBufferWith (ar : DoubleArith) (now : ℚ) (s : alternativeHT) : alternativeHT :=
  { s with gen_sequences_ := s.gen_sequences_.filter (keepTrackWith ar s.framerate_ now) }

/-- Conversion of a `double` to `int` (truncation toward zero), as in `cv::Point(x, y)`, for a
value within the range of `int`, as pixel coordinates are. -/
def truncToInt (q : ℚ) : ℤ :=
  if 0 ≤ q then ⌊q⌋ else ⌈q⌉

/-- The message `ImagePointsWithFloatStamped`: the points and the stamp. -/
structure ImagePoints where
  points : List Point2d
  stamp : ℚ

/-- The frame built by `processBuffer` (lines 29-36). -/
def frameOf (c : Consts) (pts_msg : ImagePoints) : List PointState :=
  pts_msg.points.map (fun pt =>
    { c.blank with
      point := { x := (truncToInt pt.x : ℚ), y := (truncToInt pt.y : ℚ) },
      led_state := true,
      insert_time := pts_msg.stamp })

/-- The method `processBuffer`; `now` is the clock read for the placeholders, `now_clean` the
clock read by `cleanPotentialBuffer`. -/
def processBuffer (c : Consts) (now now_clean : ℚ) (s : alternativeHT) (pts_msg : ImagePoints) :
    Option alternativeHT :=
  match findClosestPixelAndInsert c s.original_sequences_ now s.gen_sequences_
      (frameOf c pts_msg) with
  | none => none
  | some tracks => some (cleanPotentialBuffer now_clean { s with gen_sequences_ := tracks })

/-- The loop of `findSequenceMatch` (lines 324-328): some index `i ≥ 2` has
`sequence[i]`, `sequence[i-1]` and `sequence[i-2]` all false. -/
def threeFalseAt (sequence : List Bool) (i : ℕ) : Bool :=
  sequence[i]? == some false && sequence[i - 1]? == some false && sequence[i - 2]? == some false

/-- The method `findSequenceMatch`. -/
def findSequenceMatch (matcher_ : Option (List Bool → ℤ)) (sequence : List Bool) : Option ℤ :=
  if (List.range' 2 (sequence.length - 2)).any (threeFalseAt sequence) then some (-2)
  else
    match matcher_ with
    | none => none
    | some matchSignalWithCrossCorr => some (matchSignalWithCrossCorr sequence)

/-- The vector `selected` of `getResults` (lines 292-303). -/
def selectedOf (refLen : ℕ) (return_seq : Track) : Track :=
  if return_seq.length > refLen then
    let diff := return_seq.length - refLen
    (List.range' diff (return_seq.length - diff)).filterMap (fun i => return_seq[i]?)
  else return_seq

/-- The body of the loop of `getResults` for one track. -/
def resultOf (refLen : ℕ) (matcher_ : Option (List Bool → ℤ)) (sequence : Track) :
    Option (Track × ℤ) :=
  let return_seq := sequence
  let led_states := (selectedOf refLen return_seq).map (fun point => point.led_state)
  match findSequenceMatch matcher_ led_states with
  | none => none
  | some id => some (return_seq, id)

/-- The loop of `getResults` over `gen_sequences_` (lines 285-317). Each iteration reads
`original_sequences_[0]` (line 293), which is undefined when the code set is empty; with no
track left the loop ends and nothing is read. -/
def getResultsLoop (original_sequences_ : List (List Bool))
    (matcher_ : Option (List Bool → ℤ)) : List Track → Option (List (Track × ℤ))
  | [] => some []
  | sequence :: rest =>
    match original_sequences_ with
    | [] => none
    | s0 :: _ =>
      match resultOf s0.length matcher_ sequence with
      | none => none
      | some r =>
        match getResultsLoop original_sequences_ matcher_ rest with
        | none => none
        | some retrievedSignals => some (r :: retrievedSignals)

/-- The method `getResults`. -/
def getResults (s : alternativeHT) : Option (List (Track × ℤ)) :=
  getResultsLoop s.original_sequences_ s.matcher_ s.gen_sequences_

/-- The states the tracker reaches from `s0` by calls of `processBuffer` and
`updateFramerate`. -/
inductive Reachable (c : Consts) (s0 : alternativeHT) : alternativeHT → Prop
  | start : Reachable c s0 s0
  | ingest (s s1 : alternativeHT) (now now_clean : ℚ) (pts_msg : ImagePoints) :
      Reachable c s0 s → processBuffer c now now_clean s pts_msg = some s1 → Reachable c s0 s1
  | rate (s : alternativeHT) (input : ℚ) :
      Reachable c s0 s → Reachable c s0 (updateFramerate s input)

/-- The suffix window of a track named by the specification: the `led_state` values of its last
`refLen` observations, or of the whole track when it is shorter. -/
def suffixWindow (refLen : ℕ) (track : Track) : List Bool :=
  (track.drop (track.length - refLen)).map (fun p => p.led_state)

/-! ## Concrete data for the examples -/

/-- An `ExtendedSearch` object for the examples: unit weights, no regression, and an ellipse
test that accepts a point within the half-extents of the centre. -/
def exSearch : ExtendedSearch where
  calculateWeightVector := fun time => time.map (fun _ => 1)
  calcWeightedMean := fun values _ => values.headD 0
  calcWSTD := fun _ _ _ => 0
  polyReg := fun _ _ _ =>
    { mean := 0, coeff := [], predicted_coordinate := 0, ellipse_val := 0, used_poly_order := 1 }
  confidenceInterval := fun _ _ _ _ => 0
  checkIfInsideEllipse := fun centre ellipse q =>
    decide (|q.x - centre.x| ≤ ellipse.x ∧ |q.y - centre.y| ≤ ellipse.y)

/-- A default-constructed observation for the examples. -/
def exBlank : PointState where
  point := { x := 0, y := 0 }
  led_state := false
  insert_time := 0
  extended_search := false
  ellipse := { x := 0, y := 0 }
  predicted := { x := 0, y := 0 }
  x_coeff := []
  y_coeff := []

/-- Constants for the examples: pixel thresholds 2 and 2, no prediction margin, growth
factor 3. -/
def exConsts : Consts where
  max_pixel_shift_x_ := 2
  max_pixel_shift_y_ := 2
  prediction_margin_ := 0
  size_for_saved_seqs_ := 3
  blank := exBlank
  extended_search_ := exSearch

/-- A detection at `(x, y)` with time stamp `t`. -/
def exOn (x y t : ℚ) : PointState :=
  { exBlank with point := { x := x, y := y }, led_state := true, insert_time := t }

/-- A placeholder at `(x, y)` with time stamp `t`. -/
def exOff (x y t : ℚ) : PointState :=
  { exBlank with point := { x := x, y := y }, led_state := false, insert_time := t }

/-- A matcher for the examples: it reports the number of `true` values. -/
def exMatcher (_codes : List (List Bool)) (sequence : List Bool) : ℤ :=
  (sequence.count true : ℤ)

/-- A tracker configured with the codes `[1,0,1,0]` and `[1,1,0,0]`, at 10 Hz, holding three
tracks: one that ends in two detections, one that ends in three placeholders, and one that
alternates. -/
def exTracker : alternativeHT :=
  { setSequences exMatcher
      { original_sequences_ := [], matcher_ := none, framerate_ := 10, gen_sequences_ := [] }
      [[true, false, true, false], [true, true, false, false]] with
    gen_sequences_ :=
      [[exOn 10 10 0, exOn 10 10 (1/10)],
       [exOn 60 10 0, exOff 60 10 (1/10), exOff 60 10 (2/10), exOff 60 10 (3/10)],
       [exOn 10 60 0, exOff 10 60 (1/10), exOn 10 60 (2/10)]] }

/-- A frame for the examples: a detection next to the first track and one far from every
track. -/
def exFrame : List PointState :=
  [exOn 11 10 (4/10), exOn 200 200 (4/10)]

/-- A tracker with an empty track set, configured by `setSequences` with the single code of
length 0. -/
def exEmptyCode : alternativeHT :=
  setSequences exMatcher
    { original_sequences_ := [], matcher_ := none, framerate_ := 10, gen_sequences_ := [] }
    [[]]

/-- A tracker with an empty track set, configured with the codes `[1,0,1,0]` and `[1,1,0,0]`,
at 10 Hz. -/
def exStart : alternativeHT :=
  setSequences exMatcher
    { original_sequences_ := [], matcher_ := none, framerate_ := 10, gen_sequences_ := [] }
    [[true, false, true, false], [true, true, false, false]]

/-- A message with one point at `(5, 5)` and stamp 0. -/
def exMsg : ImagePoints :=
  { points := [{ x := 5, y := 5 }], stamp := 0 }

/-- The state of `expandedSearch` on the tracks of `exTracker` when the fast pass has matched
nothing and passed on one detection. -/
def exAssoc : Assoc :=
  { tracks := exTracker.gen_sequences_, pool := [0, 1, 2], no_nn := [exOn 200 200 (4/10)] }

/-- An `ExtendedSearch` object for the examples like `exSearch`, with the arithmetic mean of
the samples as weighted mean. -/
def exAverage : ExtendedSearch :=
  { exSearch with calcWeightedMean := fun values _ => values.sum / values.length }

/-- The constants of `exConsts` with the `ExtendedSearch` object `exAverage`. -/
def exConstsAvg : Consts :=
  { exConsts with extended_search_ := exAverage }

/-- A track of a marker that moved from `(10, 60)` to `(14, 60)` and was off in the last
frame. -/
def exMoving : Track :=
  [exOn 10 60 0, exOn 12 60 (1/10), exOff 12 60 (2/10), exOn 14 60 (3/10), exOff 14 60 (4/10)]

/-- A track at `(10, 60)` that was off in the last frame. -/
def exBlinking : Track :=
  [exOn 10 60 0, exOff 10 60 (1/10)]

/-- The state of `expandedSearch` with the track `exBlinking` and two unmatched detections,
both 3 pixels from its last position. -/
def exTwoInside : Assoc :=
  { tracks := [exBlinking], pool := [0],
    no_nn := [exOn 13 60 (2/10), exOn 7 60 (2/10)] }

/-- The state of the fast pass on the tracks of `exTracker` after the frame `exFrame`: the
first track has taken the first detection, the second detection is passed on. -/
def exAfterFast : Assoc :=
  { tracks :=
      [[exOn 10 10 0, exOn 10 10 (1/10), exOn 11 10 (4/10)],
       [exOn 60 10 0, exOff 60 10 (1/10), exOff 60 10 (2/10), exOff 60 10 (3/10)],
       [exOn 10 60 0, exOff 10 60 (1/10), exOn 10 60 (2/10)]],
    pool := [1, 2],
    no_nn := [exOn 200 200 (4/10)] }

/-- The ellipse test of the claim about the predicted position: the detection `q` against the
ellipse of the track centred on the predicted position. -/
def predictedCentreTest (c : Consts) (insert_time : ℚ) (seq : Track)
    (last_point q : PointState) : Bool :=
  c.extended_search_.checkIfInsideEllipse
    (withPrediction c insert_time seq last_point).predicted
    (withPrediction c insert_time seq last_point).ellipse q.point

/-- The fast-pass gate in the words of the specification: the detection differs from the last
observation of the track by no more than `max_pixel_shift_x` in x and `max_pixel_shift_y` in y
(per axis, inclusive). -/
def specGate (c : Consts) (d : PointState) (t : Track) : Bool :=
  match t.getLast? with
  | none => false
  | some last =>
    decide (|d.point.x - last.point.x| ≤ (c.max_pixel_shift_x_ : ℚ)
      ∧ |d.point.y - last.point.y| ≤ (c.max_pixel_shift_y_ : ℚ))

/-- The state of the fast pass in the words of the specification: the tracks in track-set
order, the tracks already matched in this frame, and the detections passed on to the expanded
search. -/
structure FastSpec where
  tracks : List Track
  matched : List ℕ
  passed : List PointState

/-- The fast pass for one detection in the words of the specification: the detection is appended
to the first track, in track-set order, that is not yet matched and satisfies the gate, and that
track leaves the candidates; without such a track the detection is passed on. -/
def specFastStep (c : Consts) (cap : ℕ) (st : FastSpec) (d : PointState) : FastSpec :=
  match (List.range st.tracks.length).find?
      (fun i => !st.matched.contains i && specGate c d (st.tracks.getD i [])) with
  | some i =>
    { st with
      tracks := st.tracks.set i (insertPointToSequence cap (st.tracks.getD i []) d),
      matched := i :: st.matched }
  | none => { st with passed := st.passed ++ [d] }

/-- The fast pass in the words of the specification: the detections in detection order. -/
def specFastPass (c : Consts) (cap : ℕ) (tracks : List Track) (frame : List PointState) :
    FastSpec :=
  frame.foldl (specFastStep c cap) { tracks := tracks, matched := [], passed := [] }

/-- The state of `findClosestPixelAndInsert` that stands for a state of the specification: the
candidate pool holds the handles of the tracks not yet matched, in track-set order. -/
def FastSpec.toAssoc (st : FastSpec) : Assoc :=
  { tracks := st.tracks,
    pool := (List.range st.tracks.length).filter (fun i => !st.matched.contains i),
    no_nn := st.passed }

/-- A track ends in three placeholders: its last three observations all have
`led_state = false`. -/
def EndsInThreeOff (t : Track) : Prop :=
  ∃ (pre : Track) (p3 p2 p1 : PointState), t = pre ++ [p3, p2, p1] ∧
    p3.led_state = false ∧ p2.led_state = false ∧ p1.led_state = false

/-- A track ends in two real detections: its last two observations both have
`led_state = true`. -/
def EndsInTwoOn (t : Track) : Prop :=
  ∃ (pre : Track) (p2 p1 : PointState), t = pre ++ [p2, p1] ∧
    p2.led_state = true ∧ p1.led_state = true

/-! ## Relations used to state the properties -/

/-- The members of an observation that identify it: position, `led_state` and time stamp (the
other members are the predictive ones). -/
def core (p : PointState) : Point2d × Bool × ℚ :=
  (p.point, p.led_state, p.insert_time)

/-- Two tracks agree on position, `led_state` and time stamp of every observation. -/
def SameCore (t t1 : Track) : Prop :=
  t.map core = t1.map core

/-- The track `t` is the track `t0`, possibly after `expandedSearch` (with target time `it`) has
written the predictive members of its last observation; this happens only to tracks that pass
the validity guard. -/
def Touched (c : Consts) (it : ℚ) (t0 t : Track) : Prop :=
  t = t0 ∨ (checkSequenceValidityWithNewInsert t0 = true ∧
    ∃ last, t0.getLast? = some last ∧ t = t0.dropLast ++ [withPrediction c it t0 last])

/-- The observation `obs` appended to the track `old` is the detection `d`: `d` itself (fast
pass), or `d` with the predictive members copied from the last observation of `old`
(expanded search). -/
def Tagged (old : Track) (obs d : PointState) : Prop :=
  obs = d ∨ ∃ lp, old.getLast? = some lp ∧ obs = tagDetection lp d

/-- The invariant of one run of `findClosestPixelAndInsert` on the tracks `tracks0`, after the
detections `fr` have left `current_frame`: `m` lists the matches made so far, as pairs of a
handle and the detection appended to its track. -/
structure Inv (c : Consts) (cap : ℕ) (it : ℚ) (tracks0 : List Track) (fr : List PointState)
    (a : Assoc) (m : List (ℕ × PointState)) : Prop where
  len : a.tracks.length = tracks0.length
  nodup : a.pool.Nodup
  mfst : (m.map Prod.fst).Nodup
  cover : ∀ i, i < tracks0.length ↔ (i ∈ a.pool ∨ i ∈ m.map Prod.fst)
  disj : ∀ i ∈ a.pool, i ∉ m.map Prod.fst
  inpool : ∀ h ∈ a.pool, Touched c it (tracks0.getD h []) (a.tracks.getD h [])
  matched : ∀ x ∈ m, ∃ old obs, Touched c it (tracks0.getD x.1 []) old ∧ Tagged old obs x.2 ∧
    a.tracks.getD x.1 [] = insertPointToSequence cap old obs
  perm : (m.map Prod.snd ++ a.no_nn).Perm fr
  sub : a.no_nn.Sublist fr

/-- The gate of the fast pass for the track behind handle `h`. -/
def gateAt (c : Consts) (tracks : List Track) (d : PointState) (h : ℕ) : Bool :=
  match backOf tracks h with
  | some last => withinShift c d last
  | none => false

/-- The placeholder `pVirtual` built by `insertVPforSequencesWithNoInsert` from the last
observation of a track. -/
def placeholderOf (now : ℚ) (last : PointState) : PointState :=
  { last with insert_time := now, led_state := false }

/-- The handles of `sequences_no_insert` are distinct and point to non-empty tracks of the track
list. -/
def Assoc.WF (a : Assoc) : Prop :=
  a.pool.Nodup ∧ ∀ h ∈ a.pool, h < a.tracks.length ∧ a.tracks.getD h [] ≠ []

/-- The samples of a track in the words of the specification: position and time stamp of the
observations with `led_state = true`, in track order. -/
def observedSamples (seq : Track) : List (ℚ × ℚ × ℚ) :=
  seq.filterMap (fun p => if p.led_state then some (p.point.x, p.point.y, p.insert_time) else none)

/-- The observation `last_point` with the predictive members that the predictor returns for
the samples `samples`, each axis on its own: the x values with the time stamps and the x
threshold, the y values with the time stamps and the y threshold. -/
def predictedFromSamples (c : Consts) (insert_time : ℚ) (samples : List (ℚ × ℚ × ℚ))
    (last_point : PointState) : PointState :=
  let x_predictions := selectStatisticsValues c (samples.map (fun s => s.1))
    (samples.map (fun s => s.2.2)) insert_time c.max_pixel_shift_x_
  let y_predictions := selectStatisticsValues c (samples.map (fun s => s.2.1))
    (samples.map (fun s => s.2.2)) insert_time c.max_pixel_shift_y_
  { last_point with
    ellipse := { x := x_predictions.ellipse_val, y := y_predictions.ellipse_val },
    predicted := { x := x_predictions.predicted_coordinate,
                   y := y_predictions.predicted_coordinate },
    x_coeff := x_predictions.coeff,
    y_coeff := y_predictions.coeff,
    extended_search := true }

/-- The ellipse test that the search loop of `expandedSearch` applies to the detection `q` for
the track `seq` with last observation `last_point` (line 135). -/
def ellipseTest (c : Consts) (insert_time : ℚ) (seq : Track) (last_point q : PointState) :
    Bool :=
  c.extended_search_.checkIfInsideEllipse (withPrediction c insert_time seq last_point).point
    (withPrediction c insert_time seq last_point).ellipse q.point

/-- The detection `d` fails the ellipse test of the track `t`. -/
def OutsideEllipse (c : Consts) (insert_time : ℚ) (d : PointState) (t : Track) : Prop :=
  ∀ last, t.getLast? = some last → ellipseTest c insert_time t last d = false

/-- One effective iteration of the search loop of `expandedSearch` on a track that passes the
validity guard: either no detection passes the ellipse test and only the predictive members of
the last observation are written (`touch`), or the first detection that passes is appended and
track and detection leave their vectors (`hit`). -/
inductive ExpStep (c : Consts) (cap : ℕ) (it : ℚ) : Assoc → Assoc → Prop
  | touch (a : Assoc) (k h : ℕ) (last0 : PointState) :
      a.pool[k]? = some h →
      checkSequenceValidityWithNewInsert (a.tracks.getD h []) = true →
      (a.tracks.getD h []).getLast? = some last0 →
      a.no_nn.findIdx? (ellipseTest c it (a.tracks.getD h []) last0) = none →
      ExpStep c cap it a
        { a with tracks := (a.tracks.set h ((a.tracks.getD h []).dropLast ++
            [withPrediction c it (a.tracks.getD h []) last0])) }
  | hit (a : Assoc) (k h : ℕ) (last0 : PointState) (i : ℕ) (q : PointState) :
      a.pool[k]? = some h →
      checkSequenceValidityWithNewInsert (a.tracks.getD h []) = true →
      (a.tracks.getD h []).getLast? = some last0 →
      a.no_nn.findIdx? (ellipseTest c it (a.tracks.getD h []) last0) = some i →
      a.no_nn[i]? = some q →
      ExpStep c cap it a
        { tracks := (a.tracks.set h (insertPointToSequence cap
            ((a.tracks.getD h []).dropLast ++ [withPrediction c it (a.tracks.getD h []) last0])
            (tagDetection (withPrediction c it (a.tracks.getD h []) last0) q))),
          pool := a.pool.eraseIdx k,
          no_nn := a.no_nn.eraseIdx i }

/-- An `ExtendedSearch` object for the examples like `exSearch`, with a weighted standard
deviation of 5, so that the half-extents of the ellipse are 10. -/
def exWide : ExtendedSearch :=
  { exSearch with calcWSTD := fun _ _ _ => 5 }

/-- The constants of `exConsts` with the `ExtendedSearch` object `exWide`. -/
def exConstsWide : Consts :=
  { exConsts with extended_search_ := exWide }

/-- A track of three real detections that moves 6 px per frame in x. -/
def exThreeOn : Track :=
  [exOn 10 60 0, exOn 16 60 (1/10), exOn 22 60 (2/10)]

/-- A track that moved 6 px in x and was off in the last frame. -/
def exOnOnOff : Track :=
  [exOn 10 60 0, exOn 16 60 (1/10), exOff 16 60 (2/10)]

/-- Two tracks of one detection each, 50 px apart. -/
def exPair : List Track :=
  [[exOn 10 10 0], [exOn 60 10 0]]

/-- The state of `expandedSearch` with the track `exBlinking` and three unmatched detections:
one far away, one 4 px and one 3 px from the last position of the track. -/
def exCloser : Assoc :=
  { tracks := [exBlinking], pool := [0],
    no_nn := [exOn 200 200 (2/10), exOn 14 60 (2/10), exOn 13 60 (2/10)] }

/-- A tracker with no track, no code set and the frame rate 10. -/
def exIdle : alternativeHT :=
  { original_sequences_ := [], matcher_ := none, framerate_ := 10, gen_sequences_ := [] }

/-- A track holds no three consecutive placeholders: the `led_state` values of its observations
contain no three consecutive `false` values. -/
def NoThreeOff (t : Track) : Prop :=
  ¬ [false, false, false] <:+: t.map (fun p => p.led_state)

/-! ## The frame check of the receiver -/

/-- The loop `for bs` of `DataFrameCheck` in `new_uvdar_rx.cpp` (lines 124-136), from the value
of the loop variable given as first argument down to 3, on the vector
`received_msg_corrected` and the counter `rmc_size`: `Except.error` holds the vector at the
`return 1` of line 132, `Except.ok` the vector and the counter after the loop. -/
def bitStuffingLoop : ℕ → List ℤ → ℤ → Except (List ℤ) (List ℤ × ℤ)
  | 0, v, rmc_size => Except.ok (v, rmc_size)
  | bs + 1, v, rmc_size =>
    if bs + 1 < 3 then Except.ok (v, rmc_size)
    else if v[bs + 1 - 1]? = v[bs + 1 - 2]? ∧ v[bs + 1 - 2]? = v[bs + 1 - 3]? then
      if v[bs + 1 - 1]? ≠ v[bs + 1]? then
        bitStuffingLoop bs (v.eraseIdx (bs + 1)) (rmc_size - 1)
      else Except.error v
    else bitStuffingLoop bs v rmc_size

/-- The method `RX_processor::DataFrameCheck`: the value returned and the vector
`received_msg_corrected` on return; `none` when `erase(begin())` is called on the empty
vector. -/
def DataFrameCheck (received_msg_corrected : List ℤ) : Option (ℤ × List ℤ) :=
  match bitStuffingLoop (received_msg_corrected.length - 1) received_msg_corrected
      (received_msg_corrected.length : ℤ) with
  | Except.error v => some (1, v)
  | Except.ok (v, rmc_size) =>
    match v with
    | [] => none
    | _ :: stripped =>
      if rmc_size - 1 ≠ 8 ∧ rmc_size - 1 ≠ 9 ∧ rmc_size - 1 ≠ 13 then some (1, stripped)
      else if ((stripped.countP (fun cnt => decide (cnt > 0)) : ℕ) : ℤ) % 2 ≠ 1 then
        some (1, stripped)
      else some (0, stripped)

/-- A stuffed bit in the words of the specification: an element at index `i ≥ 3` that follows
three equal elements and differs from them. -/
def isStuffedBit (v : List ℤ) (i : ℕ) : Bool :=
  decide (3 ≤ i ∧ v[i - 1]? = v[i - 2]? ∧ v[i - 2]? = v[i - 3]? ∧ v[i - 1]? ≠ v[i]?)

/-- The vector without its stuffed bits. -/
def destuffed (v : List ℤ) : List ℤ :=
  (List.range v.length).filterMap (fun i => if isStuffedBit v i then none else v[i]?)

/-- The vector has four consecutive equal entries that end at index `i`. -/
def FourEqualAt (v : List ℤ) (i : ℕ) : Prop :=
  3 ≤ i ∧ i < v.length ∧ v[i - 3]? = v[i - 2]? ∧ v[i - 2]? = v[i - 1]? ∧ v[i - 1]? = v[i]?

/-! ## The scenarios -/

/-- The tracker after the messages have been ingested in order by `processBuffer`, when the
clock reads the stamp of the message being ingested, both for the placeholders and for the
pruning. -/
def feed (c : Consts) : alternativeHT → List ImagePoints → Option alternativeHT
  | s, [] => some s
  | s, msg :: rest =>
    match processBuffer c msg.stamp msg.stamp s msg with
    | none => none
    | some s1 => feed c s1 rest

/-- The code set of the scenarios: `[1,0,1,0]` and `[1,1,0,0]`. -/
def exCodes : List (List Bool) :=
  [[true, false, true, false], [true, true, false, false]]

/-- The four messages of the round-trip scenario, 0.1 s apart: the marker at `(10, 10)` is
detected in the first and the third frame. -/
def roundTripMsgs : List ImagePoints :=
  [{ points := [{ x := 10, y := 10 }], stamp := 0 },
   { points := [], stamp := 1/10 },
   { points := [{ x := 10, y := 10 }], stamp := 2/10 },
   { points := [], stamp := 3/10 }]

/-- An observation at `(x, y)` with the given `led_state` and time stamp, and the predictive
members of a default-constructed `PointState`. -/
def obsAt (c : Consts) (x y : ℚ) (led : Bool) (t : ℚ) : PointState :=
  { c.blank with point := { x := x, y := y }, led_state := led, insert_time := t }

/-- The message of frame `k` of the split-tracks scenario: the marker at `(10, 10)` is detected
when `a` holds, the marker at `(60, 10)` when `b` holds; the stamp is `k / 10` seconds. -/
def splitMsg (k : ℕ) (a b : Bool) : ImagePoints :=
  { points := (if a then [{ x := 10, y := 10 }] else []) ++
      (if b then [{ x := 60, y := 10 }] else []),
    stamp := (k : ℚ) / 10 }

/-- The messages of the split-tracks scenario for the on/off patterns `pa` and `pb` of the two
markers. -/
def splitMsgs (pa pb : List Bool) : List ImagePoints :=
  (List.zip pa pb).enum.map (fun x => splitMsg x.1 x.2.1 x.2.2)

/-- The track of a marker at `(x, y)` that has followed the on/off pattern `pattern` from frame
0 on, one observation per frame. -/
def markerTrack (c : Consts) (x y : ℚ) (pattern : List Bool) : Track :=
  pattern.enum.map (fun b => obsAt c x y b.2 ((b.1 : ℚ) / 10))

/-! ## Observations counted from the end of a track -/

theorem ledFromEnd_one (pre : Track) (p1 : PointState) :
    ledFromEnd (pre ++ [p1]) 1 = some p1.led_state := by
  simp [ledFromEnd]

theorem ledFromEnd_two (pre : Track) (p2 p1 : PointState) :
    ledFromEnd (pre ++ [p2, p1]) 2 = some p2.led_state := by
  have h : (pre ++ [p2, p1])[(pre ++ [p2, p1]).length - 2]? = some p2 := by
    rw [List.getElem?_append_right (by simp)]
    simp
  simp only [ledFromEnd, h, Option.map_some']

theorem ledFromEnd_three (pre : Track) (p3 p2 p1 : PointState) :
    ledFromEnd (pre ++ [p3, p2, p1]) 3 = some p3.led_state := by
  have h : (pre ++ [p3, p2, p1])[(pre ++ [p3, p2, p1]).length - 3]? = some p3 := by
    rw [List.getElem?_append_right (by simp)]
    simp
  simp only [ledFromEnd, h, Option.map_some']

theorem exists_snoc_of_length_pos {α : Type} (l : List α) (h : 0 < l.length) :
    ∃ pre x, l = pre ++ [x] := by
  have hne : l ≠ [] := by
    intro h0
    simp [h0] at h
  exact ⟨l.dropLast, l.getLast hne, (List.dropLast_concat_getLast hne).symm⟩

theorem exists_snoc2_of_length {α : Type} (l : List α) (h : 1 < l.length) :
    ∃ pre x y, l = pre ++ [x, y] := by
  obtain ⟨q, y, rfl⟩ := exists_snoc_of_length_pos l (by omega)
  obtain ⟨pre, x, rfl⟩ := exists_snoc_of_length_pos q (by simp at h; omega)
  exact ⟨pre, x, y, by simp⟩

theorem exists_snoc3_of_length {α : Type} (l : List α) (h : 2 < l.length) :
    ∃ pre x y z, l = pre ++ [x, y, z] := by
  obtain ⟨q, z, rfl⟩ := exists_snoc_of_length_pos l (by omega)
  obtain ⟨pre, x, y, rfl⟩ := exists_snoc2_of_length q (by simp at h; omega)
  exact ⟨pre, x, y, z, by simp⟩

/-- The test of lines 184-188 and 261-262 holds exactly for the tracks that end in three
placeholders. -/
theorem threeOff_test_iff (t : Track) :
    (t.length > 2 ∧ ledFromEnd t 1 = some false ∧ ledFromEnd t 2 = some false
      ∧ ledFromEnd t 3 = some false) ↔ EndsInThreeOff t := by
  constructor
  · rintro ⟨hl, h1, h2, h3⟩
    obtain ⟨pre, x, y, z, rfl⟩ := exists_snoc3_of_length t hl
    have e1 : pre ++ [x, y, z] = (pre ++ [x, y]) ++ [z] := by simp
    have e2 : pre ++ [x, y, z] = (pre ++ [x]) ++ [y, z] := by simp
    rw [ledFromEnd_three] at h3
    rw [e2, ledFromEnd_two] at h2
    rw [e1, ledFromEnd_one] at h1
    exact ⟨pre, x, y, z, rfl, by simpa using h3, by simpa using h2, by simpa using h1⟩
  · rintro ⟨pre, x, y, z, rfl, hx, hy, hz⟩
    have e1 : pre ++ [x, y, z] = (pre ++ [x, y]) ++ [z] := by simp
    have e2 : pre ++ [x, y, z] = (pre ++ [x]) ++ [y, z] := by simp
    refine ⟨by simp, ?_, ?_, ?_⟩
    · rw [e1, ledFromEnd_one, hz]
    · rw [e2, ledFromEnd_two, hy]
    · rw [ledFromEnd_three, hx]

/-- The test of lines 177-181 holds exactly for the tracks that end in two detections. -/
theorem twoOn_test_iff (t : Track) :
    (t.length > 1 ∧ ledFromEnd t 1 = some true ∧ ledFromEnd t 2 = some true)
      ↔ EndsInTwoOn t := by
  constructor
  · rintro ⟨hl, h1, h2⟩
    obtain ⟨pre, x, y, rfl⟩ := exists_snoc2_of_length t hl
    have e1 : pre ++ [x, y] = (pre ++ [x]) ++ [y] := by simp
    rw [ledFromEnd_two] at h2
    rw [e1, ledFromEnd_one] at h1
    exact ⟨pre, x, y, rfl, by simpa using h2, by simpa using h1⟩
  · rintro ⟨pre, x, y, rfl, hx, hy⟩
    have e1 : pre ++ [x, y] = (pre ++ [x]) ++ [y] := by simp
    refine ⟨by simp, ?_, ?_⟩
    · rw [e1, ledFromEnd_one, hy]
    · rw [ledFromEnd_two, hx]

/-! ## The validity guard -/

theorem check_false_iff (t : Track) :
    checkSequenceValidityWithNewInsert t = false ↔ EndsInTwoOn t ∨ EndsInThreeOff t := by
  unfold checkSequenceValidityWithNewInsert
  rw [← twoOn_test_iff, ← threeOff_test_iff]
  by_cases h2 : t.length > 1 ∧ ledFromEnd t 1 = some true ∧ ledFromEnd t 2 = some true
  · simp [h2]
  · by_cases h3 : t.length > 2 ∧ ledFromEnd t 1 = some false ∧ ledFromEnd t 2 = some false
        ∧ ledFromEnd t 3 = some false
    · rw [if_neg h2, if_pos h3]
      simp [h3]
    · rw [if_neg h2, if_neg h3]
      simp [h2, h3]

/-! ## Position, flag and time stamp of the observations -/

theorem SameCore.refl (t : Track) : SameCore t t := rfl

theorem SameCore.symm {t t1 : Track} (h : SameCore t t1) : SameCore t1 t := Eq.symm h

theorem SameCore.trans {t t1 t2 : Track} (h : SameCore t t1) (h1 : SameCore t1 t2) :
    SameCore t t2 := Eq.trans h h1

theorem SameCore.length_eq {t t1 : Track} (h : SameCore t t1) : t.length = t1.length := by
  have := congrArg List.length h
  simpa using this

theorem SameCore.ne_nil {t t1 : Track} (h : SameCore t t1) (hne : t1 ≠ []) : t ≠ [] := by
  intro h0
  have hl := h.length_eq
  rw [h0] at hl
  exact hne (List.length_eq_zero.1 hl.symm)

theorem ledFromEnd_eq_core (t : Track) (k : ℕ) :
    ledFromEnd t k = ((t.map core)[(t.map core).length - k]?).map (fun q => q.2.1) := by
  simp [ledFromEnd, core, List.getElem?_map, Option.map_map, Function.comp_def]

theorem SameCore.ledFromEnd_eq {t t1 : Track} (h : SameCore t t1) (k : ℕ) :
    ledFromEnd t k = ledFromEnd t1 k := by
  rw [ledFromEnd_eq_core, ledFromEnd_eq_core, h]

theorem SameCore.check_eq {t t1 : Track} (h : SameCore t t1) :
    checkSequenceValidityWithNewInsert t = checkSequenceValidityWithNewInsert t1 := by
  unfold checkSequenceValidityWithNewInsert
  rw [h.ledFromEnd_eq 1, h.ledFromEnd_eq 2, h.ledFromEnd_eq 3, h.length_eq]

theorem core_withPrediction (c : Consts) (it : ℚ) (seq : Track) (p : PointState) :
    core (withPrediction c it seq p) = core p := rfl

theorem core_tagDetection (lp d : PointState) : core (tagDetection lp d) = core d := rfl

theorem samples_eq_core (t : Track) (g : Point2d × Bool × ℚ → ℚ) :
    (t.filter (fun p => p.led_state)).map (fun p => g (core p))
      = ((t.map core).filter (fun q => q.2.1)).map g := by
  induction t with
  | nil => rfl
  | cons x xs ih =>
    by_cases hx : x.led_state = true
    · simp [List.filter_cons, hx, core, ih]
      simpa [core] using ih
    · simp [List.filter_cons, hx, core]
      simpa [core] using ih

theorem SameCore.withPrediction_eq {t t1 : Track} (h : SameCore t t1) (c : Consts) (it : ℚ)
    (p : PointState) : withPrediction c it t p = withPrediction c it t1 p := by
  have hx := samples_eq_core t (fun q => q.1.x)
  have hy := samples_eq_core t (fun q => q.1.y)
  have ht := samples_eq_core t (fun q => q.2.2)
  have hx1 := samples_eq_core t1 (fun q => q.1.x)
  have hy1 := samples_eq_core t1 (fun q => q.1.y)
  have ht1 := samples_eq_core t1 (fun q => q.2.2)
  simp only [core] at hx hy ht hx1 hy1 ht1
  have h0 : t.map core = t1.map core := h
  unfold withPrediction
  simp only [hx, hy, ht, hx1, hy1, ht1, h0]

theorem withPrediction_idem (c : Consts) (it : ℚ) (t : Track) (p : PointState) :
    withPrediction c it t (withPrediction c it t p) = withPrediction c it t p := rfl

theorem sameCore_setBack (t : Track) (last p : PointState) (hl : t.getLast? = some last)
    (hc : core p = core last) : SameCore (t.dropLast ++ [p]) t := by
  have ht : t.dropLast ++ [last] = t :=
    List.dropLast_append_getLast? last (Option.mem_def.2 hl)
  unfold SameCore
  conv_rhs => rw [← ht]
  simp [hc]

/-! ## Appending with the length bound -/

theorem insert_length_le (cap : ℕ) (t : Track) (p : PointState) (h : t.length ≤ cap) :
    (insertPointToSequence cap t p).length ≤ cap := by
  unfold insertPointToSequence
  simp only []
  split
  · simp
    omega
  · rename_i hh
    simp at hh ⊢
    omega

theorem insert_of_ne_nil (cap : ℕ) (t : Track) (p : PointState) (h : t ≠ []) :
    ∃ pre, insertPointToSequence cap t p = pre ++ [p] := by
  unfold insertPointToSequence
  simp only []
  split
  · cases t with
    | nil => exact absurd rfl h
    | cons x xs => exact ⟨xs, rfl⟩
  · exact ⟨t, rfl⟩

theorem insert_ne_nil (cap : ℕ) (t : Track) (p : PointState) (h : t ≠ []) :
    insertPointToSequence cap t p ≠ [] := by
  obtain ⟨pre, hp⟩ := insert_of_ne_nil cap t p h
  rw [hp]
  simp

theorem insert_getLast? (cap : ℕ) (t : Track) (p : PointState) (h : t ≠ []) :
    (insertPointToSequence cap t p).getLast? = some p := by
  obtain ⟨pre, hp⟩ := insert_of_ne_nil cap t p h
  rw [hp, List.getLast?_concat]

/-! ## Lists of handles -/

theorem getD_set_self {α : Type} (l : List α) (h : ℕ) (a d : α) (hh : h < l.length) :
    (l.set h a).getD h d = a := by
  rw [List.getD_eq_getElem?_getD, List.getElem?_set_self (by simpa using hh)]
  rfl

theorem getD_set_ne {α : Type} (l : List α) (h j : ℕ) (a d : α) (hne : h ≠ j) :
    (l.set h a).getD j d = l.getD j d := by
  rw [List.getD_eq_getElem?_getD, List.getD_eq_getElem?_getD, List.getElem?_set_ne hne]

theorem mem_of_getElem? {α : Type} {l : List α} {j : ℕ} {x : α} (h : l[j]? = some x) :
    x ∈ l := by
  obtain ⟨hj, rfl⟩ := List.getElem?_eq_some_iff.1 h
  exact List.getElem_mem hj

theorem perm_cons_eraseIdx {α : Type} (l : List α) (i : ℕ) (q : α) (h : l[i]? = some q) :
    l.Perm (q :: l.eraseIdx i) := by
  induction l generalizing i with
  | nil => simp at h
  | cons x xs ih =>
    cases i with
    | zero =>
      simp at h
      subst h
      simp
    | succ i =>
      simp at h
      simp only [List.eraseIdx_cons_succ]
      exact ((ih i h).cons x).trans (List.Perm.swap q x _)

theorem mem_eraseIdx_of_ne {α : Type} (l : List α) (i : ℕ) (q x : α) (h : l[i]? = some q)
    (hx : x ∈ l) (hne : x ≠ q) : x ∈ l.eraseIdx i := by
  have hp := (perm_cons_eraseIdx l i q h).mem_iff.1 hx
  rcases List.mem_cons.1 hp with h1 | h1
  · exact absurd h1 hne
  · exact h1

theorem not_mem_eraseIdx_of_nodup {α : Type} (l : List α) (i : ℕ) (q : α) (h : l[i]? = some q)
    (hn : l.Nodup) : q ∉ l.eraseIdx i := by
  have hp := (perm_cons_eraseIdx l i q h).nodup_iff.1 hn
  exact (List.nodup_cons.1 hp).1

theorem mem_of_mem_eraseIdx {α : Type} (l : List α) (i : ℕ) (x : α) (h : x ∈ l.eraseIdx i) :
    x ∈ l :=
  (List.eraseIdx_sublist l i).subset h

/-! ## The association invariant -/

theorem Touched.sameCore {c : Consts} {it : ℚ} {t0 t : Track} (h : Touched c it t0 t) :
    SameCore t t0 := by
  rcases h with rfl | ⟨-, last, hl, rfl⟩
  · exact SameCore.refl _
  · exact sameCore_setBack t0 last _ hl (core_withPrediction c it t0 last)

theorem Tagged.core_eq {old : Track} {obs d : PointState} (h : Tagged old obs d) :
    core obs = core d := by
  rcases h with rfl | ⟨lp, -, rfl⟩
  · rfl
  · rfl

/-- Writing the predictive members once more (lines 121-132) to a track that is `Touched`. -/
theorem Touched.again {c : Consts} {it : ℚ} {t0 t : Track} (h : Touched c it t0 t)
    (hc : checkSequenceValidityWithNewInsert t = true) (last : PointState)
    (hl : t.getLast? = some last) :
    Touched c it t0 (t.dropLast ++ [withPrediction c it t last]) := by
  have hsc := h.sameCore
  rcases h with rfl | ⟨hc0, last0, hl0, rfl⟩
  · exact Or.inr ⟨hc, last, hl, rfl⟩
  · refine Or.inr ⟨hc0, last0, hl0, ?_⟩
    rw [List.getLast?_concat] at hl
    cases hl
    rw [List.dropLast_concat, hsc.withPrediction_eq c it]
    rfl

theorem Inv.start (c : Consts) (cap : ℕ) (it : ℚ) (tracks0 : List Track) :
    Inv c cap it tracks0 []
      { tracks := tracks0, pool := List.range tracks0.length, no_nn := [] } [] where
  len := rfl
  nodup := List.nodup_range _
  mfst := by simp
  cover := by simp
  disj := by simp
  inpool := fun _ _ => Or.inl rfl
  matched := by simp
  perm := by simp
  sub := by simp

theorem Inv.matchStep {c : Consts} {cap : ℕ} {it : ℚ} {tracks0 : List Track}
    {fr : List PointState} {a : Assoc} {m : List (ℕ × PointState)}
    (hI : Inv c cap it tracks0 fr a m) (j h : ℕ) (hj : a.pool[j]? = some h)
    (old : Track) (obs d : PointState) (hold : Touched c it (tracks0.getD h []) old)
    (htag : Tagged old obs d) (nn1 fr1 : List PointState)
    (hperm : ((d :: m.map Prod.snd) ++ nn1).Perm fr1) (hsub : nn1.Sublist fr1) :
    Inv c cap it tracks0 fr1
      { tracks := a.tracks.set h (insertPointToSequence cap old obs),
        pool := a.pool.eraseIdx j, no_nn := nn1 } ((h, d) :: m) := by
  have hmem : h ∈ a.pool := mem_of_getElem? hj
  have hlt : h < a.tracks.length := by
    rw [hI.len]
    exact (hI.cover h).2 (Or.inl hmem)
  have hnot : h ∉ a.pool.eraseIdx j := not_mem_eraseIdx_of_nodup a.pool j h hj hI.nodup
  constructor
  · simp [hI.len]
  · exact hI.nodup.eraseIdx j
  · simp only [List.map_cons, List.nodup_cons]
    exact ⟨hI.disj h hmem, hI.mfst⟩
  · intro i
    rw [hI.cover i]
    simp only [List.map_cons, List.mem_cons]
    constructor
    · rintro (hi | hi)
      · by_cases hih : i = h
        · exact Or.inr (Or.inl hih)
        · exact Or.inl (mem_eraseIdx_of_ne a.pool j h i hj hi hih)
      · exact Or.inr (Or.inr hi)
    · rintro (hi | hi | hi)
      · exact Or.inl (mem_of_mem_eraseIdx _ _ _ hi)
      · exact Or.inl (hi ▸ hmem)
      · exact Or.inr hi
  · intro i hi
    simp only [List.map_cons, List.mem_cons, not_or]
    constructor
    · rintro rfl
      exact hnot hi
    · exact hI.disj i (mem_of_mem_eraseIdx _ _ _ hi)
  · intro i hi
    have hne : h ≠ i := by
      rintro rfl
      exact hnot hi
    simp only []
    rw [getD_set_ne _ _ _ _ _ hne]
    exact hI.inpool i (mem_of_mem_eraseIdx _ _ _ hi)
  · intro x hx
    rcases List.mem_cons.1 hx with rfl | hx
    · exact ⟨old, obs, hold, htag, getD_set_self _ _ _ _ hlt⟩
    · obtain ⟨old1, obs1, h1, h2, h3⟩ := hI.matched x hx
      refine ⟨old1, obs1, h1, h2, ?_⟩
      have hne : h ≠ x.1 := by
        intro he
        exact hI.disj h hmem (he ▸ List.mem_map_of_mem Prod.fst hx)
      simp only []
      rw [getD_set_ne _ _ _ _ _ hne]
      exact h3
  · simpa using hperm
  · exact hsub

theorem Inv.touchStep {c : Consts} {cap : ℕ} {it : ℚ} {tracks0 : List Track}
    {fr : List PointState} {a : Assoc} {m : List (ℕ × PointState)}
    (hI : Inv c cap it tracks0 fr a m) (h : ℕ) (hmem : h ∈ a.pool)
    (t : Track) (ht : Touched c it (tracks0.getD h []) t) :
    Inv c cap it tracks0 fr { a with tracks := a.tracks.set h t } m := by
  have hlt : h < a.tracks.length := by
    rw [hI.len]
    exact (hI.cover h).2 (Or.inl hmem)
  constructor
  · simp [hI.len]
  · exact hI.nodup
  · exact hI.mfst
  · exact hI.cover
  · exact hI.disj
  · intro i hi
    simp only []
    by_cases hne : h = i
    · subst hne
      rw [getD_set_self _ _ _ _ hlt]
      exact ht
    · rw [getD_set_ne _ _ _ _ _ hne]
      exact hI.inpool i hi
  · intro x hx
    obtain ⟨old1, obs1, h1, h2, h3⟩ := hI.matched x hx
    refine ⟨old1, obs1, h1, h2, ?_⟩
    have hne : h ≠ x.1 := by
      intro he
      exact hI.disj h hmem (he ▸ List.mem_map_of_mem Prod.fst hx)
    simp only []
    rw [getD_set_ne _ _ _ _ _ hne]
    exact h3
  · exact hI.perm
  · exact hI.sub

theorem Inv.passStep {c : Consts} {cap : ℕ} {it : ℚ} {tracks0 : List Track}
    {fr : List PointState} {a : Assoc} {m : List (ℕ × PointState)}
    (hI : Inv c cap it tracks0 fr a m) (d : PointState) :
    Inv c cap it tracks0 (fr ++ [d]) { a with no_nn := a.no_nn ++ [d] } m := by
  constructor
  · exact hI.len
  · exact hI.nodup
  · exact hI.mfst
  · exact hI.cover
  · exact hI.disj
  · exact hI.inpool
  · exact hI.matched
  · simp only []
    rw [← List.append_assoc]
    exact hI.perm.append_right [d]
  · exact hI.sub.append (List.Sublist.refl [d])

/-! ## The fast pass -/

theorem backOf_eq_getD (tracks : List Track) (h : ℕ) :
    backOf tracks h = (tracks.getD h []).getLast? := by
  unfold backOf
  rw [List.getD_eq_getElem?_getD]
  cases tracks[h]? <;> rfl

theorem scanPool_spec (c : Consts) (tracks : List Track) (d : PointState) (pool : List ℕ)
    (hb : ∀ h ∈ pool, tracks.getD h [] ≠ []) :
    (scanPool c tracks d pool = some none ∧ pool.find? (gateAt c tracks d) = none) ∨
    (∃ j h, scanPool c tracks d pool = some (some j) ∧ pool[j]? = some h ∧
      pool.find? (gateAt c tracks d) = some h) := by
  induction pool with
  | nil => exact Or.inl ⟨rfl, rfl⟩
  | cons h rest ih =>
    have hne := hb h (List.mem_cons_self _ _)
    obtain ⟨last, hl⟩ : ∃ last, backOf tracks h = some last := by
      rw [backOf_eq_getD]
      cases hg : (tracks.getD h []).getLast? with
      | none => exact absurd (List.getLast?_eq_none_iff.1 hg) hne
      | some last => exact ⟨last, rfl⟩
    have hg : gateAt c tracks d h = withinShift c d last := by
      simp [gateAt, hl]
    by_cases hw : withinShift c d last = true
    · right
      refine ⟨0, h, ?_, by simp, ?_⟩
      · simp [scanPool, hl, hw]
      · simp [List.find?_cons, hg, hw]
    · have hw0 : withinShift c d last = false := by simpa using hw
      rcases ih (fun x hx => hb x (List.mem_cons_of_mem _ hx)) with ⟨h1, h2⟩ | ⟨j, x, h1, h2, h3⟩
      · left
        constructor
        · simp [scanPool, hl, hw0, h1]
        · simp [List.find?_cons, hg, hw0, h2]
      · right
        refine ⟨j + 1, x, ?_, ?_, ?_⟩
        · simp [scanPool, hl, hw0, h1]
        · simpa using h2
        · simp [List.find?_cons, hg, hw0, h3]

theorem getD_ne_nil_of_mem (tracks0 : List Track) (hne : ∀ t ∈ tracks0, t ≠ []) (h : ℕ)
    (hh : h < tracks0.length) : tracks0.getD h [] ≠ [] := by
  rw [List.getD_eq_getElem?_getD, List.getElem?_eq_getElem hh]
  exact hne _ (List.getElem_mem hh)

theorem Inv.pool_ne_nil {c : Consts} {cap : ℕ} {it : ℚ} {tracks0 : List Track}
    {fr : List PointState} {a : Assoc} {m : List (ℕ × PointState)}
    (hI : Inv c cap it tracks0 fr a m) (hne : ∀ t ∈ tracks0, t ≠ []) :
    ∀ h ∈ a.pool, a.tracks.getD h [] ≠ [] := by
  intro h hh
  exact (hI.inpool h hh).sameCore.ne_nil
    (getD_ne_nil_of_mem tracks0 hne h ((hI.cover h).2 (Or.inl hh)))

/-- The result of one iteration of the fast pass, from the result of the scan. -/
theorem fastStep_eq (c : Consts) (cap : ℕ) (a : Assoc) (d : PointState)
    (hb : ∀ h ∈ a.pool, a.tracks.getD h [] ≠ []) :
    (a.pool.find? (gateAt c a.tracks d) = none ∧
      fastStep c (some cap) a d = some { a with no_nn := a.no_nn ++ [d] }) ∨
    (∃ j h, a.pool[j]? = some h ∧ a.pool.find? (gateAt c a.tracks d) = some h ∧
      fastStep c (some cap) a d = some { a with
        tracks := a.tracks.set h (insertPointToSequence cap (a.tracks.getD h []) d),
        pool := a.pool.eraseIdx j }) := by
  rcases scanPool_spec c a.tracks d a.pool hb with ⟨h1, h2⟩ | ⟨j, x, h1, h2, h3⟩
  · left
    exact ⟨h2, by simp [fastStep, h1]⟩
  · right
    exact ⟨j, x, h2, h3, by simp [fastStep, h1, h2]⟩

theorem fastStep_inv {c : Consts} {cap : ℕ} {tracks0 : List Track}
    {fr : List PointState} {a : Assoc} (hne : ∀ t ∈ tracks0, t ≠ []) (d : PointState)
    (hI : ∀ it, ∃ m, Inv c cap it tracks0 fr a m) :
    ∃ a1, fastStep c (some cap) a d = some a1 ∧ ∀ it, ∃ m, Inv c cap it tracks0 (fr ++ [d]) a1 m := by
  obtain ⟨m0, hI0⟩ := hI 0
  rcases fastStep_eq c cap a d (hI0.pool_ne_nil hne) with ⟨-, h2⟩ | ⟨j, h, h1, -, h3⟩
  · refine ⟨_, h2, fun it => ?_⟩
    obtain ⟨m, hm⟩ := hI it
    exact ⟨m, hm.passStep d⟩
  · refine ⟨_, h3, fun it => ?_⟩
    obtain ⟨m, hm⟩ := hI it
    refine ⟨(h, d) :: m, ?_⟩
    refine hm.matchStep j h h1 (a.tracks.getD h []) d d (hm.inpool h (mem_of_getElem? h1))
      (Or.inl rfl) a.no_nn (fr ++ [d]) ?_ (hm.sub.trans (List.sublist_append_left fr [d]))
    have hp := hm.perm
    calc (d :: List.map Prod.snd m) ++ a.no_nn
        = d :: (List.map Prod.snd m ++ a.no_nn) := rfl
      _ |>.Perm (d :: fr) := hp.cons d
      _ |>.Perm (fr ++ [d]) := (List.perm_append_singleton d fr).symm

theorem fastPass_inv {c : Consts} {cap : ℕ} {tracks0 : List Track} (hne : ∀ t ∈ tracks0, t ≠ [])
    (frame : List PointState) :
    ∀ (fr : List PointState) (a : Assoc), (∀ it, ∃ m, Inv c cap it tracks0 fr a m) →
      ∃ a1, fastPass c (some cap) a frame = some a1 ∧
        ∀ it, ∃ m, Inv c cap it tracks0 (fr ++ frame) a1 m := by
  induction frame with
  | nil =>
    intro fr a hI
    exact ⟨a, rfl, by simpa using hI⟩
  | cons d rest ih =>
    intro fr a hI
    obtain ⟨a1, h1, hI1⟩ := fastStep_inv hne d hI
    obtain ⟨a2, h2, hI2⟩ := ih (fr ++ [d]) a1 hI1
    refine ⟨a2, ?_, ?_⟩
    · simp [fastPass, h1, h2]
    · simpa using hI2

theorem gateAt_eq_specGate (c : Consts) (tracks : List Track) (d : PointState) (h : ℕ) :
    gateAt c tracks d h = specGate c d (tracks.getD h []) := by
  unfold gateAt specGate
  rw [backOf_eq_getD]
  cases (tracks.getD h []).getLast? <;> rfl

theorem eraseIdx_filter (l : List ℕ) (q : ℕ → Bool) (j h : ℕ) (hn : l.Nodup)
    (hj : (l.filter q)[j]? = some h) :
    (l.filter q).eraseIdx j = l.filter (fun i => i != h && q i) := by
  have hnf : (l.filter q).Nodup := hn.filter _
  obtain ⟨hlt, hget⟩ := List.getElem?_eq_some_iff.1 hj
  rw [← hnf.erase_getElem j hlt, hget, hnf.erase_eq_filter, List.filter_filter]

theorem specFastStep_refines (c : Consts) (cap : ℕ) (st : FastSpec) (d : PointState)
    (hne : ∀ t ∈ st.tracks, t ≠ []) :
    fastStep c (some cap) st.toAssoc d = some (specFastStep c cap st d).toAssoc ∧
      ∀ t ∈ (specFastStep c cap st d).tracks, t ≠ [] := by
  have hb : ∀ h ∈ st.toAssoc.pool, st.toAssoc.tracks.getD h [] ≠ [] := by
    intro h hh
    have hlt : h < st.tracks.length := by
      have := (List.mem_filter.1 hh).1
      simpa using this
    exact getD_ne_nil_of_mem st.tracks hne h hlt
  have hfind : st.toAssoc.pool.find? (gateAt c st.toAssoc.tracks d) =
      (List.range st.tracks.length).find?
        (fun i => !st.matched.contains i && specGate c d (st.tracks.getD i [])) := by
    simp only [FastSpec.toAssoc]
    rw [List.find?_filter]
    congr 1
    funext i
    rw [gateAt_eq_specGate]
    simp
  rcases fastStep_eq c cap st.toAssoc d hb with ⟨h1, h2⟩ | ⟨j, h, h1, h2, h3⟩
  · rw [hfind] at h1
    constructor
    · rw [h2]
      simp only [specFastStep, h1]
      rfl
    · simp only [specFastStep, h1]
      exact hne
  · rw [hfind] at h2
    have hh : h < st.tracks.length := by
      have := List.mem_of_find?_eq_some h2
      simpa using this
    constructor
    · rw [h3]
      simp only [specFastStep, h2, FastSpec.toAssoc, List.length_set]
      congr 1
      rw [eraseIdx_filter _ _ j h (List.nodup_range _) h1]
      have hq : (fun i => i != h && !st.matched.contains i)
          = (fun i => !(h :: st.matched).contains i) := by
        funext i
        by_cases hi : i = h <;> simp [List.contains_cons, Bool.not_or, hi]
      rw [hq]
    · simp only [specFastStep, h2]
      intro t ht
      rcases List.mem_or_eq_of_mem_set ht with ht1 | ht1
      · exact hne t ht1
      · rw [ht1]
        exact insert_ne_nil cap _ d (getD_ne_nil_of_mem st.tracks hne h hh)

theorem specFastPass_refines (c : Consts) (cap : ℕ) (frame : List PointState) :
    ∀ st : FastSpec, (∀ t ∈ st.tracks, t ≠ []) →
      fastPass c (some cap) st.toAssoc frame = some (frame.foldl (specFastStep c cap) st).toAssoc := by
  induction frame with
  | nil =>
    intro st _
    rfl
  | cons d rest ih =>
    intro st hne
    obtain ⟨h1, h2⟩ := specFastStep_refines c cap st d hne
    simp only [fastPass, h1, List.foldl_cons]
    exact ih _ h2

/-- C1 (fast pass). On non-empty tracks the fast pass of `findClosestPixelAndInsert` is defined
and coincides with the fast pass of the specification: detections are taken in detection
order, each one is appended to the first track in track-set order that is not yet matched in
this frame and whose last observation is within `max_pixel_shift_x` and `max_pixel_shift_y`
per axis (inclusive), that track leaves the candidate pool, and the detections without such a
track are handed, in order, to `expandedSearch` together with the unmatched tracks. -/
theorem fastPass_first_fit (c : Consts) (osq : List (List Bool)) (cap : ℕ) (now : ℚ)
    (tracks0 : List Track) (frame : List PointState)
    (hcap : bufferCap c osq = some cap) (hne : ∀ t ∈ tracks0, t ≠ []) :
    fastPass c (some cap)
        { tracks := tracks0, pool := List.range tracks0.length, no_nn := [] } frame
      = some (specFastPass c cap tracks0 frame).toAssoc ∧
    findClosestPixelAndInsert c osq now tracks0 frame
      = expandedSearch c (some cap) now (specFastPass c cap tracks0 frame).toAssoc := by
  have h := specFastPass_refines c cap frame
    { tracks := tracks0, matched := [], passed := [] } hne
  have h0 : FastSpec.toAssoc { tracks := tracks0, matched := [], passed := [] }
      = { tracks := tracks0, pool := List.range tracks0.length, no_nn := [] } := by
    simp [FastSpec.toAssoc]
  rw [h0] at h
  refine ⟨h, ?_⟩
  simp only [findClosestPixelAndInsert, hcap, h]
  rfl

/-! ## The expanded search -/

theorem getElem?_of_findIdx? {α : Type} (l : List α) (p : α → Bool) (i : ℕ)
    (h : l.findIdx? p = some i) : ∃ q, l[i]? = some q ∧ p q = true := by
  have := List.findIdx?_of_eq_some h
  cases hq : l[i]? with
  | none => simp [hq] at this
  | some q =>
    rw [hq] at this
    exact ⟨q, rfl, this⟩

/-- The bound on the iterations of the loop `for k` is never the reason it stops: with
`sequences_no_insert.size() - k` iterations allowed the loop ends by its own condition, and one
more allowed iteration changes nothing. -/
theorem expandedLoop_fuel_succ (c : Consts) (bound : Option ℕ) (it : ℚ) (fuel : ℕ) :
    ∀ (k : ℕ) (a : Assoc), a.pool.length ≤ k + fuel →
      expandedLoop c bound it (fuel + 1) k a = expandedLoop c bound it fuel k a := by
  induction fuel with
  | zero =>
    intro k a hk
    have hnone : a.pool[k]? = none := List.getElem?_eq_none (by omega)
    simp only [expandedLoop, hnone]
  | succ fuel ih =>
    intro k a hk
    conv_lhs => rw [expandedLoop]
    conv_rhs => rw [expandedLoop]
    cases hp : a.pool[k]? with
    | none => rfl
    | some h =>
      simp only []
      split
      · exact ih (k + 1) a (by omega)
      · split
        · rfl
        · split
          · exact ih (k + 1) _ (by simp only []; omega)
          · split
            · refine ih (k + 1) _ ?_
              simp only [List.length_eraseIdx]
              split <;> omega
            · rfl

theorem expandedLoop_inv {c : Consts} {cap : ℕ} {it : ℚ} {tracks0 : List Track}
    {fr : List PointState} (hne : ∀ t ∈ tracks0, t ≠ []) (fuel : ℕ) :
    ∀ (k : ℕ) (a : Assoc) (m : List (ℕ × PointState)), Inv c cap it tracks0 fr a m →
      ∃ a1 m1, expandedLoop c (some cap) it fuel k a = some a1 ∧ Inv c cap it tracks0 fr a1 m1 := by
  induction fuel with
  | zero =>
    intro k a m hI
    exact ⟨a, m, rfl, hI⟩
  | succ fuel ih =>
    intro k a m hI
    rw [expandedLoop]
    cases hk : a.pool[k]? with
    | none => exact ⟨a, m, rfl, hI⟩
    | some h =>
      have hmem : h ∈ a.pool := mem_of_getElem? hk
      simp only []
      by_cases hc : checkSequenceValidityWithNewInsert (a.tracks.getD h []) = false
      · rw [if_pos hc]
        exact ih (k + 1) a m hI
      · rw [if_neg hc]
        have hc1 : checkSequenceValidityWithNewInsert (a.tracks.getD h []) = true := by
          simpa using hc
        have hnn := hI.pool_ne_nil hne h hmem
        cases hl : (a.tracks.getD h []).getLast? with
        | none => exact absurd (List.getLast?_eq_none_iff.1 hl) hnn
        | some last0 =>
          simp only []
          have hT := (hI.inpool h hmem).again hc1 last0 hl
          cases hf : List.findIdx? (fun q =>
              c.extended_search_.checkIfInsideEllipse
                (withPrediction c it (a.tracks.getD h []) last0).point
                (withPrediction c it (a.tracks.getD h []) last0).ellipse q.point) a.no_nn with
          | none =>
            simp only []
            exact ih (k + 1) _ m (hI.touchStep h hmem _ hT)
          | some i =>
            obtain ⟨q, hq, -⟩ := getElem?_of_findIdx? _ _ _ hf
            simp only [hq]
            refine ih (k + 1) _ ((h, q) :: m) (hI.matchStep k h hk _ _ q hT
              (Or.inr ⟨_, List.getLast?_concat _, rfl⟩) _ fr ?_
              ((List.eraseIdx_sublist _ _).trans hI.sub))
            have hp := perm_cons_eraseIdx a.no_nn i q hq
            have h1 : ((q :: List.map Prod.snd m) ++ a.no_nn.eraseIdx i).Perm
                (List.map Prod.snd m ++ (q :: a.no_nn.eraseIdx i)) :=
              (List.perm_middle).symm
            exact h1.trans ((hp.symm.append_left _).trans hI.perm)

/-! ## Placeholders and new tracks -/

theorem insertVPs_spec (cap : ℕ) (now : ℚ) (pool : List ℕ) :
    ∀ (tracks : List Track), pool.Nodup → (∀ h ∈ pool, h < tracks.length) →
      (∀ h ∈ pool, tracks.getD h [] ≠ []) →
      ∃ tracks1, insertVPs (some cap) now tracks pool = some tracks1 ∧
        tracks1.length = tracks.length ∧
        (∀ h ∈ pool, ∃ last, (tracks.getD h []).getLast? = some last ∧
          tracks1.getD h [] = insertPointToSequence cap (tracks.getD h [])
            (placeholderOf now last)) ∧
        (∀ i, i ∉ pool → tracks1.getD i [] = tracks.getD i []) := by
  induction pool with
  | nil =>
    intro tracks _ _ _
    exact ⟨tracks, rfl, rfl, by simp, fun _ _ => rfl⟩
  | cons h rest ih =>
    intro tracks hnd hlt hnn
    have hh := hlt h (List.mem_cons_self _ _)
    have hne := hnn h (List.mem_cons_self _ _)
    have hnotin : h ∉ rest := (List.nodup_cons.1 hnd).1
    cases hl : (tracks.getD h []).getLast? with
    | none => exact absurd (List.getLast?_eq_none_iff.1 hl) hne
    | some last =>
      have hb : backOf tracks h = some last := by rw [backOf_eq_getD, hl]
      have hstep : insertVPforSequencesWithNoInsert (some cap) now tracks h =
          some (tracks.set h (insertPointToSequence cap (tracks.getD h [])
            (placeholderOf now last))) := by
        simp only [insertVPforSequencesWithNoInsert, hb, placeholderOf]
      have hrest : ∀ x ∈ rest, (tracks.set h (insertPointToSequence cap (tracks.getD h [])
          (placeholderOf now last))).getD x [] = tracks.getD x [] := by
        intro x hx
        exact getD_set_ne _ _ _ _ _ (fun he => hnotin (he ▸ hx))
      obtain ⟨tracks1, h1, h2, h3, h4⟩ := ih
        (tracks.set h (insertPointToSequence cap (tracks.getD h []) (placeholderOf now last)))
        (List.nodup_cons.1 hnd).2
        (fun x hx => by
          rw [List.length_set]
          exact hlt x (List.mem_cons_of_mem _ hx))
        (fun x hx => by
          rw [hrest x hx]
          exact hnn x (List.mem_cons_of_mem _ hx))
      refine ⟨tracks1, ?_, ?_, ?_, ?_⟩
      · simp only [insertVPs, hstep, h1]
      · rw [h2, List.length_set]
      · intro x hx
        rcases List.mem_cons.1 hx with rfl | hx
        · refine ⟨last, hl, ?_⟩
          rw [h4 x hnotin, getD_set_self _ _ _ _ hh]
        · obtain ⟨l1, h5, h6⟩ := h3 x hx
          rw [hrest x hx] at h5 h6
          exact ⟨l1, h5, h6⟩
      · intro i hi
        have hi1 : i ≠ h := fun he => hi (he ▸ List.mem_cons_self _ _)
        have hi2 : i ∉ rest := fun he => hi (List.mem_cons_of_mem _ he)
        rw [h4 i hi2, getD_set_ne _ _ _ _ _ (Ne.symm hi1)]

theorem expandedMatch_inv {c : Consts} {cap : ℕ} {tracks0 : List Track}
    {fr : List PointState} (hne : ∀ t ∈ tracks0, t ≠ []) (a : Assoc)
    (hI : ∀ it, ∃ m, Inv c cap it tracks0 fr a m) :
    ∃ a1 it m1, expandedMatch c (some cap) a = some a1 ∧ Inv c cap it tracks0 fr a1 m1 := by
  unfold expandedMatch
  cases hn : a.no_nn with
  | nil =>
    obtain ⟨m, hm⟩ := hI 0
    exact ⟨a, 0, m, rfl, hm⟩
  | cons p0 rest =>
    obtain ⟨m, hm⟩ := hI (p0.insert_time + c.prediction_margin_)
    obtain ⟨a1, m1, h1, h2⟩ := expandedLoop_inv hne a.pool.length 0 a m hm
    exact ⟨a1, _, m1, h1, h2⟩

theorem getD_append_left {α : Type} (l l1 : List α) (i : ℕ) (d : α) (h : i < l.length) :
    (l ++ l1).getD i d = l.getD i d := by
  rw [List.getD_eq_getElem?_getD, List.getD_eq_getElem?_getD, List.getElem?_append_left h]

/-- What one call of `findClosestPixelAndInsert` does to a set of non-empty tracks: the call is
defined; `m` lists the matches (handle, detection) and `un` the detections that start new
tracks. -/
theorem assoc_summary (c : Consts) (osq : List (List Bool)) (cap : ℕ) (now : ℚ)
    (tracks0 : List Track) (frame : List PointState) (hcap : bufferCap c osq = some cap)
    (hne : ∀ t ∈ tracks0, t ≠ []) :
    ∃ (tracks1 : List Track) (it : ℚ) (m : List (ℕ × PointState)) (un : List PointState),
      findClosestPixelAndInsert c osq now tracks0 frame = some tracks1 ∧
      tracks1.length = tracks0.length + un.length ∧
      tracks1.drop tracks0.length = un.map (fun p => [p]) ∧
      un.Sublist frame ∧ (m.map Prod.snd ++ un).Perm frame ∧ (m.map Prod.fst).Nodup ∧
      (∀ x ∈ m, x.1 < tracks0.length ∧ ∃ old obs, Touched c it (tracks0.getD x.1 []) old ∧
        Tagged old obs x.2 ∧ tracks1.getD x.1 [] = insertPointToSequence cap old obs) ∧
      (∀ i, i < tracks0.length → i ∉ m.map Prod.fst → ∃ old last,
        Touched c it (tracks0.getD i []) old ∧ old.getLast? = some last ∧
        tracks1.getD i [] = insertPointToSequence cap old (placeholderOf now last)) := by
  obtain ⟨a, ha, hIa⟩ := fastPass_inv hne frame [] _ (fun it => ⟨[], Inv.start c cap it tracks0⟩)
  simp only [List.nil_append] at hIa
  obtain ⟨a1, it, m, h1, hI⟩ := expandedMatch_inv hne a hIa
  have hlt : ∀ h ∈ a1.pool, h < a1.tracks.length := by
    intro h hh
    rw [hI.len]
    exact (hI.cover h).2 (Or.inl hh)
  obtain ⟨tracks2, h2, h3, h4, h5⟩ :=
    insertVPs_spec cap now a1.pool a1.tracks hI.nodup hlt (hI.pool_ne_nil hne)
  have hlen2 : tracks2.length = tracks0.length := by rw [h3, hI.len]
  refine ⟨tracks2 ++ a1.no_nn.map (fun point => [point]), it, m, a1.no_nn, ?_, ?_, ?_,
    hI.sub, hI.perm, hI.mfst, ?_, ?_⟩
  · simp only [findClosestPixelAndInsert, hcap, ha, expandedSearch, h1, h2]
  · simp [hlen2]
  · rw [← hlen2, List.drop_left]
  · intro x hx
    have hxlt : x.1 < tracks0.length :=
      (hI.cover x.1).2 (Or.inr (List.mem_map_of_mem Prod.fst hx))
    refine ⟨hxlt, ?_⟩
    obtain ⟨old, obs, e1, e2, e3⟩ := hI.matched x hx
    refine ⟨old, obs, e1, e2, ?_⟩
    have hnp : x.1 ∉ a1.pool := fun hp => hI.disj x.1 hp (List.mem_map_of_mem Prod.fst hx)
    rw [getD_append_left _ _ _ _ (by rw [hlen2]; exact hxlt), h5 x.1 hnp]
    exact e3
  · intro i hi him
    have hip : i ∈ a1.pool := by
      rcases (hI.cover i).1 hi with hp | hp
      · exact hp
      · exact absurd hp him
    obtain ⟨last, e1, e2⟩ := h4 i hip
    refine ⟨a1.tracks.getD i [], last, hI.inpool i hip, e1, ?_⟩
    rw [getD_append_left _ _ _ _ (by rw [hlen2]; exact hi)]
    exact e2

theorem getD_of_getElem? {α : Type} {l : List α} {i : ℕ} {t d : α} (h : l[i]? = some t) :
    l.getD i d = t := by
  rw [List.getD_eq_getElem?_getD, h]
  rfl

theorem getElem?_eq_some_getD {α : Type} (l : List α) (i : ℕ) (d : α) (h : i < l.length) :
    l[i]? = some (l.getD i d) := by
  rw [List.getD_eq_getElem?_getD, List.getElem?_eq_getElem h]
  rfl

/-- C3 (one append per track and frame). For every set of non-empty tracks and every frame,
the empty one included, `findClosestPixelAndInsert` is defined and every pre-existing track
`t0` becomes `insertPointToSequence old obs`, where `old` is `t0` up to the predictive members
and `obs` is one observation: a detection of this frame (as it is, or tagged by the expanded
search) or the placeholder built from the last observation. -/
theorem findClosestPixelAndInsert_one_append (c : Consts) (osq : List (List Bool)) (cap : ℕ)
    (now : ℚ) (tracks0 : List Track) (frame : List PointState)
    (hcap : bufferCap c osq = some cap) (hne : ∀ t ∈ tracks0, t ≠ []) :
    ∃ tracks1, findClosestPixelAndInsert c osq now tracks0 frame = some tracks1 ∧
      tracks0.length ≤ tracks1.length ∧
      ∀ (i : ℕ) (t0 : Track), tracks0[i]? = some t0 →
        ∃ old obs, SameCore old t0 ∧ tracks1[i]? = some (insertPointToSequence cap old obs) ∧
          ((∃ d ∈ frame, Tagged old obs d) ∨
            (∃ last, old.getLast? = some last ∧ obs = placeholderOf now last)) := by
  obtain ⟨tracks1, it, m, un, h1, h2, -, -, h5, -, h7, h8⟩ :=
    assoc_summary c osq cap now tracks0 frame hcap hne
  refine ⟨tracks1, h1, by omega, ?_⟩
  intro i t0 hi
  have hlt : i < tracks0.length := (List.getElem?_eq_some_iff.1 hi).1
  have hlt1 : i < tracks1.length := by omega
  have ht0 : tracks0.getD i [] = t0 := getD_of_getElem? hi
  by_cases hm : i ∈ m.map Prod.fst
  · obtain ⟨x, hx, rfl⟩ := List.mem_map.1 hm
    obtain ⟨-, old, obs, e1, e2, e3⟩ := h7 x hx
    rw [ht0] at e1
    refine ⟨old, obs, e1.sameCore, ?_, Or.inl ⟨x.2, ?_, e2⟩⟩
    · rw [getElem?_eq_some_getD tracks1 x.1 [] hlt1, e3]
    · exact h5.subset (List.mem_append_left _ (List.mem_map_of_mem Prod.snd hx))
  · obtain ⟨old, last, e1, e2, e3⟩ := h8 i hlt hm
    rw [ht0] at e1
    refine ⟨old, placeholderOf now last, e1.sameCore, ?_, Or.inr ⟨last, e2, rfl⟩⟩
    rw [getElem?_eq_some_getD tracks1 i [] hlt1, e3]

theorem expandedLoop_wf (c : Consts) (cap : ℕ) (it : ℚ) (fuel : ℕ) :
    ∀ (k : ℕ) (a : Assoc), a.WF →
      ∃ a1, expandedLoop c (some cap) it fuel k a = some a1 ∧ a1.WF ∧
        a1.tracks.length = a.tracks.length ∧
        ∀ h ∈ a.pool, checkSequenceValidityWithNewInsert (a.tracks.getD h []) = false →
          h ∈ a1.pool ∧ a1.tracks.getD h [] = a.tracks.getD h [] := by
  induction fuel with
  | zero =>
    intro k a hwf
    exact ⟨a, rfl, hwf, rfl, fun h hh _ => ⟨hh, rfl⟩⟩
  | succ fuel ih =>
    intro k a hwf
    rw [expandedLoop]
    cases hk : a.pool[k]? with
    | none => exact ⟨a, rfl, hwf, rfl, fun h hh _ => ⟨hh, rfl⟩⟩
    | some h =>
      have hmem : h ∈ a.pool := mem_of_getElem? hk
      obtain ⟨hlt, hnn⟩ := hwf.2 h hmem
      simp only []
      by_cases hc : checkSequenceValidityWithNewInsert (a.tracks.getD h []) = false
      · rw [if_pos hc]
        exact ih (k + 1) a hwf
      · rw [if_neg hc]
        cases hl : (a.tracks.getD h []).getLast? with
        | none => exact absurd (List.getLast?_eq_none_iff.1 hl) hnn
        | some last0 =>
          simp only []
          cases hf : List.findIdx? (fun q =>
              c.extended_search_.checkIfInsideEllipse
                (withPrediction c it (a.tracks.getD h []) last0).point
                (withPrediction c it (a.tracks.getD h []) last0).ellipse q.point) a.no_nn with
          | none =>
            simp only []
            have hwf1 : Assoc.WF { a with tracks := (a.tracks.set h
                ((a.tracks.getD h []).dropLast ++
                  [withPrediction c it (a.tracks.getD h []) last0])) } := by
              refine ⟨hwf.1, fun x hx => ⟨?_, ?_⟩⟩
              · simp only [List.length_set]
                exact (hwf.2 x hx).1
              · simp only []
                by_cases hxh : h = x
                · subst hxh
                  rw [getD_set_self _ _ _ _ hlt]
                  simp
                · rw [getD_set_ne _ _ _ _ _ hxh]
                  exact (hwf.2 x hx).2
            obtain ⟨a1, e1, e2, e3, e4⟩ := ih (k + 1) _ hwf1
            refine ⟨a1, e1, e2, ?_, ?_⟩
            · rw [e3]
              simp
            · intro g hg hcg
              have hgh : h ≠ g := by
                rintro rfl
                exact hc hcg
              have hsame : (a.tracks.set h ((a.tracks.getD h []).dropLast ++
                  [withPrediction c it (a.tracks.getD h []) last0])).getD g []
                    = a.tracks.getD g [] := getD_set_ne _ _ _ _ _ hgh
              obtain ⟨e5, e6⟩ := e4 g hg (by simp only []; rw [hsame]; exact hcg)
              exact ⟨e5, by rw [e6]; exact hsame⟩
          | some i =>
            obtain ⟨q, hq, -⟩ := getElem?_of_findIdx? _ _ _ hf
            simp only [hq]
            have hnot : h ∉ a.pool.eraseIdx k :=
              not_mem_eraseIdx_of_nodup a.pool k h hk hwf.1
            have hwf1 : Assoc.WF
                { tracks := (a.tracks.set h (insertPointToSequence cap
                    ((a.tracks.getD h []).dropLast ++
                      [withPrediction c it (a.tracks.getD h []) last0])
                    (tagDetection (withPrediction c it (a.tracks.getD h []) last0) q))),
                  pool := a.pool.eraseIdx k,
                  no_nn := a.no_nn.eraseIdx i } := by
              refine ⟨hwf.1.eraseIdx k, fun x hx => ⟨?_, ?_⟩⟩
              · simp only [List.length_set]
                exact (hwf.2 x (mem_of_mem_eraseIdx _ _ _ hx)).1
              · simp only []
                have hxh : h ≠ x := by
                  rintro rfl
                  exact hnot hx
                rw [getD_set_ne _ _ _ _ _ hxh]
                exact (hwf.2 x (mem_of_mem_eraseIdx _ _ _ hx)).2
            obtain ⟨a1, e1, e2, e3, e4⟩ := ih (k + 1) _ hwf1
            refine ⟨a1, e1, e2, ?_, ?_⟩
            · rw [e3]
              simp
            · intro g hg hcg
              have hgh : h ≠ g := by
                rintro rfl
                exact hc hcg
              have hsame : (a.tracks.set h (insertPointToSequence cap
                    ((a.tracks.getD h []).dropLast ++
                      [withPrediction c it (a.tracks.getD h []) last0])
                    (tagDetection (withPrediction c it (a.tracks.getD h []) last0) q))).getD g []
                    = a.tracks.getD g [] := getD_set_ne _ _ _ _ _ hgh
              have hg1 : g ∈ a.pool.eraseIdx k :=
                mem_eraseIdx_of_ne a.pool k h g hk hg (Ne.symm hgh)
              obtain ⟨e5, e6⟩ := e4 g hg1 (by simp only []; rw [hsame]; exact hcg)
              exact ⟨e5, by rw [e6]; exact hsame⟩

theorem expandedMatch_wf (c : Consts) (cap : ℕ) (a : Assoc) (hwf : a.WF) :
    ∃ a1, expandedMatch c (some cap) a = some a1 ∧ a1.WF ∧ a1.tracks.length = a.tracks.length ∧
      ∀ h ∈ a.pool, checkSequenceValidityWithNewInsert (a.tracks.getD h []) = false →
        h ∈ a1.pool ∧ a1.tracks.getD h [] = a.tracks.getD h [] := by
  unfold expandedMatch
  cases hn : a.no_nn with
  | nil => exact ⟨a, rfl, hwf, rfl, fun h hh _ => ⟨hh, rfl⟩⟩
  | cons p0 rest => exact expandedLoop_wf c cap _ a.pool.length 0 a hwf

/-- The placeholders of `expandedSearch`: every handle left in `sequences_no_insert` after the
search loop has the placeholder appended to its track. -/
theorem expandedSearch_placeholders (c : Consts) (cap : ℕ) (now : ℚ) (a : Assoc) (hwf : a.WF) :
    ∃ a1 tracks1, expandedMatch c (some cap) a = some a1 ∧ expandedSearch c (some cap) now a = some tracks1 ∧
      (∀ h ∈ a.pool, checkSequenceValidityWithNewInsert (a.tracks.getD h []) = false →
        h ∈ a1.pool ∧ a1.tracks.getD h [] = a.tracks.getD h []) ∧
      ∀ h ∈ a1.pool, ∃ last, (a1.tracks.getD h []).getLast? = some last ∧
        tracks1.getD h [] =
          insertPointToSequence cap (a1.tracks.getD h []) (placeholderOf now last) := by
  obtain ⟨a1, e1, e2, e3, e4⟩ := expandedMatch_wf c cap a hwf
  obtain ⟨tracks2, h2, h3, h4, -⟩ := insertVPs_spec cap now a1.pool a1.tracks e2.1
    (fun h hh => (e2.2 h hh).1) (fun h hh => (e2.2 h hh).2)
  refine ⟨a1, tracks2 ++ a1.no_nn.map (fun point => [point]), e1, ?_, e4, ?_⟩
  · simp only [expandedSearch, e1, h2]
  · intro h hh
    obtain ⟨last, e5, e6⟩ := h4 h hh
    refine ⟨last, e5, ?_⟩
    rw [getD_append_left _ _ _ _ (by rw [h3]; exact (e2.2 h hh).1)]
    exact e6

/-- C9 (validity guard). `checkSequenceValidityWithNewInsert` is `false` exactly for the tracks
that end in two detections or in three placeholders (so it is `true` for every track of
length 1); and `expandedSearch`, on distinct handles of non-empty tracks, appends no detection
to a track for which the guard is `false`: such a track is left as it is by the search loop and
ends the call with just the placeholder appended. -/
theorem validity_guard (c : Consts) (cap : ℕ) (now : ℚ) (a : Assoc) (hwf : a.WF) :
    (∀ t : Track, checkSequenceValidityWithNewInsert t = false
      ↔ EndsInTwoOn t ∨ EndsInThreeOff t) ∧
    (∀ p : PointState, checkSequenceValidityWithNewInsert [p] = true) ∧
    ∃ tracks1, expandedSearch c (some cap) now a = some tracks1 ∧
      ∀ h ∈ a.pool, checkSequenceValidityWithNewInsert (a.tracks.getD h []) = false →
        ∃ last, (a.tracks.getD h []).getLast? = some last ∧
          tracks1.getD h [] =
            insertPointToSequence cap (a.tracks.getD h []) (placeholderOf now last) := by
  refine ⟨check_false_iff, fun p => by simp [checkSequenceValidityWithNewInsert], ?_⟩
  obtain ⟨a1, tracks1, -, h2, h3, h4⟩ := expandedSearch_placeholders c cap now a hwf
  refine ⟨tracks1, h2, fun h hh hc => ?_⟩
  obtain ⟨e1, e2⟩ := h3 h hh hc
  obtain ⟨last, e3, e4⟩ := h4 h e1
  rw [e2] at e3 e4
  exact ⟨last, e3, e4⟩

/-- C10, as the code has it. A track left unmatched after both passes (its handle is still in
`sequences_no_insert` after the search loop) receives the placeholder whether or not it passes
the validity guard: the guard is not consulted for the placeholders. -/
theorem placeholder_regardless_of_guard (c : Consts) (cap : ℕ) (now : ℚ) (a : Assoc)
    (hwf : a.WF) :
    ∃ a1 tracks1, expandedMatch c (some cap) a = some a1 ∧ expandedSearch c (some cap) now a = some tracks1 ∧
      ∀ h ∈ a1.pool, ∀ guard : Bool,
        checkSequenceValidityWithNewInsert (a1.tracks.getD h []) = guard →
        ∃ last, (a1.tracks.getD h []).getLast? = some last ∧
          tracks1.getD h [] =
            insertPointToSequence cap (a1.tracks.getD h []) (placeholderOf now last) := by
  obtain ⟨a1, tracks1, h1, h2, -, h4⟩ := expandedSearch_placeholders c cap now a hwf
  exact ⟨a1, tracks1, h1, h2, fun h hh _ _ => h4 h hh⟩

/-! ## Pruning -/

theorem keepTrack_threeOff (framerate_ now : ℚ) (t : Track) (h : EndsInThreeOff t) :
    keepTrack framerate_ now t = false := by
  have ht := (threeOff_test_iff t).2 h
  obtain ⟨pre, x, y, z, rfl, -⟩ := h
  have e1 : pre ++ [x, y, z] = (pre ++ [x, y]) ++ [z] := by simp
  unfold keepTrack
  rw [e1, List.getLast?_concat, ← e1]
  simp only []
  rw [if_pos ht]

/-! ## Rounding to binary64 -/

theorem roundHalfEven_eq (n : ℚ) (m : ℤ) (h : |n - m| < 1 / 2) : roundHalfEven n = m := by
  rw [abs_lt] at h
  obtain ⟨h1, h2⟩ := h
  unfold roundHalfEven
  by_cases hle : (m : ℚ) ≤ n
  · have hf : ⌊n⌋ = m := Int.floor_eq_iff.2 ⟨hle, by linarith⟩
    rw [hf, if_pos (by linarith)]
  · have hf : ⌊n⌋ = m - 1 := Int.floor_eq_iff.2 ⟨by push_cast; linarith, by push_cast; linarith⟩
    rw [hf, if_neg (by push_cast; linarith), if_pos (by push_cast; linarith)]
    ring

/-- The value of `roundDouble` at a positive rational below `2 ^ 53`, from the scaling `2 ^ k`
that brings it to 53 bits and the integer `m` nearest to the scaled value. -/
theorem roundDouble_eq (r : ℚ) (k : ℕ) (m : ℤ) (h1 : (2 : ℚ) ^ 52 ≤ r * 2 ^ k)
    (h2 : r * 2 ^ k < 2 ^ 53) (hm : |r * 2 ^ k - m| < 1 / 2) : roundDouble r = m / 2 ^ k := by
  have hk : (0 : ℚ) < 2 ^ k := by positivity
  have hr : 0 < r := by
    by_contra hc
    have : r * 2 ^ k ≤ 0 := mul_nonpos_of_nonpos_of_nonneg (not_lt.1 hc) hk.le
    have : (0 : ℚ) < 2 ^ 52 := by positivity
    linarith
  have hz : ∀ a : ℕ, (2 : ℚ) ^ ((a : ℤ) - (k : ℤ)) = 2 ^ a / 2 ^ k := by
    intro a
    rw [zpow_sub₀ (two_ne_zero), zpow_natCast, zpow_natCast]
  have hlog : Int.log 2 r = 52 - (k : ℤ) := by
    apply le_antisymm
    · have : Int.log 2 r < 53 - (k : ℤ) := by
        rw [← Int.lt_zpow_iff_log_lt (by norm_num) hr]
        have := hz 53
        push_cast at this ⊢
        rw [this, lt_div_iff₀ hk]
        exact h2
      omega
    · rw [← Int.zpow_le_iff_le_log (by norm_num) hr]
      have := hz 52
      push_cast at this ⊢
      rw [this, div_le_iff₀ hk]
      exact h1
  have he : (52 : ℤ) - (k : ℤ) - 52 = -(k : ℤ) := by ring
  unfold roundDouble
  rw [if_neg (ne_of_gt hr), if_neg (not_lt.2 hr.le)]
  unfold roundPos
  rw [hlog, he, zpow_neg, zpow_natCast, div_inv_eq_mul, roundHalfEven_eq _ m hm]
  rfl

theorem roundDouble_zero : roundDouble 0 = 0 := by
  unfold roundDouble
  rw [if_pos rfl]

theorem roundDouble_neg (r : ℚ) : roundDouble (-r) = - roundDouble r := by
  unfold roundDouble
  rcases lt_trichotomy r 0 with h | h | h
  · rw [if_neg (by linarith), if_neg (by linarith), if_neg (ne_of_lt h), if_pos h, neg_neg]
  · simp [h]
  · rw [if_neg (by linarith), if_pos (by linarith), if_neg (ne_of_gt h), if_neg (by linarith),
      neg_neg]

/-- The value of `toSec` in binary64 for a stamp of `sec` whole seconds, from the rounded
product `p` of `1e-9` and the nanoseconds and the rounded sum `v`. -/
theorem binary64_toSec_eq (t : ℚ) (sec : ℤ) (x p y v : ℚ) (h1 : (sec : ℚ) ≤ t)
    (h2 : t < sec + 1) (hx : roundDouble (1 / 10 ^ 9) * ((t - sec) * 10 ^ 9) = x)
    (hp : roundDouble x = p) (hy : (sec : ℚ) + p = y) (hv : roundDouble y = v) :
    binary64.toSec t = v := by
  have hfloor : ⌊t⌋ = sec := Int.floor_eq_iff.2 ⟨h1, h2⟩
  simp only [binary64, hfloor, hx, hp, hy, hv]

theorem binary64_sub_eq (x y r v : ℚ) (hr : x - y = r) (hv : roundDouble r = v) :
    binary64.sub x y = v := by
  show roundDouble (x - y) = v
  rw [hr]
  exact hv

theorem roundDouble_neg_eq (r v : ℚ) (hv : roundDouble r = v) : roundDouble (-r) = -v := by
  rw [roundDouble_neg, hv]

theorem round_nano :
    roundDouble (1 / 10 ^ 9) = 4835703278458517 / 4835703278458516698824704 :=
  (roundDouble_eq _ 82 4835703278458517 (by norm_num) (by norm_num)
    (by rw [abs_lt]; constructor <;> norm_num)).trans (by norm_num)

theorem round_tenth_frac :
    roundDouble (1888946593147858203125 / 18889465931478580854784) = 3602879701896397 /
      36028797018963968 :=
  (roundDouble_eq _ 56 7205759403792794 (by norm_num) (by norm_num)
    (by rw [abs_lt]; constructor <;> norm_num)).trans (by norm_num)

theorem round_tenth_sum :
    roundDouble (3602879701896397 / 36028797018963968) = 3602879701896397 / 36028797018963968 :=
  (roundDouble_eq _ 56 7205759403792794 (by norm_num) (by norm_num)
    (by rw [abs_lt]; constructor <;> norm_num)).trans (by norm_num)

theorem binary64_toSec_tenth :
    binary64.toSec (1 / 10) = 3602879701896397 / 36028797018963968 :=
  binary64_toSec_eq _ 0 (1888946593147858203125 / 18889465931478580854784) (3602879701896397 /
    36028797018963968) (3602879701896397 / 36028797018963968) _
    (by norm_num) (by norm_num) (by rw [round_nano]; norm_num) round_tenth_frac (by norm_num)
    round_tenth_sum

theorem round_one_sum :
    roundDouble 1 = 1 :=
  (roundDouble_eq _ 52 4503599627370496 (by norm_num) (by norm_num)
    (by rw [abs_lt]; constructor <;> norm_num)).trans (by norm_num)

theorem binary64_toSec_one :
    binary64.toSec 1 = 1 :=
  binary64_toSec_eq _ 1 0 0 1 _
    (by norm_num) (by norm_num) (by rw [round_nano]; norm_num) roundDouble_zero (by norm_num)
    round_one_sum

theorem round_near_frac :
    roundDouble (1888946593147858203125 / 9444732965739290427392) = 3602879701896397 /
      18014398509481984 :=
  (roundDouble_eq _ 55 7205759403792794 (by norm_num) (by norm_num)
    (by rw [abs_lt]; constructor <;> norm_num)).trans (by norm_num)

theorem round_near_sum :
    roundDouble (21617278211378381 / 18014398509481984) = 5404319552844595 / 4503599627370496 :=
  (roundDouble_eq _ 52 5404319552844595 (by norm_num) (by norm_num)
    (by rw [abs_lt]; constructor <;> norm_num)).trans (by norm_num)

theorem binary64_toSec_near :
    binary64.toSec (6 / 5) = 5404319552844595 / 4503599627370496 :=
  binary64_toSec_eq _ 1 (1888946593147858203125 / 9444732965739290427392) (3602879701896397 /
    18014398509481984) (21617278211378381 / 18014398509481984) _
    (by norm_num) (by norm_num) (by rw [round_nano]; norm_num) round_near_frac (by norm_num)
    round_near_sum

theorem round_far_frac :
    roundDouble (5666839779443574609375 / 9444732965739290427392) = 1351079888211149 /
      2251799813685248 :=
  (roundDouble_eq _ 53 5404319552844596 (by norm_num) (by norm_num)
    (by rw [abs_lt]; constructor <;> norm_num)).trans (by norm_num)

theorem round_far_sum :
    roundDouble (3602879701896397 / 2251799813685248) = 3602879701896397 / 2251799813685248 :=
  (roundDouble_eq _ 52 7205759403792794 (by norm_num) (by norm_num)
    (by rw [abs_lt]; constructor <;> norm_num)).trans (by norm_num)

theorem binary64_toSec_far :
    binary64.toSec (8 / 5) = 3602879701896397 / 2251799813685248 :=
  binary64_toSec_eq _ 1 (5666839779443574609375 / 9444732965739290427392) (1351079888211149 /
    2251799813685248) (3602879701896397 / 2251799813685248) _
    (by norm_num) (by norm_num) (by rw [round_nano]; norm_num) round_far_frac (by norm_num)
    round_far_sum

theorem round_epoch_near_frac :
    roundDouble (72535549176877755 / 604462909807314587353088) = 1133367955888715 /
      9444732965739290427392 :=
  (roundDouble_eq _ 75 4533471823554860 (by norm_num) (by norm_num)
    (by rw [abs_lt]; constructor <;> norm_num)).trans (by norm_num)

theorem round_epoch_near_sum :
    roundDouble (16056046041756794859934355888715 / 9444732965739290427392) = 7130316800000001 /
      4194304 :=
  (roundDouble_eq _ 22 7130316800000001 (by norm_num) (by norm_num)
    (by rw [abs_lt]; constructor <;> norm_num)).trans (by norm_num)

theorem binary64_toSec_epoch_near :
    binary64.toSec (1700000000 + 120 / 10 ^ 9) = 7130316800000001 / 4194304 :=
  binary64_toSec_eq _ 1700000000 (72535549176877755 / 604462909807314587353088) (1133367955888715
    / 9444732965739290427392) (16056046041756794859934355888715 / 9444732965739290427392) _
    (by norm_num) (by norm_num) (by rw [round_nano]; norm_num) round_epoch_near_frac (by norm_num)
    round_epoch_near_sum

theorem round_epoch_far_frac :
    roundDouble (1934281896503503493480557 / 4835703278458516698824704) = 3602880791767507 /
      9007199254740992 :=
  (roundDouble_eq _ 54 7205761583535014 (by norm_num) (by norm_num)
    (by rw [abs_lt]; constructor <;> norm_num)).trans (by norm_num)

theorem round_epoch_far_sum :
    roundDouble (15312238736662567191767507 / 9007199254740992) = 3565158400838861 / 2097152 :=
  (roundDouble_eq _ 22 7130316801677722 (by norm_num) (by norm_num)
    (by rw [abs_lt]; constructor <;> norm_num)).trans (by norm_num)

theorem binary64_toSec_epoch_far :
    binary64.toSec (1700000000 + 400000121 / 10 ^ 9) = 3565158400838861 / 2097152 :=
  binary64_toSec_eq _ 1700000000 (1934281896503503493480557 / 4835703278458516698824704)
    (3602880791767507 / 9007199254740992) (15312238736662567191767507 / 9007199254740992) _
    (by norm_num) (by norm_num) (by rw [round_nano]; norm_num) round_epoch_far_frac (by norm_num)
    round_epoch_far_sum

theorem round_epoch_sum :
    roundDouble 1700000000 = 1700000000 :=
  (roundDouble_eq _ 22 7130316800000000 (by norm_num) (by norm_num)
    (by rw [abs_lt]; constructor <;> norm_num)).trans (by norm_num)

theorem binary64_toSec_epoch :
    binary64.toSec 1700000000 = 1700000000 :=
  binary64_toSec_eq _ 1700000000 0 0 1700000000 _
    (by norm_num) (by norm_num) (by rw [round_nano]; norm_num) roundDouble_zero (by norm_num)
    round_epoch_sum

theorem round_epoch_next_frac :
    roundDouble (4835703278458517 / 4835703278458516698824704) = 4835703278458517 /
      4835703278458516698824704 :=
  (roundDouble_eq _ 82 4835703278458517 (by norm_num) (by norm_num)
    (by rw [abs_lt]; constructor <;> norm_num)).trans (by norm_num)

theorem round_epoch_next_sum :
    roundDouble (8220695573379478392837700078458517 / 4835703278458516698824704) = 1700000000 :=
  (roundDouble_eq _ 22 7130316800000000 (by norm_num) (by norm_num)
    (by rw [abs_lt]; constructor <;> norm_num)).trans (by norm_num)

theorem binary64_toSec_epoch_next :
    binary64.toSec (1700000000 + 1 / 10 ^ 9) = 1700000000 :=
  binary64_toSec_eq _ 1700000000 (4835703278458517 / 4835703278458516698824704) (4835703278458517
    / 4835703278458516698824704) (8220695573379478392837700078458517 / 4835703278458516698824704)
    _
    (by norm_num) (by norm_num) (by rw [round_nano]; norm_num) round_epoch_next_frac (by norm_num)
    round_epoch_next_sum

theorem round_tenth :
    roundDouble (1 / 10) = 3602879701896397 / 36028797018963968 :=
  (roundDouble_eq _ 56 7205759403792794 (by norm_num) (by norm_num)
    (by rw [abs_lt]; constructor <;> norm_num)).trans (by norm_num)

theorem round_tolerance :
    roundDouble (3602879701896397 / 9007199254740992) = 3602879701896397 / 9007199254740992 :=
  (roundDouble_eq _ 54 7205759403792794 (by norm_num) (by norm_num)
    (by rw [abs_lt]; constructor <;> norm_num)).trans (by norm_num)

/-- The tolerance at 10 Hz in binary64: the `double` nearest to 0.1, times 4. -/
theorem binary64_tolerance_value :
    binary64.mul (binary64.div 1 10) 4 = 3602879701896397 / 9007199254740992 := by
  show roundDouble (roundDouble (1 / 10) * 4) = _
  rw [round_tenth]
  exact (congrArg roundDouble (by norm_num)).trans round_tolerance

theorem binary64_tolerance :
    timingToleranceWith binary64 10 = 3602879701896397 / 9007199254740992 := by
  unfold timingToleranceWith
  rw [if_pos (by norm_num)]
  exact binary64_tolerance_value

theorem round_late_diff :
    roundDouble (32425917317067571 / 36028797018963968) = 8106479329266893 / 9007199254740992 :=
  (roundDouble_eq _ 53 8106479329266893 (by norm_num) (by norm_num)
    (by rw [abs_lt]; constructor <;> norm_num)).trans (by norm_num)

theorem binary64_diff_late :
    binary64.sub (binary64.toSec (1 / 10)) (binary64.toSec 1) = -(8106479329266893 /
      9007199254740992) := by
  rw [binary64_toSec_tenth, binary64_toSec_one]
  exact binary64_sub_eq _ _ (-(32425917317067571 / 36028797018963968)) _ (by norm_num)
    (roundDouble_neg_eq _ _ round_late_diff)

theorem round_boundary_diff :
    roundDouble (1801439850948199 / 4503599627370496) = 1801439850948199 / 4503599627370496 :=
  (roundDouble_eq _ 54 7205759403792796 (by norm_num) (by norm_num)
    (by rw [abs_lt]; constructor <;> norm_num)).trans (by norm_num)

theorem binary64_diff_boundary :
    binary64.sub (binary64.toSec (6 / 5)) (binary64.toSec (8 / 5)) = -(1801439850948199 /
      4503599627370496) := by
  rw [binary64_toSec_near, binary64_toSec_far]
  exact binary64_sub_eq _ _ (-(1801439850948199 / 4503599627370496)) _ (by norm_num)
    (roundDouble_neg_eq _ _ round_boundary_diff)

theorem round_epoch_diff :
    roundDouble (1677721 / 4194304) = 1677721 / 4194304 :=
  (roundDouble_eq _ 54 7205756826812416 (by norm_num) (by norm_num)
    (by rw [abs_lt]; constructor <;> norm_num)).trans (by norm_num)

theorem binary64_diff_epoch :
    binary64.sub (binary64.toSec (1700000000 + 120 / 10 ^ 9)) (binary64.toSec (1700000000 +
      400000121 / 10 ^ 9)) = -(1677721 / 4194304) := by
  rw [binary64_toSec_epoch_near, binary64_toSec_epoch_far]
  exact binary64_sub_eq _ _ (-(1677721 / 4194304)) _ (by norm_num) (roundDouble_neg_eq _ _
    round_epoch_diff)

theorem binary64_diff_epoch_next :
    binary64.sub (binary64.toSec (1700000000 + 1 / 10 ^ 9)) (binary64.toSec 1700000000) = 0 := by
  rw [binary64_toSec_epoch_next, binary64_toSec_epoch]
  exact binary64_sub_eq _ _ 0 _ (by norm_num) roundDouble_zero

/-! ## Pruning by staleness -/

theorem keepTrackWith_exact (framerate_ now : ℚ) (t : Track) :
    keepTrackWith exactArith framerate_ now t = keepTrack framerate_ now t :=
  rfl

theorem cleanPotentialBufferWith_exact (now : ℚ) (s : alternativeHT) :
    cleanPotentialBufferWith exactArith now s = cleanPotentialBuffer now s :=
  rfl

theorem keepTrackWith_iff (ar : DoubleArith) (framerate_ now : ℚ) (t : Track)
    (last : PointState) (hl : t.getLast? = some last) :
    keepTrackWith ar framerate_ now t = true
      ↔ ¬ EndsInThreeOff t ∧
        |ar.sub (ar.toSec last.insert_time) (ar.toSec now)|
          ≤ timingToleranceWith ar framerate_ := by
  unfold keepTrackWith
  rw [hl]
  simp only []
  by_cases h3 : EndsInThreeOff t
  · rw [if_pos ((threeOff_test_iff t).2 h3)]
    simp [h3]
  · rw [if_neg (fun hc => h3 ((threeOff_test_iff t).1 hc))]
    by_cases hs : |ar.sub (ar.toSec last.insert_time) (ar.toSec now)|
        > timingToleranceWith ar framerate_
    · rw [if_pos hs]
      simp [h3, not_le.2 hs]
    · rw [if_neg hs]
      simp [h3, not_lt.1 hs]

theorem keepTrackWith_stale (ar : DoubleArith) (framerate_ now : ℚ) (t : Track)
    (last : PointState) (hl : t.getLast? = some last)
    (hs : timingToleranceWith ar framerate_
      < |ar.sub (ar.toSec last.insert_time) (ar.toSec now)|) :
    keepTrackWith ar framerate_ now t = false := by
  rw [Bool.eq_false_iff]
  intro hk
  exact absurd ((keepTrackWith_iff ar _ _ _ _ hl).1 hk).2 (not_le.2 hs)

/-- C6, as the code has it. Whatever the rounding of the `double` operations, with a non-zero
frame rate a non-empty track is not in the track set after `cleanPotentialBuffer` when the
difference that the code computes for its last observation, the absolute value of the `double`
difference between the `toSec()` value of its time stamp and the `toSec()` value of the clock,
exceeds the tolerance that the code computes, `(1 / framerate) * 4`. -/
theorem cleanPotentialBuffer_removes_stale (ar : DoubleArith) (now : ℚ) (s : alternativeHT)
    (t : Track) (last : PointState) (hf : s.framerate_ ≠ 0) (hl : t.getLast? = some last)
    (hold : |ar.sub (ar.toSec last.insert_time) (ar.toSec now)|
      > ar.mul (ar.div 1 s.framerate_) 4) :
    t ∉ (cleanPotentialBufferWith ar now s).gen_sequences_ := by
  intro hmem
  have hk := (List.mem_filter.1 hmem).2
  have htol : timingToleranceWith ar s.framerate_ = ar.mul (ar.div 1 s.framerate_) 4 := by
    unfold timingToleranceWith
    rw [if_pos hf]
  rw [keepTrackWith_iff ar _ _ _ _ hl, htol] at hk
  exact absurd hk.2 (not_le.2 hold)

/-! ## Ingestion of a frame -/

/-- After `findClosestPixelAndInsert` on non-empty tracks every track is non-empty, and every
track is within the bound `cap` when the tracks were so before and `cap` is at least 1. -/
theorem assoc_tracks_bounded (c : Consts) (osq : List (List Bool)) (cap : ℕ) (now : ℚ)
    (tracks0 : List Track) (frame : List PointState) (hcap : bufferCap c osq = some cap)
    (hne : ∀ t ∈ tracks0, t ≠ []) :
    ∃ tracks1, findClosestPixelAndInsert c osq now tracks0 frame = some tracks1 ∧
      (∀ t ∈ tracks1, t ≠ []) ∧
      (1 ≤ cap → (∀ t ∈ tracks0, t.length ≤ cap) → ∀ t ∈ tracks1, t.length ≤ cap) := by
  obtain ⟨tracks1, it, m, un, h1, h2, h3, -, -, -, h7, h8⟩ :=
    assoc_summary c osq cap now tracks0 frame hcap hne
  have key : ∀ t ∈ tracks1, (∃ old obs, (∃ t0 ∈ tracks0, SameCore old t0) ∧
      t = insertPointToSequence cap old obs) ∨ ∃ d, t = [d] := by
    intro t ht
    obtain ⟨i, hi, rfl⟩ := List.getElem_of_mem ht
    have hget : tracks1.getD i [] = tracks1[i] := getD_of_getElem? (List.getElem?_eq_getElem hi)
    rcases Nat.lt_or_ge i tracks0.length with hlt | hge
    · left
      have hmem0 : tracks0.getD i [] ∈ tracks0 := by
        rw [List.getD_eq_getElem?_getD, List.getElem?_eq_getElem hlt]
        exact List.getElem_mem hlt
      by_cases hm : i ∈ m.map Prod.fst
      · obtain ⟨x, hx, rfl⟩ := List.mem_map.1 hm
        obtain ⟨-, old, obs, e1, -, e3⟩ := h7 x hx
        exact ⟨old, obs, ⟨_, hmem0, e1.sameCore⟩, by rw [← hget, e3]⟩
      · obtain ⟨old, last, e1, -, e3⟩ := h8 i hlt hm
        exact ⟨old, _, ⟨_, hmem0, e1.sameCore⟩, by rw [← hget, e3]⟩
    · right
      have hd : (tracks1.drop tracks0.length)[i - tracks0.length]? = some tracks1[i] := by
        rw [List.getElem?_drop, Nat.add_sub_cancel' hge, List.getElem?_eq_getElem hi]
      rw [h3, List.getElem?_map] at hd
      cases hu : un[i - tracks0.length]? with
      | none => simp [hu] at hd
      | some d =>
        rw [hu] at hd
        exact ⟨d, by simpa using hd.symm⟩
  refine ⟨tracks1, h1, ?_, ?_⟩
  · intro t ht
    rcases key t ht with ⟨old, obs, ⟨t0, ht0, hs⟩, rfl⟩ | ⟨d, rfl⟩
    · exact insert_ne_nil cap old obs (hs.ne_nil (hne t0 ht0))
    · simp
  · intro hc hle t ht
    rcases key t ht with ⟨old, obs, ⟨t0, ht0, hs⟩, rfl⟩ | ⟨d, rfl⟩
    · exact insert_length_le cap old obs (by rw [hs.length_eq]; exact hle t0 ht0)
    · simpa using hc

theorem processBuffer_defined (c : Consts) (now now_clean : ℚ) (s : alternativeHT)
    (pts_msg : ImagePoints) (cap : ℕ) (hcap : bufferCap c s.original_sequences_ = some cap)
    (hne : ∀ t ∈ s.gen_sequences_, t ≠ []) :
    ∃ tracks1, findClosestPixelAndInsert c s.original_sequences_ now s.gen_sequences_
        (frameOf c pts_msg) = some tracks1 ∧
      processBuffer c now now_clean s pts_msg
        = some (cleanPotentialBuffer now_clean { s with gen_sequences_ := tracks1 }) ∧
      (∀ t ∈ tracks1, t ≠ []) ∧
      (1 ≤ cap → (∀ t ∈ s.gen_sequences_, t.length ≤ cap) → ∀ t ∈ tracks1, t.length ≤ cap) := by
  obtain ⟨tracks1, h1, h2, h3⟩ := assoc_tracks_bounded c s.original_sequences_ cap now
    s.gen_sequences_ (frameOf c pts_msg) hcap hne
  exact ⟨tracks1, h1, by simp only [processBuffer, h1], h2, h3⟩

theorem mem_clean {now : ℚ} {s : alternativeHT} {t : Track}
    (h : t ∈ (cleanPotentialBuffer now s).gen_sequences_) : t ∈ s.gen_sequences_ :=
  (List.mem_filter.1 h).1

/-- The tracks of a state reached from an empty track set are non-empty, the code set is the
initial one, and the tracks are within the bound when it is at least 1. -/
theorem reachable_tracks (c : Consts) (s0 s : alternativeHT) (cap : ℕ)
    (h0 : s0.gen_sequences_ = []) (hcap : bufferCap c s0.original_sequences_ = some cap)
    (hr : Reachable c s0 s) :
    s.original_sequences_ = s0.original_sequences_ ∧ (∀ t ∈ s.gen_sequences_, t ≠ []) ∧
      (1 ≤ cap → ∀ t ∈ s.gen_sequences_, t.length ≤ cap) := by
  induction hr with
  | start => simp [h0]
  | ingest s s1 now now_clean pts_msg _ hstep ih =>
    obtain ⟨e1, e2, e3⟩ := ih
    obtain ⟨tracks1, -, h2, h3, h4⟩ :=
      processBuffer_defined c now now_clean s pts_msg cap (by rw [e1]; exact hcap) e2
    rw [h2] at hstep
    cases hstep
    refine ⟨e1, fun t ht => h3 t (mem_clean ht), fun hc t ht => ?_⟩
    exact h4 hc (e3 hc) t (mem_clean ht)
  | rate s input _ ih =>
    unfold updateFramerate
    split
    · exact ih
    · exact ih

/-- C2, as the code has it. With the code set `code0 :: rest` and a bound
`code0.size() * size_for_saved_seqs_` of at least 1, every track of every state reached from an
empty track set by calls of `processBuffer` (and `updateFramerate`) has at most that many
observations. -/
theorem track_length_bounded (c : Consts) (s0 s : alternativeHT) (code0 : List Bool)
    (rest : List (List Bool)) (h0 : s0.gen_sequences_ = [])
    (hcodes : s0.original_sequences_ = code0 :: rest)
    (hpos : 1 ≤ code0.length * c.size_for_saved_seqs_) (hr : Reachable c s0 s) :
    s.original_sequences_ = code0 :: rest ∧
      ∀ t ∈ s.gen_sequences_, t.length ≤ code0.length * c.size_for_saved_seqs_ := by
  have hcap : bufferCap c s0.original_sequences_
      = some (code0.length * c.size_for_saved_seqs_) := by
    rw [hcodes]
    rfl
  obtain ⟨e1, -, e3⟩ := reachable_tracks c s0 s _ h0 hcap hr
  exact ⟨e1.trans hcodes, e3 hpos⟩

/-- C5 (no track ends in three placeholders after a frame). `cleanPotentialBuffer` removes every
track that ends in three placeholders, whatever its time stamps; no track of a state returned
by `processBuffer` ends in three placeholders; and on non-empty tracks `processBuffer` does
return a state. -/
theorem processBuffer_no_three_off (c : Consts) (now now_clean : ℚ) (s : alternativeHT)
    (pts_msg : ImagePoints) (cap : ℕ) (hcap : bufferCap c s.original_sequences_ = some cap)
    (hne : ∀ t ∈ s.gen_sequences_, t ≠ []) :
    (∀ (clock : ℚ) (s1 : alternativeHT) (t : Track), EndsInThreeOff t →
      t ∉ (cleanPotentialBuffer clock s1).gen_sequences_) ∧
    (∀ (s1 s2 : alternativeHT) (clock clock_clean : ℚ) (msg : ImagePoints),
      processBuffer c clock clock_clean s1 msg = some s2 →
        ∀ t ∈ s2.gen_sequences_, ¬ EndsInThreeOff t) ∧
    ∃ s1, processBuffer c now now_clean s pts_msg = some s1 ∧
      ∀ t ∈ s1.gen_sequences_, ¬ EndsInThreeOff t := by
  have hclean : ∀ (clock : ℚ) (s1 : alternativeHT) (t : Track), EndsInThreeOff t →
      t ∉ (cleanPotentialBuffer clock s1).gen_sequences_ := by
    intro clock s1 t h3 hmem
    have hk := (List.mem_filter.1 hmem).2
    rw [keepTrack_threeOff s1.framerate_ clock t h3] at hk
    exact Bool.false_ne_true hk
  refine ⟨hclean, ?_, ?_⟩
  · intro s1 s2 clock clock_clean msg hstep t ht h3
    unfold processBuffer at hstep
    split at hstep
    · cases hstep
    · cases hstep
      exact hclean _ _ t h3 ht
  · obtain ⟨tracks1, -, h2, -, -⟩ :=
      processBuffer_defined c now now_clean s pts_msg cap hcap hne
    exact ⟨_, h2, fun t ht h3 => hclean _ _ t h3 ht⟩

/-! ## Results query -/

theorem range'_filterMap_getElem? {α : Type} (l : List α) (d : ℕ) :
    (List.range' d (l.length - d)).filterMap (fun i => l[i]?) = l.drop d := by
  induction l generalizing d with
  | nil => simp
  | cons x xs ih =>
    cases d with
    | zero =>
      have h := ih 0
      simp only [Nat.sub_zero, List.drop_zero] at h
      simp only [List.length_cons, Nat.sub_zero, List.drop_zero]
      rw [List.range'_succ, List.filterMap_cons]
      simp only [List.getElem?_cons_zero]
      rw [← List.map_add_range' 1 0, List.filterMap_map]
      congr 1
      have hf : ((fun i => (x :: xs)[i]?) ∘ fun y => 1 + y) = fun i => xs[i]? := by
        funext i
        simp [Nat.add_comm 1 i]
      rw [hf]
      exact h
    | succ d =>
      have h := ih d
      simp only [List.length_cons, Nat.add_sub_add_right, List.drop_succ_cons]
      rw [← h, Nat.add_comm d 1, ← List.map_add_range' 1 d, List.filterMap_map]
      congr 1
      funext i
      simp [Nat.add_comm 1 i]

theorem selectedOf_eq_drop (refLen : ℕ) (t : Track) :
    selectedOf refLen t = t.drop (t.length - refLen) := by
  unfold selectedOf
  split
  · rename_i h
    have h2 : t.length - (t.length - refLen) = refLen := by omega
    simp only []
    exact range'_filterMap_getElem? t (t.length - refLen)
  · rename_i h
    have : t.length - refLen = 0 := by omega
    simp [this]

theorem threeFalse_any_iff (seq : List Bool) :
    (List.range' 2 (seq.length - 2)).any (threeFalseAt seq) = true
      ↔ [false, false, false] <:+: seq := by
  rw [List.any_eq_true]
  constructor
  · rintro ⟨i, hi, h3⟩
    rw [List.mem_range'_1] at hi
    obtain ⟨i, rfl⟩ : ∃ j, i = j + 2 := ⟨i - 2, by omega⟩
    simp only [threeFalseAt, Bool.and_eq_true, beq_iff_eq, Nat.add_sub_cancel] at h3
    obtain ⟨⟨h2, h1⟩, h0⟩ := h3
    have e1 : i + 2 - 1 = i + 1 := by omega
    rw [e1] at h1
    refine ⟨seq.take i, seq.drop (i + 3), ?_⟩
    apply List.ext_getElem?
    intro n
    rcases Nat.lt_or_ge n i with hn | hn
    · rw [List.append_assoc, List.getElem?_append_left (by simp; omega)]
      simp [List.getElem?_take, hn]
    · have hlen : (seq.take i).length = i := by simp; omega
      rw [List.append_assoc, List.getElem?_append_right (by omega), hlen]
      rcases Nat.lt_or_ge (n - i) 3 with h3 | h3
      · rw [List.getElem?_append_left (by simpa using h3)]
        obtain ⟨k, rfl⟩ : ∃ k, n = i + k := ⟨n - i, by omega⟩
        simp only [Nat.add_sub_cancel_left] at h3 ⊢
        interval_cases k
        · simpa using h0.symm
        · simpa using h1.symm
        · simpa using h2.symm
      · rw [List.getElem?_append_right (by simpa using h3)]
        simp only [List.length_cons, List.length_nil, List.getElem?_drop]
        congr 1
        omega
  · rintro ⟨l1, l2, rfl⟩
    refine ⟨l1.length + 2, ?_, ?_⟩
    · rw [List.mem_range'_1]
      simp
      omega
    · have e0 : (l1 ++ [false, false, false] ++ l2)[l1.length]? = some false := by
        rw [List.append_assoc, List.getElem?_append_right (Nat.le_refl _)]
        simp
      have e1 : (l1 ++ [false, false, false] ++ l2)[l1.length + 1]? = some false := by
        rw [List.append_assoc, List.getElem?_append_right (by omega)]
        simp
      have e2 : (l1 ++ [false, false, false] ++ l2)[l1.length + 2]? = some false := by
        rw [List.append_assoc, List.getElem?_append_right (by omega)]
        simp
      have a1 : l1.length + 2 - 1 = l1.length + 1 := by omega
      have a2 : l1.length + 2 - 2 = l1.length := by omega
      simp only [threeFalseAt, a1, a2, e0, e1, e2, beq_self_eq_true, Bool.and_self]

theorem resultOf_eq (refLen : ℕ) (matcher_ : Option (List Bool → ℤ)) (track : Track) :
    resultOf refLen matcher_ track =
      if [false, false, false] <:+: suffixWindow refLen track then some (track, -2)
      else matcher_.map (fun m => (track, m (suffixWindow refLen track))) := by
  unfold resultOf findSequenceMatch suffixWindow
  simp only [selectedOf_eq_drop]
  by_cases h : [false, false, false] <:+:
      List.map (fun p => p.led_state) (List.drop (track.length - refLen) track)
  · rw [if_pos ((threeFalse_any_iff _).2 h), if_pos h]
  · rw [if_neg (fun hc => h ((threeFalse_any_iff _).1 hc)), if_neg h]
    cases matcher_ <;> rfl

theorem getResultsLoop_eq (s0 : List Bool) (rest : List (List Bool)) (m : List Bool → ℤ)
    (tracks : List Track) :
    getResultsLoop (s0 :: rest) (some m) tracks = some (tracks.map (fun track =>
      (track, if [false, false, false] <:+: suffixWindow s0.length track then -2
        else m (suffixWindow s0.length track)))) := by
  induction tracks with
  | nil => rfl
  | cons t ts ih =>
    simp only [getResultsLoop, ih, resultOf_eq, List.map_cons]
    by_cases h : [false, false, false] <:+: suffixWindow s0.length t <;> simp [h]

/-- C7 (sentinel correctness). For every track set and every matcher, `getResults` is defined
and reports one pair per track; a track whose suffix window (its last `reference_length`
`led_state` values, the whole track if shorter) contains three consecutive `false` values is
reported with the invalid identity `-2`, and that result is obtained without a call of the
matcher: it is the same when `matcher_` is null. -/
theorem getResults_invalid_sentinel (s : alternativeHT) (s0 : List Bool)
    (rest : List (List Bool)) (m : List Bool → ℤ)
    (hs : s.original_sequences_ = s0 :: rest) (hm : s.matcher_ = some m) :
    ∃ results, getResults s = some results ∧ results.length = s.gen_sequences_.length ∧
      ∀ (i : ℕ) (track : Track), s.gen_sequences_[i]? = some track →
        [false, false, false] <:+: suffixWindow s0.length track →
          results[i]? = some (track, -2) ∧ resultOf s0.length none track = some (track, -2) := by
  refine ⟨(s.gen_sequences_.map (fun track =>
      (track, if [false, false, false] <:+: suffixWindow s0.length track then -2
        else m (suffixWindow s0.length track)))), ?_, ?_, ?_⟩
  · unfold getResults
    rw [hs, hm]
    exact getResultsLoop_eq s0 rest m s.gen_sequences_
  · simp
  · intro i track hi hw
    constructor
    · simp [List.getElem?_map, hi, hw]
    · rw [resultOf_eq, if_pos hw]

/-- C8 (delegation to the matcher). For a track whose suffix window contains no three
consecutive `false` values, `getResults` reports the value the matcher returns on the
`led_state` values of the last `min(len, reference_length)` observations, in track order, paired
with the whole observation history of the track. -/
theorem getResults_delegates (s : alternativeHT) (s0 : List Bool)
    (rest : List (List Bool)) (m : List Bool → ℤ)
    (hs : s.original_sequences_ = s0 :: rest) (hm : s.matcher_ = some m) :
    ∃ results, getResults s = some results ∧ results.length = s.gen_sequences_.length ∧
      ∀ (i : ℕ) (track : Track), s.gen_sequences_[i]? = some track →
        ¬ [false, false, false] <:+: suffixWindow s0.length track →
          results[i]? = some (track, m (suffixWindow s0.length track)) ∧
          (suffixWindow s0.length track).length = min track.length s0.length ∧
          suffixWindow s0.length track <:+ track.map (fun p => p.led_state) := by
  refine ⟨(s.gen_sequences_.map (fun track =>
      (track, if [false, false, false] <:+: suffixWindow s0.length track then -2
        else m (suffixWindow s0.length track)))), ?_, ?_, ?_⟩
  · unfold getResults
    rw [hs, hm]
    exact getResultsLoop_eq s0 rest m s.gen_sequences_
  · simp
  · intro i track hi hw
    refine ⟨?_, ?_, ?_⟩
    · simp [List.getElem?_map, hi, hw]
    · simp only [suffixWindow, List.length_map, List.length_drop]
      omega
    · unfold suffixWindow
      exact (List.drop_suffix _ _).map _

/-! ## The search loop as a sequence of steps -/

/-- One iteration of the loop `for k` of `expandedSearch` on a track that passes the validity
guard. -/
theorem expandedLoop_step (c : Consts) (bound : Option ℕ) (it : ℚ) (fuel k : ℕ) (a : Assoc)
    (h : ℕ) (last0 : PointState) (hk : a.pool[k]? = some h)
    (hg : checkSequenceValidityWithNewInsert (a.tracks.getD h []) = true)
    (hl : (a.tracks.getD h []).getLast? = some last0) :
    expandedLoop c bound it (fuel + 1) k a =
      match a.no_nn.findIdx? (fun q => c.extended_search_.checkIfInsideEllipse
          (withPrediction c it (a.tracks.getD h []) last0).point
          (withPrediction c it (a.tracks.getD h []) last0).ellipse q.point) with
      | none =>
        expandedLoop c bound it fuel (k + 1)
          { a with tracks := (a.tracks.set h ((a.tracks.getD h []).dropLast ++
              [withPrediction c it (a.tracks.getD h []) last0])) }
      | some i =>
        match a.no_nn[i]?, bound with
        | some q, some cap =>
          expandedLoop c bound it fuel (k + 1)
            { tracks := (a.tracks.set h (insertPointToSequence cap
                ((a.tracks.getD h []).dropLast ++
                  [withPrediction c it (a.tracks.getD h []) last0])
                (tagDetection (withPrediction c it (a.tracks.getD h []) last0) q))),
              pool := a.pool.eraseIdx k,
              no_nn := a.no_nn.eraseIdx i }
        | _, _ => none := by
  rw [expandedLoop]
  simp only [hk, hg, hl, Bool.true_eq_false, if_false]

theorem ExpStep.step_wf {c : Consts} {cap : ℕ} {it : ℚ} {a a1 : Assoc}
    (hs : ExpStep c cap it a a1) (hwf : a.WF) : a1.WF := by
  cases hs with
  | touch k h last0 hk hg hl hf =>
    have hmem : h ∈ a.pool := mem_of_getElem? hk
    obtain ⟨hlt, -⟩ := hwf.2 h hmem
    refine ⟨hwf.1, fun x hx => ⟨?_, ?_⟩⟩
    · simp only [List.length_set]
      exact (hwf.2 x hx).1
    · simp only []
      by_cases hxh : h = x
      · subst hxh
        rw [getD_set_self _ _ _ _ hlt]
        simp
      · rw [getD_set_ne _ _ _ _ _ hxh]
        exact (hwf.2 x hx).2
  | hit k h last0 i q hk hg hl hf hq =>
    have hnot : h ∉ a.pool.eraseIdx k := not_mem_eraseIdx_of_nodup a.pool k h hk hwf.1
    refine ⟨hwf.1.eraseIdx k, fun x hx => ⟨?_, ?_⟩⟩
    · simp only [List.length_set]
      exact (hwf.2 x (mem_of_mem_eraseIdx _ _ _ hx)).1
    · simp only []
      have hxh : h ≠ x := by
        rintro rfl
        exact hnot hx
      rw [getD_set_ne _ _ _ _ _ hxh]
      exact (hwf.2 x (mem_of_mem_eraseIdx _ _ _ hx)).2

/-- The search loop of `expandedSearch`, on distinct handles of non-empty tracks, is defined and
its result is reached by effective iterations. -/
theorem expandedLoop_steps (c : Consts) (cap : ℕ) (it : ℚ) (fuel : ℕ) :
    ∀ (k : ℕ) (a : Assoc), a.WF →
      ∃ a1, expandedLoop c (some cap) it fuel k a = some a1 ∧
        Relation.ReflTransGen (ExpStep c cap it) a a1 := by
  induction fuel with
  | zero =>
    intro k a _
    exact ⟨a, rfl, Relation.ReflTransGen.refl⟩
  | succ fuel ih =>
    intro k a hwf
    cases hk : a.pool[k]? with
    | none =>
      refine ⟨a, ?_, Relation.ReflTransGen.refl⟩
      rw [expandedLoop]
      simp only [hk]
    | some h =>
      have hmem : h ∈ a.pool := mem_of_getElem? hk
      obtain ⟨-, hnn⟩ := hwf.2 h hmem
      by_cases hc : checkSequenceValidityWithNewInsert (a.tracks.getD h []) = false
      · obtain ⟨a1, e1, e2⟩ := ih (k + 1) a hwf
        refine ⟨a1, ?_, e2⟩
        rw [expandedLoop]
        simp only [hk, hc, if_true]
        exact e1
      · have hg : checkSequenceValidityWithNewInsert (a.tracks.getD h []) = true := by
          simpa using hc
        cases hl : (a.tracks.getD h []).getLast? with
        | none => exact absurd (List.getLast?_eq_none_iff.1 hl) hnn
        | some last0 =>
          have hstep := expandedLoop_step c (some cap) it fuel k a h last0 hk hg hl
          cases hf : a.no_nn.findIdx? (ellipseTest c it (a.tracks.getD h []) last0) with
          | none =>
            have hs : ExpStep c cap it a _ := ExpStep.touch a k h last0 hk hg hl hf
            obtain ⟨a1, e1, e2⟩ := ih (k + 1) _ (hs.step_wf hwf)
            refine ⟨a1, ?_, Relation.ReflTransGen.head hs e2⟩
            rw [hstep]
            unfold ellipseTest at hf
            simp only [hf]
            exact e1
          | some i =>
            have hf0 := hf
            unfold ellipseTest at hf0
            obtain ⟨q, hq, -⟩ := getElem?_of_findIdx? _ _ _ hf0
            have hs : ExpStep c cap it a _ := ExpStep.hit a k h last0 i q hk hg hl hf hq
            obtain ⟨a1, e1, e2⟩ := ih (k + 1) _ (hs.step_wf hwf)
            refine ⟨a1, ?_, Relation.ReflTransGen.head hs e2⟩
            rw [hstep]
            simp only [hf0, hq]
            exact e1

/-- What an effective iteration leaves alone: the handle vector and the unmatched detections
only shrink, the number of tracks stays, and a track whose handle is not in the vector is not
written. -/
theorem ExpStep.step_frame {c : Consts} {cap : ℕ} {it : ℚ} {a a1 : Assoc}
    (hs : ExpStep c cap it a a1) :
    a1.pool.Sublist a.pool ∧ a1.no_nn.Sublist a.no_nn ∧ a1.tracks.length = a.tracks.length ∧
      ∀ i, i ∉ a.pool → a1.tracks.getD i [] = a.tracks.getD i [] := by
  cases hs with
  | touch k h last0 hk hg hl hf =>
    refine ⟨List.Sublist.refl _, List.Sublist.refl _, by simp, fun i hi => ?_⟩
    exact getD_set_ne _ _ _ _ _ (fun he => hi (he ▸ mem_of_getElem? hk))
  | hit k h last0 i q hk hg hl hf hq =>
    refine ⟨List.eraseIdx_sublist _ _, List.eraseIdx_sublist _ _, by simp, fun j hj => ?_⟩
    exact getD_set_ne _ _ _ _ _ (fun he => hj (he ▸ mem_of_getElem? hk))

theorem ExpSteps.steps_frame {c : Consts} {cap : ℕ} {it : ℚ} {a a1 : Assoc}
    (hs : Relation.ReflTransGen (ExpStep c cap it) a a1) :
    a1.pool.Sublist a.pool ∧ a1.no_nn.Sublist a.no_nn ∧ a1.tracks.length = a.tracks.length ∧
      ∀ i, i ∉ a.pool → a1.tracks.getD i [] = a.tracks.getD i [] := by
  induction hs with
  | refl => exact ⟨List.Sublist.refl _, List.Sublist.refl _, rfl, fun _ _ => rfl⟩
  | tail _ hstep ih =>
    obtain ⟨e1, e2, e3, e4⟩ := ih
    obtain ⟨f1, f2, f3, f4⟩ := hstep.step_frame
    refine ⟨f1.trans e1, f2.trans e2, f3.trans e3, fun i hi => ?_⟩
    rw [f4 i (fun hc => hi (e1.subset hc)), e4 i hi]

theorem ExpSteps.steps_wf {c : Consts} {cap : ℕ} {it : ℚ} {a a1 : Assoc}
    (hs : Relation.ReflTransGen (ExpStep c cap it) a a1) (hwf : a.WF) : a1.WF := by
  induction hs with
  | refl => exact hwf
  | tail _ hstep ih => exact hstep.step_wf ih

theorem expandedMatch_steps (c : Consts) (cap : ℕ) (a : Assoc) (hwf : a.WF) :
    ∃ a1, expandedMatch c (some cap) a = some a1 ∧
      ((a.no_nn = [] ∧ a1 = a) ∨
        ∃ p0 rest, a.no_nn = p0 :: rest ∧
          Relation.ReflTransGen (ExpStep c cap (p0.insert_time + c.prediction_margin_)) a a1) := by
  unfold expandedMatch
  cases hn : a.no_nn with
  | nil => exact ⟨a, rfl, Or.inl ⟨rfl, rfl⟩⟩
  | cons p0 rest =>
    obtain ⟨a1, e1, e2⟩ := expandedLoop_steps c cap
      (p0.insert_time + c.prediction_margin_) a.pool.length 0 a hwf
    exact ⟨a1, e1, Or.inr ⟨p0, rest, rfl, e2⟩⟩

theorem Inv.toWF {c : Consts} {cap : ℕ} {it : ℚ} {tracks0 : List Track}
    {fr : List PointState} {a : Assoc} {m : List (ℕ × PointState)}
    (hI : Inv c cap it tracks0 fr a m) (hne : ∀ t ∈ tracks0, t ≠ []) : a.WF :=
  ⟨hI.nodup, fun h hh => ⟨by rw [hI.len]; exact (hI.cover h).2 (Or.inl hh),
    hI.pool_ne_nil hne h hh⟩⟩

/-! ## Detections outside every ellipse -/

theorem SameCore.getLast? {t t1 : Track} (h : SameCore t t1) (last : PointState)
    (hl : t.getLast? = some last) :
    ∃ last1, t1.getLast? = some last1 ∧ core last1 = core last := by
  have hm : (t.map core).getLast? = (t1.map core).getLast? := congrArg _ h
  rw [List.getLast?_map, List.getLast?_map, hl] at hm
  cases h1 : t1.getLast? with
  | none => simp [h1] at hm
  | some last1 =>
    rw [h1] at hm
    exact ⟨last1, rfl, by simpa using hm.symm⟩

theorem SameCore.ellipseTest_eq {t t1 : Track} (h : SameCore t t1) (c : Consts) (it : ℚ)
    (last last1 d : PointState) (hc : core last1 = core last) :
    ellipseTest c it t last d = ellipseTest c it t1 last1 d := by
  have hp : last1.point = last.point := congrArg Prod.fst hc
  have he : (withPrediction c it t last).ellipse = (withPrediction c it t1 last1).ellipse := by
    rw [h.withPrediction_eq c it last]
    rfl
  have hpt : (withPrediction c it t last).point = (withPrediction c it t1 last1).point :=
    hp.symm
  unfold ellipseTest
  rw [he, hpt]

theorem SameCore.outside_of {t t1 : Track} (h : SameCore t t1) (c : Consts) (it : ℚ)
    (d : PointState) (ho : OutsideEllipse c it d t1) : OutsideEllipse c it d t := by
  intro last hl
  obtain ⟨last1, h1, hc⟩ := h.getLast? last hl
  rw [h.ellipseTest_eq c it last last1 d hc]
  exact ho last1 h1

theorem count_eraseIdx_of_ne {α : Type} [DecidableEq α] (l : List α) (i : ℕ) (q d : α)
    (hq : l[i]? = some q) (hne : d ≠ q) : (l.eraseIdx i).count d = l.count d := by
  rw [(perm_cons_eraseIdx l i q hq).count_eq d, List.count_cons_of_ne hne]

/-- An effective iteration keeps every detection that fails the ellipse test of every track that
passes the validity guard, and keeps it failing. -/
theorem ExpStep.step_outside {c : Consts} {cap : ℕ} {it : ℚ} {a a1 : Assoc} (d : PointState)
    (hs : ExpStep c cap it a a1) (hwf : a.WF)
    (ho : ∀ h ∈ a.pool, checkSequenceValidityWithNewInsert (a.tracks.getD h []) = true →
      OutsideEllipse c it d (a.tracks.getD h [])) :
    a1.no_nn.count d = a.no_nn.count d ∧
      ∀ h ∈ a1.pool, checkSequenceValidityWithNewInsert (a1.tracks.getD h []) = true →
        OutsideEllipse c it d (a1.tracks.getD h []) := by
  cases hs with
  | touch k h last0 hk hg hl hf =>
    have hmem : h ∈ a.pool := mem_of_getElem? hk
    obtain ⟨hlt, -⟩ := hwf.2 h hmem
    refine ⟨rfl, fun x hx hcx => ?_⟩
    simp only [] at hx hcx ⊢
    by_cases hxh : h = x
    · subst hxh
      rw [getD_set_self _ _ _ _ hlt] at hcx ⊢
      have hsc : SameCore ((a.tracks.getD h []).dropLast ++
          [withPrediction c it (a.tracks.getD h []) last0]) (a.tracks.getD h []) :=
        sameCore_setBack _ last0 _ hl (core_withPrediction c it _ last0)
      exact hsc.outside_of c it d (ho h hmem hg)
    · rw [getD_set_ne _ _ _ _ _ hxh] at hcx ⊢
      exact ho x hx hcx
  | hit k h last0 i q hk hg hl hf hq =>
    have hmem : h ∈ a.pool := mem_of_getElem? hk
    have hnot : h ∉ a.pool.eraseIdx k := not_mem_eraseIdx_of_nodup a.pool k h hk hwf.1
    constructor
    · simp only []
      apply count_eraseIdx_of_ne a.no_nn i q d hq
      rintro rfl
      obtain ⟨q1, hq1, hpass⟩ := getElem?_of_findIdx? _ _ _ hf
      rw [hq] at hq1
      cases hq1
      rw [ho h hmem hg last0 hl] at hpass
      exact Bool.false_ne_true hpass
    · intro x hx hcx
      simp only [] at hx hcx ⊢
      have hxh : h ≠ x := by
        rintro rfl
        exact hnot hx
      rw [getD_set_ne _ _ _ _ _ hxh] at hcx ⊢
      exact ho x (mem_of_mem_eraseIdx _ _ _ hx) hcx

theorem ExpSteps.steps_outside {c : Consts} {cap : ℕ} {it : ℚ} {a a1 : Assoc} (d : PointState)
    (hs : Relation.ReflTransGen (ExpStep c cap it) a a1) (hwf : a.WF)
    (ho : ∀ h ∈ a.pool, checkSequenceValidityWithNewInsert (a.tracks.getD h []) = true →
      OutsideEllipse c it d (a.tracks.getD h [])) :
    a1.no_nn.count d = a.no_nn.count d ∧
      ∀ h ∈ a1.pool, checkSequenceValidityWithNewInsert (a1.tracks.getD h []) = true →
        OutsideEllipse c it d (a1.tracks.getD h []) := by
  induction hs with
  | refl => exact ⟨rfl, ho⟩
  | tail hprev hstep ih =>
    obtain ⟨e1, e2⟩ := ih
    obtain ⟨f1, f2⟩ := hstep.step_outside d (ExpSteps.steps_wf hprev hwf) e2
    exact ⟨f1.trans e1, f2⟩

/-- C14 (ellipse correctness, outside). Let `a` be the state after the fast pass on non-empty
tracks, `d` a detection the fast pass passed on, and let `d` fail the ellipse test (at the
target time of this frame) of every track left in the pool that passes the validity guard. Then
`findClosestPixelAndInsert` is defined, and every occurrence of `d` among the passed-on
detections is among the detections `un` that start the single-observation tracks behind the
pre-existing tracks: none of them is appended to an existing track. -/
theorem outside_starts_new_track (c : Consts) (osq : List (List Bool)) (cap : ℕ) (now : ℚ)
    (tracks0 : List Track) (frame : List PointState) (a : Assoc) (d p0 : PointState)
    (hcap : bufferCap c osq = some cap) (hne : ∀ t ∈ tracks0, t ≠ [])
    (hfast : fastPass c (some cap)
      { tracks := tracks0, pool := List.range tracks0.length, no_nn := [] } frame = some a)
    (hd : d ∈ a.no_nn) (hhead : a.no_nn.head? = some p0)
    (hout : ∀ h ∈ a.pool, checkSequenceValidityWithNewInsert (a.tracks.getD h []) = true →
      OutsideEllipse c (p0.insert_time + c.prediction_margin_) d (a.tracks.getD h [])) :
    ∃ (tracks1 : List Track) (un : List PointState),
      findClosestPixelAndInsert c osq now tracks0 frame = some tracks1 ∧
      tracks1.drop tracks0.length = un.map (fun point => [point]) ∧
      un.Sublist a.no_nn ∧ d ∈ un ∧ un.count d = a.no_nn.count d := by
  obtain ⟨a0, ha0, hIa⟩ :=
    @fastPass_inv c cap tracks0 hne frame [] _ (fun it => ⟨[], Inv.start c cap it tracks0⟩)
  rw [hfast] at ha0
  cases ha0
  obtain ⟨m, hI⟩ := hIa 0
  have hwf : a.WF := hI.toWF hne
  obtain ⟨a1, e1, e2⟩ := expandedMatch_steps c cap a hwf
  have hsteps : Relation.ReflTransGen
      (ExpStep c cap (p0.insert_time + c.prediction_margin_)) a a1 := by
    rcases e2 with ⟨hnil, -⟩ | ⟨p1, rest, hcons, hs⟩
    · rw [hnil] at hd
      cases hd
    · rw [hcons] at hhead
      cases hhead
      exact hs
  have hwf1 : a1.WF := ExpSteps.steps_wf hsteps hwf
  obtain ⟨f1, f2, f3, -⟩ := ExpSteps.steps_frame hsteps
  obtain ⟨hcount, -⟩ := ExpSteps.steps_outside d hsteps hwf hout
  obtain ⟨tracks2, h2, h3, -, -⟩ := insertVPs_spec cap now a1.pool a1.tracks hwf1.1
    (fun h hh => (hwf1.2 h hh).1) (fun h hh => (hwf1.2 h hh).2)
  have hlen2 : tracks2.length = tracks0.length := by rw [h3, f3, hI.len]
  have hdrop : (tracks2 ++ a1.no_nn.map (fun point => [point])).drop tracks0.length
      = a1.no_nn.map (fun point => [point]) := by
    rw [← hlen2, List.drop_left]
  refine ⟨tracks2 ++ a1.no_nn.map (fun point => [point]), a1.no_nn, ?_, hdrop, f2, ?_, hcount⟩
  · simp only [findClosestPixelAndInsert, hcap, hfast, expandedSearch, e1, h2]
  · exact List.count_pos_iff.1 (by rw [hcount]; exact List.count_pos_iff.2 hd)

/-! ## The first detection inside an ellipse -/

theorem findIdx?_split {α : Type} (p : α → Bool) (pre post : List α) (q : α)
    (hpre : ∀ x ∈ pre, p x = false) (hq : p q = true) :
    (pre ++ q :: post).findIdx? p = some pre.length := by
  rw [List.findIdx?_append, List.findIdx?_eq_none_iff.2 hpre, List.findIdx?_cons, if_pos hq]
  simp

/-- C13, as the code has it. When the search loop evaluates, at index `k`, a track that passes
the validity guard, the first still-unmatched detection `q`, in detection order, that passes
the ellipse test of the track is appended to that track (tagged with the predictive members):
the track leaves the handle vector, so it receives no placeholder and keeps this detection as
its appended observation to the end of the call, and `q` leaves the unmatched detections, so
it starts no new track. -/
theorem ellipse_first_inside (c : Consts) (cap : ℕ) (now it : ℚ) (fuel k : ℕ) (a : Assoc)
    (h : ℕ) (last0 : PointState) (pre post : List PointState) (q : PointState) (hwf : a.WF)
    (hk : a.pool[k]? = some h)
    (hg : checkSequenceValidityWithNewInsert (a.tracks.getD h []) = true)
    (hl : (a.tracks.getD h []).getLast? = some last0)
    (hsplit : a.no_nn = pre ++ q :: post)
    (hpre : ∀ x ∈ pre, ellipseTest c it (a.tracks.getD h []) last0 x = false)
    (hq : ellipseTest c it (a.tracks.getD h []) last0 q = true) :
    ∃ a1 tracks2, expandedLoop c (some cap) it (fuel + 1) k a = some a1 ∧
      insertVPs (some cap) now a1.tracks a1.pool = some tracks2 ∧
      h ∉ a1.pool ∧ a1.no_nn.Sublist (pre ++ post) ∧
      (tracks2 ++ a1.no_nn.map (fun point => [point])).getD h []
        = insertPointToSequence cap
            ((a.tracks.getD h []).dropLast ++ [withPrediction c it (a.tracks.getD h []) last0])
            (tagDetection (withPrediction c it (a.tracks.getD h []) last0) q) := by
  have hf : a.no_nn.findIdx? (ellipseTest c it (a.tracks.getD h []) last0)
      = some pre.length := by
    rw [hsplit]
    exact findIdx?_split _ pre post q hpre hq
  have hq1 : a.no_nn[pre.length]? = some q := by
    rw [hsplit, List.getElem?_append_right (Nat.le_refl _)]
    simp
  have herase : a.no_nn.eraseIdx pre.length = pre ++ post := by
    rw [hsplit, List.eraseIdx_append_of_length_le (Nat.le_refl _)]
    simp
  have hmem : h ∈ a.pool := mem_of_getElem? hk
  obtain ⟨hlt, -⟩ := hwf.2 h hmem
  have hs : ExpStep c cap it a _ := ExpStep.hit a k h last0 pre.length q hk hg hl hf hq1
  have hwf1 := hs.step_wf hwf
  obtain ⟨a1, e1, e2⟩ := expandedLoop_steps c cap it fuel (k + 1) _ hwf1
  obtain ⟨f1, f2, f3, f4⟩ := ExpSteps.steps_frame e2
  have hwf2 : a1.WF := ExpSteps.steps_wf e2 hwf1
  have hnot : h ∉ a.pool.eraseIdx k := not_mem_eraseIdx_of_nodup a.pool k h hk hwf.1
  have hnot1 : h ∉ a1.pool := fun hc => hnot (f1.subset hc)
  obtain ⟨tracks2, h2, h3, -, h5⟩ := insertVPs_spec cap now a1.pool a1.tracks hwf2.1
    (fun x hx => (hwf2.2 x hx).1) (fun x hx => (hwf2.2 x hx).2)
  refine ⟨a1, tracks2, ?_, h2, hnot1, ?_, ?_⟩
  · rw [expandedLoop_step c (some cap) it fuel k a h last0 hk hg hl]
    have hf0 := hf
    unfold ellipseTest at hf0
    simp only [hf0, hq1]
    exact e1
  · simp only [herase] at f2
    exact f2
  · have hlen : h < tracks2.length := by
      rw [h3, f3]
      simpa using hlt
    rw [getD_append_left _ _ _ _ hlen, h5 h hnot1, f4 h hnot]
    exact getD_set_self _ _ _ _ hlt

/-! ## The gate of the fast pass -/

theorem fastPass_append (c : Consts) (bound : Option ℕ) (pre post : List PointState) :
    ∀ a : Assoc, fastPass c bound a (pre ++ post)
      = (fastPass c bound a pre).bind (fun a1 => fastPass c bound a1 post) := by
  induction pre with
  | nil =>
    intro a
    rfl
  | cons d rest ih =>
    intro a
    simp only [List.cons_append, fastPass]
    cases fastStep c bound a d with
    | none => rfl
    | some a1 => exact ih a1

theorem fastStep_frame (c : Consts) (bound : Option ℕ) (a a1 : Assoc) (d : PointState)
    (hs : fastStep c bound a d = some a1) :
    a1.pool.Sublist a.pool ∧ a1.tracks.length = a.tracks.length ∧
      (∀ i, i ∉ a.pool → a1.tracks.getD i [] = a.tracks.getD i []) ∧
      ∃ ps, ps.Sublist [d] ∧ a1.no_nn = a.no_nn ++ ps := by
  unfold fastStep at hs
  split at hs
  · cases hs
  · cases hs
    exact ⟨List.Sublist.refl _, rfl, fun _ _ => rfl, [d], List.Sublist.refl _, rfl⟩
  · split at hs
    · rename_i _ j _ _ _ h cap hj
      cases hs
      refine ⟨List.eraseIdx_sublist _ _, by simp, fun i hi => ?_, [], by simp, by simp⟩
      exact getD_set_ne _ _ _ _ _ (fun he => hi (he ▸ mem_of_getElem? hj))
    · cases hs

theorem fastPass_frame (c : Consts) (bound : Option ℕ) (frame : List PointState) :
    ∀ (a a1 : Assoc), fastPass c bound a frame = some a1 →
      a1.pool.Sublist a.pool ∧ a1.tracks.length = a.tracks.length ∧
        (∀ i, i ∉ a.pool → a1.tracks.getD i [] = a.tracks.getD i []) ∧
        ∃ ps, ps.Sublist frame ∧ a1.no_nn = a.no_nn ++ ps := by
  induction frame with
  | nil =>
    intro a a1 hs
    cases hs
    exact ⟨List.Sublist.refl _, rfl, fun _ _ => rfl, [], List.Sublist.refl _, by simp⟩
  | cons d rest ih =>
    intro a a1 hs
    simp only [fastPass] at hs
    cases hstep : fastStep c bound a d with
    | none => simp [hstep] at hs
    | some a0 =>
      rw [hstep] at hs
      obtain ⟨e1, e2, e3, ps0, e4, e5⟩ := fastStep_frame c bound a a0 d hstep
      obtain ⟨f1, f2, f3, ps1, f4, f5⟩ := ih a0 a1 hs
      refine ⟨f1.trans e1, f2.trans e2, fun i hi => ?_, ps0 ++ ps1, ?_, ?_⟩
      · rw [f3 i (fun hc => hi (e1.subset hc)), e3 i hi]
      · exact List.Sublist.append e4 f4
      · rw [f5, e5, List.append_assoc]

theorem expandedMatch_frame (c : Consts) (cap : ℕ) (a : Assoc) (hwf : a.WF) :
    ∃ a1, expandedMatch c (some cap) a = some a1 ∧ a1.WF ∧
      a1.pool.Sublist a.pool ∧ a1.no_nn.Sublist a.no_nn ∧
      a1.tracks.length = a.tracks.length ∧
      ∀ i, i ∉ a.pool → a1.tracks.getD i [] = a.tracks.getD i [] := by
  obtain ⟨a1, e1, e2⟩ := expandedMatch_steps c cap a hwf
  rcases e2 with ⟨-, rfl⟩ | ⟨p0, rest, -, hs⟩
  · exact ⟨a1, e1, hwf, List.Sublist.refl _, List.Sublist.refl _, rfl, fun _ _ => rfl⟩
  · obtain ⟨f1, f2, f3, f4⟩ := ExpSteps.steps_frame hs
    exact ⟨a1, e1, ExpSteps.steps_wf hs hwf, f1, f2, f3, f4⟩

/-- C12, as the code has it. Let `a` be the state of the fast pass when the detection `d` is
taken (after the detections `pre`), on non-empty tracks. If `d` is within the gate of the last
observation of a track that is still in the candidate pool, then the fast pass appends `d` to
the first such track of the pool, in track-set order, and does not pass `d` on; that track keeps
`d` as its appended observation to the end of the call, and the new tracks of the call come
from the other detections of the frame. -/
theorem gate_first_fit (c : Consts) (osq : List (List Bool)) (cap : ℕ) (now : ℚ)
    (tracks0 : List Track) (pre post : List PointState) (d : PointState) (a : Assoc) (h0 : ℕ)
    (hcap : bufferCap c osq = some cap) (hne : ∀ t ∈ tracks0, t ≠ [])
    (hpre : fastPass c (some cap)
      { tracks := tracks0, pool := List.range tracks0.length, no_nn := [] } pre = some a)
    (hin : h0 ∈ a.pool) (hgate : specGate c d (a.tracks.getD h0 []) = true) :
    ∃ (j h : ℕ) (tracks1 : List Track) (un : List PointState),
      a.pool[j]? = some h ∧
      a.pool.find? (fun x => specGate c d (a.tracks.getD x [])) = some h ∧
      fastStep c (some cap) a d = some
        { tracks := a.tracks.set h (insertPointToSequence cap (a.tracks.getD h []) d),
          pool := a.pool.eraseIdx j, no_nn := a.no_nn } ∧
      findClosestPixelAndInsert c osq now tracks0 (pre ++ d :: post) = some tracks1 ∧
      tracks1.getD h [] = insertPointToSequence cap (a.tracks.getD h []) d ∧
      tracks1.drop tracks0.length = un.map (fun point => [point]) ∧
      un.Sublist (pre ++ post) := by
  obtain ⟨a0, ha0, hIa⟩ :=
    @fastPass_inv c cap tracks0 hne pre [] _ (fun it => ⟨[], Inv.start c cap it tracks0⟩)
  rw [hpre] at ha0
  cases ha0
  obtain ⟨m, hI⟩ := hIa 0
  have hgf : gateAt c a.tracks d = fun x => specGate c d (a.tracks.getD x []) := by
    funext x
    exact gateAt_eq_specGate c a.tracks d x
  rcases fastStep_eq c cap a d (hI.pool_ne_nil hne) with ⟨h1, -⟩ | ⟨j, h, h1, h2, h3⟩
  · exfalso
    have := List.find?_eq_none.1 h1 h0 hin
    rw [gateAt_eq_specGate] at this
    exact this hgate
  · rw [hgf] at h2
    have hmem : h ∈ a.pool := mem_of_getElem? h1
    have hlt : h < a.tracks.length := by
      rw [hI.len]
      exact (hI.cover h).2 (Or.inl hmem)
    have hnot : h ∉ a.pool.eraseIdx j := not_mem_eraseIdx_of_nodup a.pool j h h1 hI.nodup
    obtain ⟨a1, hstep1, hIa1⟩ := fastStep_inv hne d hIa
    rw [h3] at hstep1
    have ha1 := Option.some.inj hstep1
    subst ha1
    obtain ⟨a2, h2p, hIa2⟩ := fastPass_inv hne post _ _ hIa1
    obtain ⟨g1, g2, g3, ps, g4, g5⟩ := fastPass_frame c (some cap) post _ a2 h2p
    obtain ⟨m2, hI2⟩ := hIa2 0
    obtain ⟨a3, e1, hwf3, f1, f2, f3, f4⟩ := expandedMatch_frame c cap a2 (hI2.toWF hne)
    obtain ⟨tracks2, v2, v3, -, v5⟩ := insertVPs_spec cap now a3.pool a3.tracks hwf3.1
      (fun x hx => (hwf3.2 x hx).1) (fun x hx => (hwf3.2 x hx).2)
    have hlen2 : tracks2.length = tracks0.length := by
      rw [v3, f3, hI2.len]
    have hnot2 : h ∉ a2.pool := fun hc => hnot (g1.subset hc)
    have hnot3 : h ∉ a3.pool := fun hc => hnot2 (f1.subset hc)
    refine ⟨j, h, tracks2 ++ a3.no_nn.map (fun point => [point]), a3.no_nn, h1, h2, h3,
      ?_, ?_, ?_, ?_⟩
    · have hfast : fastPass c (some cap)
          { tracks := tracks0, pool := List.range tracks0.length, no_nn := [] }
          (pre ++ d :: post) = some a2 := by
        rw [fastPass_append, hpre]
        simp only [Option.bind, fastPass, h3]
        exact h2p
      simp only [findClosestPixelAndInsert, hcap, hfast, expandedSearch, e1, v2]
    · rw [getD_append_left _ _ _ _ (by rw [hlen2, ← hI.len]; exact hlt), v5 h hnot3,
        f4 h hnot2, g3 h hnot]
      exact getD_set_self _ _ _ _ hlt
    · rw [← hlen2, List.drop_left]
    · have hs1 : a.no_nn.Sublist pre := by
        simpa using hI.sub
      have hs2 : a2.no_nn.Sublist (pre ++ post) := by
        rw [g5]
        exact List.Sublist.append hs1 g4
      exact f2.trans hs2

/-! ## The placeholder -/

/-- C11 (placeholder insertion). For a non-empty track, `insertVPforSequencesWithNoInsert`
appends one observation, which becomes the last observation of the track: it has the position
of the previous last observation, `led_state = false` and the current time as time stamp, and
its predicted position, ellipse, coefficients and `extended_search` flag are those of the
previous last observation. -/
theorem placeholder_fields (cap : ℕ) (now : ℚ) (tracks : List Track) (h : ℕ)
    (last : PointState) (hl : backOf tracks h = some last) :
    ∃ pVirtual, insertVPforSequencesWithNoInsert (some cap) now tracks h
        = some (tracks.set h (insertPointToSequence cap (tracks.getD h []) pVirtual)) ∧
      backOf (tracks.set h (insertPointToSequence cap (tracks.getD h []) pVirtual)) h
        = some pVirtual ∧
      pVirtual.point = last.point ∧ pVirtual.led_state = false ∧ pVirtual.insert_time = now ∧
      pVirtual.predicted = last.predicted ∧ pVirtual.ellipse = last.ellipse ∧
      pVirtual.x_coeff = last.x_coeff ∧ pVirtual.y_coeff = last.y_coeff ∧
      pVirtual.extended_search = last.extended_search := by
  refine ⟨placeholderOf now last, ?_, ?_, rfl, rfl, rfl, rfl, rfl, rfl, rfl, rfl⟩
  · simp only [insertVPforSequencesWithNoInsert, hl, placeholderOf]
  · have hne : tracks.getD h [] ≠ [] := by
      intro h0
      rw [backOf_eq_getD, h0] at hl
      cases hl
    have hlt : h < tracks.length := by
      by_contra hge
      have : tracks.getD h [] = [] := by
        rw [List.getD_eq_getElem?_getD, List.getElem?_eq_none (by omega)]
        rfl
      exact hne this
    rw [backOf_eq_getD, getD_set_self _ _ _ _ hlt]
    exact insert_getLast? cap _ _ hne

/-! ## The motion predictor -/

/-- C16 (prediction fallback). When the regression returns only zero coefficients, or the
number of samples is at most the polynomial order used, `selectStatisticsValues` returns the
weighted mean as predicted coordinate, twice the larger of the weighted standard deviation and
the pixel threshold as ellipse half-extent, and the coefficient vector `[0]`. -/
theorem selectStatisticsValues_fallback (c : Consts) (values time : List ℚ) (insert_time : ℚ)
    (max_pix_shift : ℤ)
    (h : (∀ q ∈ (c.extended_search_.polyReg values time
            (c.extended_search_.calculateWeightVector time)).coeff, q = 0) ∨
         (values.length : ℤ) ≤ (c.extended_search_.polyReg values time
            (c.extended_search_.calculateWeightVector time)).used_poly_order) :
    (selectStatisticsValues c values time insert_time max_pix_shift).predicted_coordinate
      = c.extended_search_.calcWeightedMean values
          (c.extended_search_.calculateWeightVector time) ∧
    (selectStatisticsValues c values time insert_time max_pix_shift).ellipse_val
      = 2 * max (c.extended_search_.calcWSTD values
          (c.extended_search_.calculateWeightVector time)
          (c.extended_search_.calcWeightedMean values
            (c.extended_search_.calculateWeightVector time))) (max_pix_shift : ℚ) ∧
    (selectStatisticsValues c values time insert_time max_pix_shift).coeff = [0] := by
  have hcomp : (if decide ((values.length : ℤ) > (c.extended_search_.polyReg values time
        (c.extended_search_.calculateWeightVector time)).used_poly_order) = true
      then !(c.extended_search_.polyReg values time
        (c.extended_search_.calculateWeightVector time)).coeff.all (fun q => decide (q = 0))
      else false) = false := by
    rcases h with h | h
    · have hall : (c.extended_search_.polyReg values time
          (c.extended_search_.calculateWeightVector time)).coeff.all
            (fun q => decide (q = 0)) = true := by
        rw [List.all_eq_true]
        intro q hq
        simpa using h q hq
      simp [hall]
    · have hn : ¬ ((values.length : ℤ) > (c.extended_search_.polyReg values time
          (c.extended_search_.calculateWeightVector time)).used_poly_order) := not_lt.2 h
      simp [hn]
  have hused : ∀ b : Bool, (if b = true then c.extended_search_.polyReg values time
        (c.extended_search_.calculateWeightVector time)
      else { c.extended_search_.polyReg values time
        (c.extended_search_.calculateWeightVector time) with
        predicted_coordinate := List.foldl (fun acc i => acc +
          (c.extended_search_.polyReg values time
            (c.extended_search_.calculateWeightVector time)).coeff.getD i 0 * insert_time ^ i)
          (c.extended_search_.polyReg values time
            (c.extended_search_.calculateWeightVector time)).predicted_coordinate
          (List.range (c.extended_search_.polyReg values time
            (c.extended_search_.calculateWeightVector time)).coeff.length) }).used_poly_order
      = (c.extended_search_.polyReg values time
        (c.extended_search_.calculateWeightVector time)).used_poly_order := by
    intro b
    cases b <;> rfl
  unfold selectStatisticsValues
  simp only [hused, hcomp]
  refine ⟨rfl, ?_, rfl⟩
  simp only [Bool.false_eq_true, if_false]
  by_cases hs : c.extended_search_.calcWSTD values
      (c.extended_search_.calculateWeightVector time)
      (c.extended_search_.calcWeightedMean values
        (c.extended_search_.calculateWeightVector time)) < (max_pix_shift : ℚ)
  · rw [if_pos hs, max_eq_right (le_of_lt hs)]
    push_cast
    ring
  · rw [if_neg hs, max_eq_left (not_lt.1 hs)]
    ring

theorem observedSamples_x (seq : Track) :
    (seq.filter (fun p => p.led_state)).map (fun p => p.point.x)
      = (observedSamples seq).map (fun s => s.1) := by
  induction seq with
  | nil => rfl
  | cons p ps ih =>
    by_cases hp : p.led_state = true
    · simp only [observedSamples, List.filter_cons, hp, if_true, List.map_cons,
        List.filterMap_cons]
      exact congrArg _ ih
    · simp only [observedSamples, List.filter_cons, hp, if_false, List.filterMap_cons,
        Bool.false_eq_true]
      exact ih

theorem observedSamples_y (seq : Track) :
    (seq.filter (fun p => p.led_state)).map (fun p => p.point.y)
      = (observedSamples seq).map (fun s => s.2.1) := by
  induction seq with
  | nil => rfl
  | cons p ps ih =>
    by_cases hp : p.led_state = true
    · simp only [observedSamples, List.filter_cons, hp, if_true, List.map_cons,
        List.filterMap_cons]
      exact congrArg _ ih
    · simp only [observedSamples, List.filter_cons, hp, if_false, List.filterMap_cons,
        Bool.false_eq_true]
      exact ih

theorem observedSamples_time (seq : Track) :
    (seq.filter (fun p => p.led_state)).map (fun p => p.insert_time)
      = (observedSamples seq).map (fun s => s.2.2) := by
  induction seq with
  | nil => rfl
  | cons p ps ih =>
    by_cases hp : p.led_state = true
    · simp only [observedSamples, List.filter_cons, hp, if_true, List.map_cons,
        List.filterMap_cons]
      exact congrArg _ ih
    · simp only [observedSamples, List.filter_cons, hp, if_false, List.filterMap_cons,
        Bool.false_eq_true]
      exact ih

theorem withPrediction_eq_samples (c : Consts) (it : ℚ) (seq : Track) (last : PointState) :
    withPrediction c it seq last = predictedFromSamples c it (observedSamples seq) last := by
  unfold withPrediction predictedFromSamples
  simp only [observedSamples_x, observedSamples_y, observedSamples_time]

theorem observedSamples_sublist (seq : Track) :
    (observedSamples seq).Sublist
      (seq.map (fun p => (p.point.x, p.point.y, p.insert_time))) := by
  induction seq with
  | nil => exact List.Sublist.slnil
  | cons p ps ih =>
    by_cases hp : p.led_state = true
    · simp only [observedSamples, List.filterMap_cons, hp, if_true, List.map_cons]
      exact ih.cons₂ _
    · simp only [observedSamples, List.filterMap_cons, hp, if_false, List.map_cons,
        Bool.false_eq_true]
      exact ih.cons _

theorem observedSamples_length (seq : Track) :
    (observedSamples seq).length = seq.countP (fun p => p.led_state) := by
  induction seq with
  | nil => rfl
  | cons p ps ih =>
    by_cases hp : p.led_state = true
    · simp only [observedSamples, List.filterMap_cons, hp, if_true, List.length_cons,
        List.countP_cons_of_pos]
      exact congrArg _ ih
    · simp only [observedSamples, List.filterMap_cons, hp, if_false, Bool.false_eq_true]
      rw [List.countP_cons_of_neg _ _ hp]
      exact ih

theorem observedSamples_skip (pre post : Track) (p : PointState) (hp : p.led_state = false) :
    observedSamples (pre ++ p :: post) = observedSamples (pre ++ post) := by
  simp [observedSamples, List.filterMap_append, hp]

/-- C18 (samples of the predictor). The predictive members that `expandedSearch` writes for a
track are those the predictor returns for the observed samples of the track: x, y and time
stamp of the observations with `led_state = true`, in track order, each axis on its own with
the time stamps; a placeholder contributes no sample. One iteration of the search loop on a
track that passes the validity guard tests the detections against the observation predicted
from these samples. -/
theorem predictor_samples (c : Consts) (it : ℚ) (seq : Track) (last : PointState) :
    withPrediction c it seq last = predictedFromSamples c it (observedSamples seq) last ∧
    (observedSamples seq).Sublist
      (seq.map (fun p => (p.point.x, p.point.y, p.insert_time))) ∧
    (observedSamples seq).length = seq.countP (fun p => p.led_state) ∧
    (∀ (pre post : Track) (p : PointState), p.led_state = false →
      observedSamples (pre ++ p :: post) = observedSamples (pre ++ post)) ∧
    ∀ (bound : Option ℕ) (fuel k : ℕ) (a : Assoc) (h : ℕ) (last0 : PointState),
      a.pool[k]? = some h → a.tracks.getD h [] = seq →
      checkSequenceValidityWithNewInsert seq = true → seq.getLast? = some last0 →
      expandedLoop c bound it (fuel + 1) k a =
        match a.no_nn.findIdx? (fun q => c.extended_search_.checkIfInsideEllipse
            (predictedFromSamples c it (observedSamples seq) last0).point
            (predictedFromSamples c it (observedSamples seq) last0).ellipse q.point) with
        | none =>
          expandedLoop c bound it fuel (k + 1)
            { a with tracks := (a.tracks.set h (seq.dropLast ++
                [predictedFromSamples c it (observedSamples seq) last0])) }
        | some i =>
          match a.no_nn[i]?, bound with
          | some q, some cap =>
            expandedLoop c bound it fuel (k + 1)
              { tracks := (a.tracks.set h (insertPointToSequence cap
                  (seq.dropLast ++ [predictedFromSamples c it (observedSamples seq) last0])
                  (tagDetection (predictedFromSamples c it (observedSamples seq) last0) q))),
                pool := a.pool.eraseIdx k,
                no_nn := a.no_nn.eraseIdx i }
          | _, _ => none := by
  refine ⟨withPrediction_eq_samples c it seq last, observedSamples_sublist seq,
    observedSamples_length seq, observedSamples_skip, ?_⟩
  intro bound fuel k a h last0 hk hseq hg hl
  subst hseq
  rw [expandedLoop_step c bound it fuel k a h last0 hk hg hl, withPrediction_eq_samples]

/-! ## Appending with the length bound, as a queue -/

/-- C19 (FIFO buffer capping). For a track `seq` that holds an observation, as at every call
(lines 63, 141 and 199 read `end()[-1]` of the track first), `insertPointToSequence(seq, p)`
returns `seq` followed by `p` when that length does not exceed the bound, and otherwise that
list without its first (oldest) observation, which is `seq` without its first observation,
followed by `p`; the result is a suffix of `seq` followed by `p`, so the order of the retained
observations is unchanged; and `p` is the last observation of the result. -/
theorem insertPointToSequence_fifo (cap : ℕ) (seq : Track) (p : PointState)
    (hne : seq ≠ []) :
    (seq.length + 1 ≤ cap → insertPointToSequence cap seq p = seq ++ [p]) ∧
    (cap < seq.length + 1 → insertPointToSequence cap seq p = (seq ++ [p]).tail) ∧
    (cap < seq.length + 1 → insertPointToSequence cap seq p = seq.tail ++ [p]) ∧
    insertPointToSequence cap seq p <:+ seq ++ [p] ∧
    (insertPointToSequence cap seq p).getLast? = some p := by
  have hlen : (seq ++ [p]).length = seq.length + 1 := by simp
  refine ⟨?_, ?_, ?_, ?_, insert_getLast? cap seq p hne⟩
  · intro h
    unfold insertPointToSequence
    simp only [hlen]
    rw [if_neg (by omega)]
  · intro h
    unfold insertPointToSequence
    simp only [hlen]
    rw [if_pos (by omega)]
  · intro h
    unfold insertPointToSequence
    simp only [hlen]
    rw [if_pos (by omega)]
    cases seq with
    | nil => exact absurd rfl hne
    | cons x xs => rfl
  · unfold insertPointToSequence
    simp only []
    split
    · exact List.tail_suffix _
    · exact List.suffix_refl _

/-! ## Configuration -/

/-- C20, as the code has it. `setSequences` does not validate its argument: called with the
empty list it installs the empty code set and builds the matcher from it, leaving the frame
rate and the tracks as they are. With the empty code set installed the bound of
`insertPointToSequence` is undefined; `getResults` returns the empty list while the tracker
holds no track, and is undefined as soon as it holds one. -/
theorem setSequences_installs_empty (c : Consts) (mk : List (List Bool) → List Bool → ℤ)
    (s : alternativeHT) :
    (setSequences mk s []).original_sequences_ = [] ∧
    (setSequences mk s []).matcher_ = some (mk []) ∧
    (setSequences mk s []).framerate_ = s.framerate_ ∧
    (setSequences mk s []).gen_sequences_ = s.gen_sequences_ ∧
    bufferCap c (setSequences mk s []).original_sequences_ = none ∧
    (s.gen_sequences_ = [] → getResults (setSequences mk s []) = some []) ∧
    (s.gen_sequences_ ≠ [] → getResults (setSequences mk s []) = none) := by
  refine ⟨rfl, rfl, rfl, rfl, rfl, ?_, ?_⟩
  · intro h
    simp only [getResults, setSequences, h, getResultsLoop]
  · intro h
    cases hg : s.gen_sequences_ with
    | nil => exact absurd hg h
    | cons t ts => simp only [getResults, setSequences, hg, getResultsLoop]

/-! ## The centre of the ellipse -/

/-- C15, as the code has it. For a track that passes the validity guard the search loop tests
each remaining detection against the ellipse with the computed half-extents (the `ellipse_val`
of the predictor, per axis, on the observed samples) centred on the position of the last
observation of the track; the predicted coordinate is written to the observation but does not
enter the test. The first detection that passes this test is accepted. -/
theorem expanded_gate_on_last_position (c : Consts) (bound : Option ℕ) (it : ℚ) (fuel k : ℕ)
    (a : Assoc) (h : ℕ) (last0 : PointState) (hk : a.pool[k]? = some h)
    (hg : checkSequenceValidityWithNewInsert (a.tracks.getD h []) = true)
    (hl : (a.tracks.getD h []).getLast? = some last0) :
    (∀ q : PointState, ellipseTest c it (a.tracks.getD h []) last0 q
      = c.extended_search_.checkIfInsideEllipse last0.point
          { x := (selectStatisticsValues c
              ((observedSamples (a.tracks.getD h [])).map (fun s => s.1))
              ((observedSamples (a.tracks.getD h [])).map (fun s => s.2.2))
              it c.max_pixel_shift_x_).ellipse_val,
            y := (selectStatisticsValues c
              ((observedSamples (a.tracks.getD h [])).map (fun s => s.2.1))
              ((observedSamples (a.tracks.getD h [])).map (fun s => s.2.2))
              it c.max_pixel_shift_y_).ellipse_val }
          q.point) ∧
    expandedLoop c bound it (fuel + 1) k a =
      match a.no_nn.findIdx? (ellipseTest c it (a.tracks.getD h []) last0) with
      | none =>
        expandedLoop c bound it fuel (k + 1)
          { a with tracks := (a.tracks.set h ((a.tracks.getD h []).dropLast ++
              [withPrediction c it (a.tracks.getD h []) last0])) }
      | some i =>
        match a.no_nn[i]?, bound with
        | some q, some cap =>
          expandedLoop c bound it fuel (k + 1)
            { tracks := (a.tracks.set h (insertPointToSequence cap
                ((a.tracks.getD h []).dropLast ++
                  [withPrediction c it (a.tracks.getD h []) last0])
                (tagDetection (withPrediction c it (a.tracks.getD h []) last0) q))),
              pool := a.pool.eraseIdx k,
              no_nn := a.no_nn.eraseIdx i }
        | _, _ => none := by
  constructor
  · intro q
    unfold ellipseTest
    rw [withPrediction_eq_samples]
    rfl
  · exact expandedLoop_step c bound it fuel k a h last0 hk hg hl

/-! ## The results query as a read -/

/-- C21 (the results query is total and read-only). For a tracker configured by `setSequences`
with a non-empty code set, whatever its tracks, `getResults` is defined; it returns one pair per
track, in track-set order; the first component of the pair is the track as it stands in the
track set, observation by observation, and the second is `-2` or the value of the matcher on
the suffix window. The method assigns to no member of the tracker, so the query has no
resulting state other than the state it was called on. -/
theorem getResults_total (mk : List (List Bool) → List Bool → ℤ) (s : alternativeHT)
    (code0 : List Bool) (rest : List (List Bool)) :
    ∃ results, getResults (setSequences mk s (code0 :: rest)) = some results ∧
      results.length = s.gen_sequences_.length ∧
      results.map Prod.fst = s.gen_sequences_ ∧
      ∀ (i : ℕ) (track : Track), s.gen_sequences_[i]? = some track →
        ∃ id, results[i]? = some (track, id) ∧
          (id = -2 ∨ id = mk (code0 :: rest) (suffixWindow code0.length track)) := by
  refine ⟨(s.gen_sequences_.map (fun track =>
      (track, if [false, false, false] <:+: suffixWindow code0.length track then -2
        else mk (code0 :: rest) (suffixWindow code0.length track)))), ?_, ?_, ?_, ?_⟩
  · exact getResultsLoop_eq code0 rest (mk (code0 :: rest)) s.gen_sequences_
  · simp
  · rw [List.map_map]
    exact List.map_id _
  · intro i track hi
    by_cases hw : [false, false, false] <:+: suffixWindow code0.length track
    · exact ⟨-2, by simp [List.getElem?_map, hi, hw], Or.inl rfl⟩
    · exact ⟨_, by simp [List.getElem?_map, hi, hw], Or.inr rfl⟩

/-! ## Tracks that survive the pruning -/

theorem keepTrack_fresh (framerate_ now : ℚ) (t : Track) (last : PointState)
    (hf : framerate_ ≠ 0) (hl : t.getLast? = some last) (h3 : ¬ EndsInThreeOff t)
    (hfresh : |last.insert_time - now| ≤ 4 / framerate_) :
    keepTrack framerate_ now t = true := by
  have htol : timingTolerance framerate_ = 4 / framerate_ := by
    unfold timingTolerance
    rw [if_pos hf]
    ring
  unfold keepTrack
  rw [hl]
  simp only []
  rw [if_neg (fun hc => h3 ((threeOff_test_iff t).1 hc)), htol, if_neg (not_lt.2 hfresh)]

/-- C23 (observations are immutable once appended). One call of `findClosestPixelAndInsert` on
non-empty tracks is defined and turns every pre-existing track `t0` into `old ++ [obs]`, less
the front observation when the bound is exceeded, where `obs` is the observation appended in
this call and `old` is `t0` itself or, only when `t0` passes the validity guard, `t0` with its
last observation replaced by `withPrediction` of it; `withPrediction` keeps position,
`led_state` and time stamp, so `old` and `t0` agree on these for every observation. -/
theorem observations_immutable (c : Consts) (osq : List (List Bool)) (cap : ℕ) (now : ℚ)
    (tracks0 : List Track) (frame : List PointState) (hcap : bufferCap c osq = some cap)
    (hne : ∀ t ∈ tracks0, t ≠ []) :
    ∃ (tracks1 : List Track) (it : ℚ),
      findClosestPixelAndInsert c osq now tracks0 frame = some tracks1 ∧
      (∀ (t : Track) (p : PointState), (withPrediction c it t p).point = p.point ∧
        (withPrediction c it t p).led_state = p.led_state ∧
        (withPrediction c it t p).insert_time = p.insert_time) ∧
      ∀ (i : ℕ) (t0 : Track), tracks0[i]? = some t0 →
        ∃ (old : Track) (obs : PointState) (n : ℕ), n ≤ 1 ∧
          tracks1[i]? = some ((old ++ [obs]).drop n) ∧
          old.map core = t0.map core ∧
          (old = t0 ∨ (checkSequenceValidityWithNewInsert t0 = true ∧
            ∃ last, t0.getLast? = some last ∧
              old = t0.dropLast ++ [withPrediction c it t0 last])) := by
  obtain ⟨tracks1, it, m, un, h1, h2, -, -, -, -, h7, h8⟩ :=
    assoc_summary c osq cap now tracks0 frame hcap hne
  have hins : ∀ (old : Track) (obs : PointState), ∃ n, n ≤ 1 ∧
      insertPointToSequence cap old obs = (old ++ [obs]).drop n := by
    intro old obs
    unfold insertPointToSequence
    simp only []
    split
    · exact ⟨1, le_refl _, by simp⟩
    · exact ⟨0, Nat.zero_le _, by simp⟩
  refine ⟨tracks1, it, h1, fun t p => ⟨rfl, rfl, rfl⟩, ?_⟩
  intro i t0 hi
  have hlt : i < tracks0.length := (List.getElem?_eq_some_iff.1 hi).1
  have hlt1 : i < tracks1.length := by omega
  have ht0 : tracks0.getD i [] = t0 := getD_of_getElem? hi
  by_cases hm : i ∈ m.map Prod.fst
  · obtain ⟨x, hx, rfl⟩ := List.mem_map.1 hm
    obtain ⟨-, old, obs, e1, -, e3⟩ := h7 x hx
    rw [ht0] at e1
    obtain ⟨n, hn, hn1⟩ := hins old obs
    refine ⟨old, obs, n, hn, ?_, e1.sameCore, e1⟩
    rw [getElem?_eq_some_getD tracks1 x.1 [] hlt1, e3, hn1]
  · obtain ⟨old, last, e1, -, e3⟩ := h8 i hlt hm
    rw [ht0] at e1
    obtain ⟨n, hn, hn1⟩ := hins old (placeholderOf now last)
    refine ⟨old, placeholderOf now last, n, hn, ?_, e1.sameCore, e1⟩
    rw [getElem?_eq_some_getD tracks1 i [] hlt1, e3, hn1]

/-! ## The round-trip scenario -/

theorem insert_of_le (cap : ℕ) (t : Track) (p : PointState) (h : t.length < cap) :
    insertPointToSequence cap t p = t ++ [p] := by
  unfold insertPointToSequence
  simp only [List.length_append, List.length_singleton]
  rw [if_neg (by omega)]

/-- The state after the four frames of the round-trip scenario. -/
theorem roundTrip_state (c : Consts) (mk : List (List Bool) → List Bool → ℤ)
    (s0 : alternativeHT) (h0 : s0.gen_sequences_ = []) (hx : 0 ≤ c.max_pixel_shift_x_)
    (hy : 0 ≤ c.max_pixel_shift_y_) (hsz : 1 ≤ c.size_for_saved_seqs_) :
    feed c (updateFramerate (setSequences mk s0 exCodes) 10) roundTripMsgs =
      some { original_sequences_ := exCodes, matcher_ := some (mk exCodes), framerate_ := 10,
             gen_sequences_ := [markerTrack c 10 10 [true, false, true, false]] } := by
  have hx1 : (0:ℚ) ≤ (c.max_pixel_shift_x_ : ℚ) := by exact_mod_cast hx
  have hy1 : (0:ℚ) ≤ (c.max_pixel_shift_y_ : ℚ) := by exact_mod_cast hy
  have hc1 : ∀ (t : Track) (p : PointState), t.length < 4 →
      insertPointToSequence (4 * c.size_for_saved_seqs_) t p = t ++ [p] :=
    fun t p h => insert_of_le _ t p (by omega)
  norm_num [feed, roundTripMsgs, processBuffer, frameOf, truncToInt, cleanPotentialBuffer,
    keepTrack, timingTolerance, ledFromEnd, updateFramerate, h0, hx1, hy1, hc1, exCodes,
    findClosestPixelAndInsert, setSequences, bufferCap, fastPass, fastStep,
    scanPool, backOf, withinShift, computeXYDiff, expandedSearch, expandedMatch, expandedLoop,
    insertVPs, insertVPforSequencesWithNoInsert, markerTrack, obsAt, List.enum, List.enumFrom]

/-- C24 (round-trip scenario). The tracker is configured with the codes `[1,0,1,0]` and
`[1,1,0,0]` and the frame rate 10, and starts with no track; the pixel thresholds are not
negative and the growth factor is at least 1. After the four frames of the scenario (a
detection at `(10, 10)` in the first and third frame, none in the second and fourth, the clock
0.1 s further at each frame) the track set holds exactly one track, of four observations at
`(10, 10)`, whose `led_state` values are `[1,0,1,0]`, and `getResults` reports for it the value
of the matcher on `[1,0,1,0]`. -/
theorem round_trip_scenario (c : Consts) (mk : List (List Bool) → List Bool → ℤ)
    (s0 : alternativeHT) (h0 : s0.gen_sequences_ = []) (hx : 0 ≤ c.max_pixel_shift_x_)
    (hy : 0 ≤ c.max_pixel_shift_y_) (hsz : 1 ≤ c.size_for_saved_seqs_) :
    ∃ (s4 : alternativeHT) (track : Track),
      feed c (updateFramerate (setSequences mk s0 exCodes) 10) roundTripMsgs = some s4 ∧
      s4.gen_sequences_ = [track] ∧
      track.map (fun p => p.led_state) = [true, false, true, false] ∧
      (∀ p ∈ track, p.point = { x := 10, y := 10 }) ∧
      suffixWindow 4 track = [true, false, true, false] ∧
      getResults s4 = some [(track, mk exCodes [true, false, true, false])] := by
  have hw : suffixWindow 4 (markerTrack c 10 10 [true, false, true, false])
      = [true, false, true, false] := by
    simp [suffixWindow, markerTrack, obsAt, List.enum, List.enumFrom]
  refine ⟨_, _, roundTrip_state c mk s0 h0 hx hy hsz, rfl, ?_, ?_, hw, ?_⟩
  · simp [markerTrack, obsAt, List.enum, List.enumFrom]
  · simp [markerTrack, obsAt, List.enum, List.enumFrom]
  · have hloop := getResultsLoop_eq [true, false, true, false] [[true, true, false, false]]
      (mk exCodes) [markerTrack c 10 10 [true, false, true, false]]
    simp only [List.length_cons, List.length_nil] at hloop
    simp only [List.map_cons, List.map_nil, hw] at hloop
    rw [if_neg (by decide)] at hloop
    exact hloop

/-! ## The split-tracks scenario -/

/-- One call of `findClosestPixelAndInsert` in the split-tracks scenario: each of the two tracks
takes the detection of its own marker, or the placeholder. -/
theorem split_step (c : Consts) (osq : List (List Bool)) (cap k : ℕ) (preA preB : Track)
    (la lb a b : Bool) (ta tb : ℚ) (hcap : bufferCap c osq = some cap)
    (hx : 0 ≤ c.max_pixel_shift_x_) (hy : 0 ≤ c.max_pixel_shift_y_)
    (hfar : c.max_pixel_shift_x_ < 50)
    (hA : preA.length + 1 < cap) (hB : preB.length + 1 < cap) :
    findClosestPixelAndInsert c osq ((k : ℚ) / 10)
        [preA ++ [obsAt c 10 10 la ta], preB ++ [obsAt c 60 10 lb tb]]
        (frameOf c (splitMsg k a b))
      = some [preA ++ [obsAt c 10 10 la ta, obsAt c 10 10 a ((k : ℚ) / 10)],
          preB ++ [obsAt c 60 10 lb tb, obsAt c 60 10 b ((k : ℚ) / 10)]] := by
  have hx1 : (0:ℚ) ≤ (c.max_pixel_shift_x_ : ℚ) := by exact_mod_cast hx
  have hy1 : (0:ℚ) ≤ (c.max_pixel_shift_y_ : ℚ) := by exact_mod_cast hy
  have hfar1 : ¬ ((50:ℚ) ≤ (c.max_pixel_shift_x_ : ℚ)) := by
    rw [not_le]
    exact_mod_cast hfar
  have hiA : ∀ p, insertPointToSequence cap (preA ++ [obsAt c 10 10 la ta]) p
      = preA ++ [obsAt c 10 10 la ta, p] := by
    intro p
    rw [insert_of_le _ _ _ (by simpa using hA)]
    simp
  have hiB : ∀ p, insertPointToSequence cap (preB ++ [obsAt c 60 10 lb tb]) p
      = preB ++ [obsAt c 60 10 lb tb, p] := by
    intro p
    rw [insert_of_le _ _ _ (by simpa using hB)]
    simp
  simp only [obsAt] at hiA hiB
  cases a <;> cases b <;>
    norm_num [splitMsg, obsAt, frameOf, truncToInt, hcap, hx1, hy1, hfar1, hiA, hiB,
      findClosestPixelAndInsert, fastPass, fastStep, List.range, List.range.loop,
      scanPool, backOf, withinShift, computeXYDiff, expandedSearch, expandedMatch, expandedLoop,
      insertVPs, insertVPforSequencesWithNoInsert]

/-- One frame of the split-tracks scenario, pruning included. -/
theorem split_frame (c : Consts) (m : Option (List Bool → ℤ)) (k : ℕ) (preA preB : Track)
    (la lb a b : Bool) (ta tb : ℚ)
    (hx : 0 ≤ c.max_pixel_shift_x_) (hy : 0 ≤ c.max_pixel_shift_y_)
    (hfar : c.max_pixel_shift_x_ < 50) (hsz : 1 ≤ c.size_for_saved_seqs_)
    (hA : preA.length < 3) (hB : preB.length < 3)
    (hkA : ¬ EndsInThreeOff (preA ++ [obsAt c 10 10 la ta, obsAt c 10 10 a ((k : ℚ) / 10)]))
    (hkB : ¬ EndsInThreeOff (preB ++ [obsAt c 60 10 lb tb, obsAt c 60 10 b ((k : ℚ) / 10)])) :
    processBuffer c (splitMsg k a b).stamp (splitMsg k a b).stamp
        { original_sequences_ := exCodes, matcher_ := m, framerate_ := 10,
          gen_sequences_ := [preA ++ [obsAt c 10 10 la ta], preB ++ [obsAt c 60 10 lb tb]] }
        (splitMsg k a b)
      = some
          { original_sequences_ := exCodes, matcher_ := m, framerate_ := 10,
            gen_sequences_ := [preA ++ [obsAt c 10 10 la ta, obsAt c 10 10 a ((k : ℚ) / 10)],
              preB ++ [obsAt c 60 10 lb tb, obsAt c 60 10 b ((k : ℚ) / 10)]] } := by
  have hcap : bufferCap c exCodes = some (4 * c.size_for_saved_seqs_) := rfl
  have hstep := split_step c exCodes _ k preA preB la lb a b ta tb hcap hx hy hfar
    (by omega) (by omega)
  have hstamp : (splitMsg k a b).stamp = (k : ℚ) / 10 := rfl
  have hk1 : keepTrack 10 ((k : ℚ) / 10)
      (preA ++ [obsAt c 10 10 la ta, obsAt c 10 10 a ((k : ℚ) / 10)]) = true :=
    keepTrack_fresh 10 _ _ (obsAt c 10 10 a ((k : ℚ) / 10)) (by norm_num)
      (by
        have e : preA ++ [obsAt c 10 10 la ta, obsAt c 10 10 a ((k : ℚ) / 10)]
            = (preA ++ [obsAt c 10 10 la ta]) ++ [obsAt c 10 10 a ((k : ℚ) / 10)] := by simp
        rw [e, List.getLast?_concat]) hkA (by norm_num [obsAt])
  have hk2 : keepTrack 10 ((k : ℚ) / 10)
      (preB ++ [obsAt c 60 10 lb tb, obsAt c 60 10 b ((k : ℚ) / 10)]) = true :=
    keepTrack_fresh 10 _ _ (obsAt c 60 10 b ((k : ℚ) / 10)) (by norm_num)
      (by
        have e : preB ++ [obsAt c 60 10 lb tb, obsAt c 60 10 b ((k : ℚ) / 10)]
            = (preB ++ [obsAt c 60 10 lb tb]) ++ [obsAt c 60 10 b ((k : ℚ) / 10)] := by simp
        rw [e, List.getLast?_concat]) hkB (by norm_num [obsAt])
  simp only [processBuffer, hstamp, hstep, cleanPotentialBuffer, List.filter_cons, hk1, hk2,
    if_true, List.filter_nil]

theorem not_threeOff_of_on (pre post : Track) (p : PointState) (hp : p.led_state = true)
    (hlen : post.length < 3) : ¬ EndsInThreeOff (pre ++ p :: post) := by
  rintro ⟨l, x, y, z, he, hx, hy, hz⟩
  have hl := congrArg List.length he
  simp only [List.length_append, List.length_cons, List.length_nil] at hl
  have hmap := congrArg (List.map (fun q : PointState => q.led_state)) he
  have hget := congrArg (fun l : List Bool => l[pre.length]?) hmap
  simp only [List.map_append, List.map_cons, List.map_nil] at hget
  rw [List.getElem?_append_right (by simp), List.getElem?_append_right (by simp; omega)] at hget
  simp only [List.length_map, Nat.sub_self, List.getElem?_cons_zero, hp, hx, hy, hz] at hget
  have h3 : pre.length - l.length < 3 := by omega
  obtain ⟨n, hn⟩ : ∃ n, pre.length - l.length = n := ⟨_, rfl⟩
  rw [hn] at hget h3
  interval_cases n <;> simp at hget

theorem threeOff_four (p0 p1 p2 p3 : PointState) (h : EndsInThreeOff [p0, p1, p2, p3]) :
    p1.led_state = false ∧ p2.led_state = false ∧ p3.led_state = false := by
  obtain ⟨-, h1, h2, h3⟩ := (threeOff_test_iff _).2 h
  simp [ledFromEnd] at h1 h2 h3
  exact ⟨h3, h2, h1⟩

/-- The state after the four frames of the split-tracks scenario. -/
theorem splitTracks_state (c : Consts) (mk : List (List Bool) → List Bool → ℤ)
    (s0 : alternativeHT) (h0 : s0.gen_sequences_ = []) (hx : 0 ≤ c.max_pixel_shift_x_)
    (hy : 0 ≤ c.max_pixel_shift_y_) (hfar : c.max_pixel_shift_x_ < 50)
    (hsz : 1 ≤ c.size_for_saved_seqs_) (a2 a3 a4 b2 b3 b4 : Bool)
    (ha : ¬ (a2 = false ∧ a3 = false ∧ a4 = false))
    (hb : ¬ (b2 = false ∧ b3 = false ∧ b4 = false)) :
    feed c (updateFramerate (setSequences mk s0 exCodes) 10)
        (splitMsgs [true, a2, a3, a4] [true, b2, b3, b4]) =
      some { original_sequences_ := exCodes, matcher_ := some (mk exCodes), framerate_ := 10,
             gen_sequences_ := [markerTrack c 10 10 [true, a2, a3, a4],
               markerTrack c 60 10 [true, b2, b3, b4]] } := by
  have hx1 : (0:ℚ) ≤ (c.max_pixel_shift_x_ : ℚ) := by exact_mod_cast hx
  have hy1 : (0:ℚ) ≤ (c.max_pixel_shift_y_ : ℚ) := by exact_mod_cast hy
  have hfar1 : ¬ ((50:ℚ) ≤ (c.max_pixel_shift_x_ : ℚ)) := by
    rw [not_le]
    exact_mod_cast hfar
  have hstart : updateFramerate (setSequences mk s0 exCodes) 10
      = { original_sequences_ := exCodes, matcher_ := some (mk exCodes), framerate_ := 10,
          gen_sequences_ := [] } := by
    norm_num [updateFramerate, setSequences, h0]
  have hm : splitMsgs [true, a2, a3, a4] [true, b2, b3, b4]
      = [splitMsg 0 true true, splitMsg 1 a2 b2, splitMsg 2 a3 b3, splitMsg 3 a4 b4] := rfl
  have e0 : processBuffer c (splitMsg 0 true true).stamp (splitMsg 0 true true).stamp
      { original_sequences_ := exCodes, matcher_ := some (mk exCodes), framerate_ := 10,
        gen_sequences_ := [] } (splitMsg 0 true true)
      = some
          { original_sequences_ := exCodes, matcher_ := some (mk exCodes), framerate_ := 10,
            gen_sequences_ := [[] ++ [obsAt c 10 10 true ((0 : ℕ) / 10)],
              [] ++ [obsAt c 60 10 true ((0 : ℕ) / 10)]] } := by
    norm_num [splitMsg, processBuffer, frameOf, truncToInt, cleanPotentialBuffer, keepTrack,
      timingTolerance, ledFromEnd, hx1, hy1, hfar1, exCodes, obsAt,
      findClosestPixelAndInsert, bufferCap, fastPass, fastStep,
      scanPool, backOf, withinShift, computeXYDiff, expandedSearch, expandedMatch, expandedLoop,
      insertVPs, insertVPforSequencesWithNoInsert]
  have e1 := split_frame c (some (mk exCodes)) 1 [] [] true true a2 b2 ((0 : ℕ) / 10)
    ((0 : ℕ) / 10) hx hy hfar hsz (by simp) (by simp)
    (not_threeOff_of_on [] _ _ rfl (by simp)) (not_threeOff_of_on [] _ _ rfl (by simp))
  have e2 := split_frame c (some (mk exCodes)) 2 [obsAt c 10 10 true ((0 : ℕ) / 10)]
    [obsAt c 60 10 true ((0 : ℕ) / 10)] a2 b2 a3 b3 ((1 : ℕ) / 10) ((1 : ℕ) / 10) hx hy hfar hsz
    (by simp) (by simp)
    (not_threeOff_of_on [] _ _ rfl (by simp)) (not_threeOff_of_on [] _ _ rfl (by simp))
  have e3 := split_frame c (some (mk exCodes)) 3
    [obsAt c 10 10 true ((0 : ℕ) / 10), obsAt c 10 10 a2 ((1 : ℕ) / 10)]
    [obsAt c 60 10 true ((0 : ℕ) / 10), obsAt c 60 10 b2 ((1 : ℕ) / 10)] a3 b3 a4 b4
    ((2 : ℕ) / 10) ((2 : ℕ) / 10) hx hy hfar hsz (by simp) (by simp) ?_ ?_
  · rw [hstart, hm]
    simp only [List.nil_append, List.cons_append] at e0 e1 e2 e3
    simp only [feed, e0, e1, e2, e3]
    rfl
  · intro h
    simp only [List.nil_append, List.cons_append] at h
    exact ha (by simpa [obsAt] using threeOff_four _ _ _ _ h)
  · intro h
    simp only [List.nil_append, List.cons_append] at h
    exact hb (by simpa [obsAt] using threeOff_four _ _ _ _ h)

/-- C25, as the code has it. The tracker is configured as in the round-trip scenario; the
pixel thresholds are not negative, the x threshold is below the 50 px between the markers, and
the growth factor is at least 1. When the marker at `(10, 10)` follows the pattern `1 a2 a3 a4`
and the marker at `(60, 10)` the pattern `1 b2 b3 b4`, neither pattern being `1 0 0 0`, the
track set after the four frames holds exactly two tracks; each holds four observations, all at
the position of its own marker, with the pattern of that marker as `led_state` values. -/
theorem split_tracks_scenario (c : Consts) (mk : List (List Bool) → List Bool → ℤ)
    (s0 : alternativeHT) (h0 : s0.gen_sequences_ = []) (hx : 0 ≤ c.max_pixel_shift_x_)
    (hy : 0 ≤ c.max_pixel_shift_y_) (hfar : c.max_pixel_shift_x_ < 50)
    (hsz : 1 ≤ c.size_for_saved_seqs_) (a2 a3 a4 b2 b3 b4 : Bool)
    (ha : ¬ (a2 = false ∧ a3 = false ∧ a4 = false))
    (hb : ¬ (b2 = false ∧ b3 = false ∧ b4 = false)) :
    ∃ (s4 : alternativeHT) (trackA trackB : Track),
      feed c (updateFramerate (setSequences mk s0 exCodes) 10)
        (splitMsgs [true, a2, a3, a4] [true, b2, b3, b4]) = some s4 ∧
      s4.gen_sequences_ = [trackA, trackB] ∧
      trackA.map (fun p => p.led_state) = [true, a2, a3, a4] ∧
      trackB.map (fun p => p.led_state) = [true, b2, b3, b4] ∧
      (∀ p ∈ trackA, p.point = { x := 10, y := 10 }) ∧
      (∀ p ∈ trackB, p.point = { x := 60, y := 10 }) := by
  refine ⟨_, _, _, splitTracks_state c mk s0 h0 hx hy hfar hsz a2 a3 a4 b2 b3 b4 ha hb, rfl,
    ?_, ?_, ?_, ?_⟩ <;> simp [markerTrack, obsAt, List.enum, List.enumFrom]

/-! ## The prediction-gate scenario -/

/-- C26, as the code has it. For a track set holding the one non-empty track `t` and a frame
whose only detection `d` is outside the fast-pass gate of `t`: when `t` passes the validity
guard and `d` passes the ellipse test of `t`, `d` is appended to `t` by the expanded search and
no new track is started; when `t` fails the validity guard, as every track that ends in two
real detections does, the expanded search skips `t`, which receives the placeholder, and `d`
starts a new track. -/
theorem prediction_gate_scenario (c : Consts) (osq : List (List Bool)) (cap : ℕ) (now : ℚ)
    (t : Track) (last d : PointState) (hcap : bufferCap c osq = some cap)
    (hl : t.getLast? = some last) (hgate : specGate c d t = false) :
    (checkSequenceValidityWithNewInsert t = true →
      ellipseTest c (d.insert_time + c.prediction_margin_) t last d = true →
      findClosestPixelAndInsert c osq now [t] [d]
        = some [insertPointToSequence cap
            (t.dropLast ++ [withPrediction c (d.insert_time + c.prediction_margin_) t last])
            (tagDetection (withPrediction c (d.insert_time + c.prediction_margin_) t last) d)]) ∧
    (checkSequenceValidityWithNewInsert t = false →
      findClosestPixelAndInsert c osq now [t] [d]
        = some [insertPointToSequence cap t (placeholderOf now last), [d]]) ∧
    (EndsInTwoOn t → checkSequenceValidityWithNewInsert t = false) := by
  have hb : backOf [t] 0 = some last := by simp [backOf, hl]
  have hw : withinShift c d last = false := by
    simp only [specGate, hl] at hgate
    simpa [withinShift, computeXYDiff] using hgate
  have hfast : fastPass c (some cap) { tracks := [t], pool := List.range [t].length, no_nn := [] }
      [d] = some { tracks := [t], pool := [0], no_nn := [d] } := by
    simp [fastPass, fastStep, scanPool, hb, hw, List.range, List.range.loop]
  refine ⟨fun hg he => ?_, fun hg => ?_, fun h2 => (check_false_iff t).2 (Or.inl h2)⟩
  · have hloop : expandedLoop c (some cap) (d.insert_time + c.prediction_margin_) [0].length 0
        { tracks := [t], pool := [0], no_nn := [d] }
        = some { tracks := ([insertPointToSequence cap
            (t.dropLast ++ [withPrediction c (d.insert_time + c.prediction_margin_) t last])
            (tagDetection (withPrediction c (d.insert_time + c.prediction_margin_) t last) d)]),
                 pool := [], no_nn := [] } := by
      show expandedLoop c (some cap) _ (0 + 1) 0 _ = _
      rw [expandedLoop_step c (some cap) (d.insert_time + c.prediction_margin_) 0 0
        { tracks := [t], pool := [0], no_nn := [d] } 0 last rfl hg hl]
      unfold ellipseTest at he
      simp [List.findIdx?_cons, he, expandedLoop]
    simp only [findClosestPixelAndInsert, hcap, hfast, expandedSearch, expandedMatch, hloop,
      insertVPs, List.map_nil, List.append_nil]
  · have hloop : expandedLoop c (some cap) (d.insert_time + c.prediction_margin_) [0].length 0
        { tracks := [t], pool := [0], no_nn := [d] }
        = some { tracks := [t], pool := [0], no_nn := [d] } := by
      show expandedLoop c (some cap) _ (0 + 1) 0 _ = _
      rw [expandedLoop]
      simp [hg, expandedLoop]
    simp only [findClosestPixelAndInsert, hcap, hfast, expandedSearch, expandedMatch, hloop,
      insertVPs, insertVPforSequencesWithNoInsert, hb]
    simp [placeholderOf]

/-! ## Order of the detections in the expanded search -/

theorem findIdx?_of_first {α : Type} (p : α → Bool) (l : List α) (i : ℕ) (q : α)
    (hq : l[i]? = some q) (hpass : p q = true)
    (hfirst : ∀ j x, j < i → l[j]? = some x → p x = false) :
    l.findIdx? p = some i := by
  obtain ⟨hi, hq1⟩ := List.getElem?_eq_some_iff.1 hq
  refine List.findIdx?_eq_some_iff_getElem.2 ⟨hi, by rw [hq1]; exact hpass, fun j hj => ?_⟩
  rw [hfirst j _ hj (List.getElem?_eq_getElem (Nat.lt_trans hj hi))]
  exact Bool.false_ne_true

theorem first_of_findIdx? {α : Type} (p : α → Bool) (l : List α) (i : ℕ)
    (hf : l.findIdx? p = some i) :
    ∀ j x, j < i → l[j]? = some x → p x = false := by
  intro j x hj hx
  obtain ⟨hi, -, hlt⟩ := List.findIdx?_eq_some_iff_getElem.1 hf
  obtain ⟨hj1, hx1⟩ := List.getElem?_eq_some_iff.1 hx
  have := hlt j hj
  rw [hx1] at this
  simpa using this

/-- C28 (first fit in the expanded search). When the search loop evaluates, at index `k`, a
track that passes the validity guard, and `q` at index `i` of the still-unmatched detections
passes the ellipse test of the track while every detection before index `i` fails it, then `q`
is the detection appended to the track, whatever the detections after index `i` are: the loop
goes on at index `k + 1` with the track erased from the handle vector and `q` erased from the
unmatched detections, and to the end of the loop the track stays out of the handle vector, no
erased detection comes back, and the track keeps `q` as its appended observation. -/
theorem expanded_first_fit (c : Consts) (cap : ℕ) (it : ℚ) (fuel k : ℕ) (a : Assoc)
    (h : ℕ) (last0 : PointState) (i : ℕ) (q : PointState) (hwf : a.WF)
    (hk : a.pool[k]? = some h)
    (hg : checkSequenceValidityWithNewInsert (a.tracks.getD h []) = true)
    (hl : (a.tracks.getD h []).getLast? = some last0)
    (hq : a.no_nn[i]? = some q)
    (hpass : ellipseTest c it (a.tracks.getD h []) last0 q = true)
    (hfirst : ∀ j x, j < i → a.no_nn[j]? = some x →
      ellipseTest c it (a.tracks.getD h []) last0 x = false) :
    expandedLoop c (some cap) it (fuel + 1) k a
      = expandedLoop c (some cap) it fuel (k + 1)
          { tracks := (a.tracks.set h (insertPointToSequence cap
              ((a.tracks.getD h []).dropLast ++ [withPrediction c it (a.tracks.getD h []) last0])
              (tagDetection (withPrediction c it (a.tracks.getD h []) last0) q))),
            pool := a.pool.eraseIdx k,
            no_nn := a.no_nn.eraseIdx i } ∧
    ∃ a1, expandedLoop c (some cap) it (fuel + 1) k a = some a1 ∧
      h ∉ a1.pool ∧ a1.pool.Sublist (a.pool.eraseIdx k) ∧
      a1.no_nn.Sublist (a.no_nn.eraseIdx i) ∧
      a1.tracks.getD h [] = insertPointToSequence cap
        ((a.tracks.getD h []).dropLast ++ [withPrediction c it (a.tracks.getD h []) last0])
        (tagDetection (withPrediction c it (a.tracks.getD h []) last0) q) := by
  have hf := findIdx?_of_first _ a.no_nn i q hq hpass hfirst
  have hmem : h ∈ a.pool := mem_of_getElem? hk
  obtain ⟨hlt, -⟩ := hwf.2 h hmem
  have hs : ExpStep c cap it a _ := ExpStep.hit a k h last0 i q hk hg hl hf hq
  have hwf1 := hs.step_wf hwf
  obtain ⟨a1, e1, e2⟩ := expandedLoop_steps c cap it fuel (k + 1) _ hwf1
  obtain ⟨f1, f2, f3, f4⟩ := ExpSteps.steps_frame e2
  have hnot : h ∉ a.pool.eraseIdx k := not_mem_eraseIdx_of_nodup a.pool k h hk hwf.1
  have hstep : expandedLoop c (some cap) it (fuel + 1) k a
      = expandedLoop c (some cap) it fuel (k + 1)
          { tracks := (a.tracks.set h (insertPointToSequence cap
              ((a.tracks.getD h []).dropLast ++ [withPrediction c it (a.tracks.getD h []) last0])
              (tagDetection (withPrediction c it (a.tracks.getD h []) last0) q))),
            pool := a.pool.eraseIdx k,
            no_nn := a.no_nn.eraseIdx i } := by
    rw [expandedLoop_step c (some cap) it fuel k a h last0 hk hg hl]
    have hf0 := hf
    unfold ellipseTest at hf0
    simp only [hf0, hq]
  refine ⟨hstep, a1, by rw [hstep]; exact e1, fun hc => hnot (f1.subset hc), f1, f2, ?_⟩
  rw [f4 h hnot]
  exact getD_set_self _ _ _ _ hlt

/-- C29, as the code has it. When the search loop evaluates, at index `k`, a track that passes
the validity guard: if every still-unmatched detection fails the ellipse test, the track stays
in the handle vector with only its predictive members written and the loop goes on; if any
still-unmatched detection passes the test, whether or not the detections before it fail, the
first one that passes is appended to the track and the track is out of the handle vector to the
end of the loop. -/
theorem expanded_tries_every_detection (c : Consts) (cap : ℕ) (it : ℚ) (fuel k : ℕ)
    (a : Assoc) (h : ℕ) (last0 : PointState) (hwf : a.WF) (hk : a.pool[k]? = some h)
    (hg : checkSequenceValidityWithNewInsert (a.tracks.getD h []) = true)
    (hl : (a.tracks.getD h []).getLast? = some last0) :
    ((∀ x ∈ a.no_nn, ellipseTest c it (a.tracks.getD h []) last0 x = false) →
      expandedLoop c (some cap) it (fuel + 1) k a
        = expandedLoop c (some cap) it fuel (k + 1)
            { a with tracks := (a.tracks.set h ((a.tracks.getD h []).dropLast ++
                [withPrediction c it (a.tracks.getD h []) last0])) }) ∧
    ((∃ x ∈ a.no_nn, ellipseTest c it (a.tracks.getD h []) last0 x = true) →
      ∃ (i : ℕ) (q : PointState) (a1 : Assoc), a.no_nn[i]? = some q ∧
        ellipseTest c it (a.tracks.getD h []) last0 q = true ∧
        (∀ j x, j < i → a.no_nn[j]? = some x →
          ellipseTest c it (a.tracks.getD h []) last0 x = false) ∧
        expandedLoop c (some cap) it (fuel + 1) k a = some a1 ∧ h ∉ a1.pool ∧
        a1.tracks.getD h [] = insertPointToSequence cap
          ((a.tracks.getD h []).dropLast ++ [withPrediction c it (a.tracks.getD h []) last0])
          (tagDetection (withPrediction c it (a.tracks.getD h []) last0) q)) := by
  constructor
  · intro hall
    have hf : a.no_nn.findIdx? (ellipseTest c it (a.tracks.getD h []) last0) = none :=
      List.findIdx?_eq_none_iff.2 hall
    rw [expandedLoop_step c (some cap) it fuel k a h last0 hk hg hl]
    unfold ellipseTest at hf
    simp only [hf]
  · rintro ⟨x, hx, hpx⟩
    cases hf : a.no_nn.findIdx? (ellipseTest c it (a.tracks.getD h []) last0) with
    | none => 
      have := List.findIdx?_eq_none_iff.1 hf x hx
      rw [hpx] at this
      cases this
    | some i =>
      obtain ⟨q, hq, hpass⟩ := getElem?_of_findIdx? _ _ _ hf
      have hfirst : ∀ j y, j < i → a.no_nn[j]? = some y →
          ellipseTest c it (a.tracks.getD h []) last0 y = false :=
        first_of_findIdx? _ _ _ hf
      obtain ⟨-, a1, e1, e2, -, -, e5⟩ :=
        expanded_first_fit c cap it fuel k a h last0 i q hwf hk hg hl hq hpass hfirst
      exact ⟨i, q, a1, hq, hpass, hfirst, e1, e2, e5⟩

theorem endsInThreeOff_iff_suffix (t : Track) :
    EndsInThreeOff t ↔ [false, false, false] <:+ t.map (fun p => p.led_state) := by
  constructor
  · rintro ⟨pre, x, y, z, rfl, hx, hy, hz⟩
    exact ⟨pre.map (fun p => p.led_state), by simp [hx, hy, hz]⟩
  · rintro ⟨l, hl⟩
    have hlen : 2 < t.length := by
      have := congrArg List.length hl
      simp at this
      omega
    obtain ⟨pre, x, y, z, rfl⟩ := exists_snoc3_of_length t hlen
    have hl1 : l ++ [false, false, false]
        = pre.map (fun p => p.led_state) ++ [x.led_state, y.led_state, z.led_state] := by
      simpa using hl
    have h3 := List.append_inj_right' hl1 rfl
    simp only [List.cons.injEq, and_true] at h3
    exact ⟨pre, x, y, z, rfl, h3.1.symm, h3.2.1.symm, h3.2.2.symm⟩

theorem sameCore_led {t t1 : Track} (h : SameCore t t1) :
    t.map (fun p => p.led_state) = t1.map (fun p => p.led_state) := by
  have := congrArg (List.map (fun x : Point2d × Bool × ℚ => x.2.1)) h
  simpa [core, Function.comp_def] using this

theorem insert_suffix (cap : ℕ) (t : Track) (p : PointState) :
    insertPointToSequence cap t p <:+ t ++ [p] := by
  unfold insertPointToSequence
  simp only []
  split
  · exact List.tail_suffix _
  · exact List.suffix_refl _

/-- Where the tracks come from after one call of `findClosestPixelAndInsert` on non-empty
tracks: a track of the result is a pre-existing track, up to the predictive members, with one
observation appended, or a new track of one observation. -/
theorem assoc_tracks_shape (c : Consts) (osq : List (List Bool)) (cap : ℕ) (now : ℚ)
    (tracks0 : List Track) (frame : List PointState) (hcap : bufferCap c osq = some cap)
    (hne : ∀ t ∈ tracks0, t ≠ []) :
    ∃ tracks1, findClosestPixelAndInsert c osq now tracks0 frame = some tracks1 ∧
      ∀ t ∈ tracks1, (∃ old obs, (∃ t0 ∈ tracks0, SameCore old t0) ∧
        t = insertPointToSequence cap old obs) ∨ ∃ d, t = [d] := by
  obtain ⟨tracks1, it, m, un, h1, h2, h3, -, -, -, h7, h8⟩ :=
    assoc_summary c osq cap now tracks0 frame hcap hne
  refine ⟨tracks1, h1, ?_⟩
  intro t ht
  obtain ⟨i, hi, rfl⟩ := List.getElem_of_mem ht
  have hget : tracks1.getD i [] = tracks1[i] := getD_of_getElem? (List.getElem?_eq_getElem hi)
  rcases Nat.lt_or_ge i tracks0.length with hlt | hge
  · left
    have hmem0 : tracks0.getD i [] ∈ tracks0 := by
      rw [List.getD_eq_getElem?_getD, List.getElem?_eq_getElem hlt]
      exact List.getElem_mem hlt
    by_cases hm : i ∈ m.map Prod.fst
    · obtain ⟨x, hx, rfl⟩ := List.mem_map.1 hm
      obtain ⟨-, old, obs, e1, -, e3⟩ := h7 x hx
      exact ⟨old, obs, ⟨_, hmem0, e1.sameCore⟩, by rw [← hget, e3]⟩
    · obtain ⟨old, last, e1, -, e3⟩ := h8 i hlt hm
      exact ⟨old, _, ⟨_, hmem0, e1.sameCore⟩, by rw [← hget, e3]⟩
  · right
    have hd : (tracks1.drop tracks0.length)[i - tracks0.length]? = some tracks1[i] := by
      rw [List.getElem?_drop, Nat.add_sub_cancel' hge, List.getElem?_eq_getElem hi]
    rw [h3, List.getElem?_map] at hd
    cases hu : un[i - tracks0.length]? with
    | none => simp [hu] at hd
    | some d =>
      rw [hu] at hd
      exact ⟨d, by simpa using hd.symm⟩

/-- A track kept by `cleanPotentialBuffer` that was obtained by one append to a track without
three consecutive placeholders holds no three consecutive placeholders. -/
theorem noThreeOff_insert (cap : ℕ) (framerate_ now : ℚ) (old t0 : Track) (obs : PointState)
    (hs : SameCore old t0) (h0 : NoThreeOff t0)
    (hk : keepTrack framerate_ now (insertPointToSequence cap old obs) = true) :
    NoThreeOff (insertPointToSequence cap old obs) := by
  intro hin
  obtain ⟨l1, l2, hl⟩ := hin
  obtain ⟨pre, hpre⟩ := insert_suffix cap old obs
  have hmap : pre.map (fun p => p.led_state) ++
      (insertPointToSequence cap old obs).map (fun p => p.led_state)
      = t0.map (fun p => p.led_state) ++ [obs.led_state] := by
    rw [← List.map_append, hpre, List.map_append, sameCore_led hs]
    rfl
  rcases Nat.eq_zero_or_pos l2.length with hz | hpos
  · have hnil : l2 = [] := List.length_eq_zero.1 hz
    subst hnil
    have h3 := (endsInThreeOff_iff_suffix _).2 ⟨l1, by simpa using hl⟩
    rw [keepTrack_threeOff framerate_ now _ h3] at hk
    exact Bool.false_ne_true hk
  · obtain ⟨l3, b, rfl⟩ := exists_snoc_of_length_pos l2 hpos
    rw [← hl] at hmap
    have hcomb : (pre.map (fun p => p.led_state) ++ l1 ++ [false, false, false] ++ l3) ++ [b]
        = t0.map (fun p => p.led_state) ++ [obs.led_state] := by
      rw [← hmap]
      simp
    have hleft := List.append_inj_left' hcomb rfl
    exact h0 ⟨pre.map (fun p => p.led_state) ++ l1, l3, by rw [← hleft]⟩

/-- The tracks of a state reached from an empty track set hold no three consecutive
placeholders. -/
theorem reachable_noThreeOff (c : Consts) (s0 s : alternativeHT) (cap : ℕ)
    (h0 : s0.gen_sequences_ = []) (hcap : bufferCap c s0.original_sequences_ = some cap)
    (hr : Reachable c s0 s) :
    s.original_sequences_ = s0.original_sequences_ ∧ s.matcher_ = s0.matcher_ ∧
      (∀ t ∈ s.gen_sequences_, t ≠ []) ∧ ∀ t ∈ s.gen_sequences_, NoThreeOff t := by
  induction hr with
  | start => simp [h0]
  | ingest s s1 now now_clean pts_msg _ hstep ih =>
    obtain ⟨e1, e2, e3, e4⟩ := ih
    obtain ⟨tracks1, f1, f2⟩ := assoc_tracks_shape c s.original_sequences_ cap now
      s.gen_sequences_ (frameOf c pts_msg) (by rw [e1]; exact hcap) e3
    obtain ⟨tracks2, g1, g2, g3, -⟩ :=
      processBuffer_defined c now now_clean s pts_msg cap (by rw [e1]; exact hcap) e3
    rw [g1] at f1
    cases f1
    rw [g2] at hstep
    cases hstep
    refine ⟨e1, e2, fun t ht => g3 t (mem_clean ht), fun t ht => ?_⟩
    have hk : keepTrack s.framerate_ now_clean t = true := (List.mem_filter.1 ht).2
    rcases f2 t (mem_clean ht) with ⟨old, obs, ⟨t0, ht0, hs⟩, rfl⟩ | ⟨d, rfl⟩
    · exact noThreeOff_insert cap _ _ old t0 obs hs (e4 t0 ht0) hk
    · intro hin
      have := hin.length_le
      simp at this
  | rate s input _ ih =>
    unfold updateFramerate
    split
    · exact ih
    · exact ih

/-- C31 (no three consecutive placeholders in a reachable state). In every state reached from
an empty track set by calls of `processBuffer` (and `updateFramerate`), with a non-empty code
set, no track holds three consecutive placeholders anywhere in its history; so the suffix
window of no track contains three consecutive `false` values, and `getResults` is defined and
reports for every track the value of the matcher on its suffix window: the branch that returns
the sentinel `-2` is never taken. -/
theorem reachable_no_three_placeholders (c : Consts) (s0 s : alternativeHT) (code0 : List Bool)
    (rest : List (List Bool)) (m : List Bool → ℤ) (h0 : s0.gen_sequences_ = [])
    (hcodes : s0.original_sequences_ = code0 :: rest) (hm : s0.matcher_ = some m)
    (hr : Reachable c s0 s) :
    (∀ t ∈ s.gen_sequences_, NoThreeOff t) ∧
    (∀ t ∈ s.gen_sequences_, ¬ [false, false, false] <:+: suffixWindow code0.length t) ∧
    getResults s
      = some (s.gen_sequences_.map (fun t => (t, m (suffixWindow code0.length t)))) := by
  have hcap : bufferCap c s0.original_sequences_
      = some (code0.length * c.size_for_saved_seqs_) := by
    rw [hcodes]
    rfl
  obtain ⟨e1, e2, -, e4⟩ := reachable_noThreeOff c s0 s _ h0 hcap hr
  have hwin : ∀ t ∈ s.gen_sequences_,
      ¬ [false, false, false] <:+: suffixWindow code0.length t := by
    intro t ht hin
    apply e4 t ht
    unfold suffixWindow at hin
    exact hin.trans ((List.drop_suffix _ _).map _).isInfix
  refine ⟨e4, hwin, ?_⟩
  unfold getResults
  rw [e1, hcodes, e2, hm]
  rw [getResultsLoop_eq]
  congr 1
  apply List.map_congr_left
  intro t ht
  rw [if_neg (hwin t ht)]

/-! ## Tracks are not empty -/

/-- C32, as the code has it. In every state reached from an empty track set by calls of
`processBuffer` (and `updateFramerate`), whatever the value `cap` of the bound, 0 included,
every track holds at least one observation, so its last observation exists and the next call of
`processBuffer` is defined for every message. An append to a non-empty track returns a non-empty
track, of the same length when the bound is 0; only an append to an empty track with the bound
0 returns the empty track. -/
theorem tracks_never_empty (c : Consts) (s0 s : alternativeHT) (cap : ℕ)
    (h0 : s0.gen_sequences_ = []) (hcap : bufferCap c s0.original_sequences_ = some cap)
    (hr : Reachable c s0 s) :
    (∀ t ∈ s.gen_sequences_, t ≠ [] ∧ ∃ last, t.getLast? = some last) ∧
    (∀ (now now_clean : ℚ) (pts_msg : ImagePoints),
      ∃ s1, processBuffer c now now_clean s pts_msg = some s1) ∧
    (∀ (t : Track) (p : PointState), t ≠ [] →
      insertPointToSequence cap t p ≠ [] ∧
      (cap = 0 → (insertPointToSequence cap t p).length = t.length)) ∧
    (∀ p : PointState, cap = 0 → insertPointToSequence cap [] p = []) := by
  obtain ⟨e1, e2, -⟩ := reachable_tracks c s0 s cap h0 hcap hr
  refine ⟨fun t ht => ⟨e2 t ht, ?_⟩, fun now now_clean pts_msg => ?_, fun t p hne => ⟨?_, ?_⟩,
    fun p hc => ?_⟩
  · cases hl : t.getLast? with
    | none => exact absurd (List.getLast?_eq_none_iff.1 hl) (e2 t ht)
    | some last => exact ⟨last, rfl⟩
  · obtain ⟨tracks1, -, g2, -, -⟩ :=
      processBuffer_defined c now now_clean s pts_msg cap (by rw [e1]; exact hcap) e2
    exact ⟨_, g2⟩
  · exact insert_ne_nil cap t p hne
  · intro hc
    subst hc
    unfold insertPointToSequence
    simp
  · subst hc
    unfold insertPointToSequence
    simp

/-! ## Appending to a track above the bound -/

/-- C33 (an append evicts at most one observation). `insertPointToSequence` returns a suffix of
the track with the observation appended, of the length of the track or one more. For a track
longer than the bound it returns the track without its front and with the observation appended:
the length is the same, still above the bound. The result is within the bound exactly when the
track was. `setSequences` leaves the tracks as they are and changes the bound to the one of the
new code set. -/
theorem insertPointToSequence_evicts_one (c : Consts) (cap : ℕ) (seq : Track)
    (p : PointState) :
    insertPointToSequence cap seq p <:+ seq ++ [p] ∧
    ((insertPointToSequence cap seq p).length = seq.length ∨
      (insertPointToSequence cap seq p).length = seq.length + 1) ∧
    (cap < seq.length →
      insertPointToSequence cap seq p = seq.tail ++ [p] ∧
      (insertPointToSequence cap seq p).length = seq.length ∧
      cap < (insertPointToSequence cap seq p).length) ∧
    ((insertPointToSequence cap seq p).length ≤ cap ↔ seq.length ≤ cap) ∧
    (∀ (mk : List (List Bool) → List Bool → ℤ) (s : alternativeHT) (codes : List (List Bool)),
      (setSequences mk s codes).gen_sequences_ = s.gen_sequences_ ∧
      bufferCap c (setSequences mk s codes).original_sequences_ = bufferCap c codes) := by
  have hlen : (insertPointToSequence cap seq p).length
      = if seq.length + 1 > cap then seq.length else seq.length + 1 := by
    unfold insertPointToSequence
    simp only [List.length_append, List.length_singleton]
    split <;> simp
  refine ⟨insert_suffix cap seq p, ?_, ?_, ?_, fun mk s codes => ⟨rfl, rfl⟩⟩
  · rw [hlen]
    split
    · exact Or.inl rfl
    · exact Or.inr rfl
  · intro hgt
    have h1 : seq.length + 1 > cap := by omega
    refine ⟨?_, by rw [hlen, if_pos h1], by rw [hlen, if_pos h1]; exact hgt⟩
    unfold insertPointToSequence
    simp only [List.length_append, List.length_singleton]
    rw [if_pos h1]
    cases seq with
    | nil => simp at hgt
    | cons x xs => rfl
  · rw [hlen]
    split <;> omega

/-! ## The timing tolerance -/

/-- C34, as the code has it. Whatever the rounding of the `double` operations, the tolerance
of `cleanPotentialBuffer` is the value computed for `(1 / framerate) * 4` when the frame rate
is not zero, and exactly 0 when it is zero (`5/60` is an integer division). A non-empty track
is kept exactly when it does not end in three placeholders and the difference that the code
computes, the absolute value of the `double` difference between the `toSec()` value of its
last time stamp and the `toSec()` value of the clock, is at most the tolerance: the staleness
test is strict. So with the frame rate 0 every non-empty track whose computed difference is not
0 is removed, and the staleness test keeps a track whose computed difference equals the
computed tolerance. -/
theorem timing_tolerance_strict (ar : DoubleArith) (now : ℚ) :
    (∀ f : ℚ, f ≠ 0 → timingToleranceWith ar f = ar.mul (ar.div 1 f) 4) ∧
    timingToleranceWith ar 0 = 0 ∧
    (∀ (f : ℚ) (t : Track) (last : PointState), t.getLast? = some last →
      (keepTrackWith ar f now t = true
        ↔ ¬ EndsInThreeOff t ∧
          |ar.sub (ar.toSec last.insert_time) (ar.toSec now)| ≤ timingToleranceWith ar f)) ∧
    (∀ (s : alternativeHT) (t : Track) (last : PointState), s.framerate_ = 0 →
      t.getLast? = some last → ar.sub (ar.toSec last.insert_time) (ar.toSec now) ≠ 0 →
        t ∉ (cleanPotentialBufferWith ar now s).gen_sequences_) ∧
    (∀ (s : alternativeHT) (t : Track) (last : PointState), t ∈ s.gen_sequences_ →
      t.getLast? = some last → ¬ EndsInThreeOff t →
      |ar.sub (ar.toSec last.insert_time) (ar.toSec now)|
        = timingToleranceWith ar s.framerate_ →
        t ∈ (cleanPotentialBufferWith ar now s).gen_sequences_) := by
  have h0 : timingToleranceWith ar 0 = 0 := by
    unfold timingToleranceWith
    norm_num
  refine ⟨fun f hf => ?_, h0, fun f t last hl => keepTrackWith_iff ar f now t last hl, ?_, ?_⟩
  · unfold timingToleranceWith
    rw [if_pos hf]
  · intro s t last hf hl hne hmem
    have hk := (List.mem_filter.1 hmem).2
    rw [keepTrackWith_iff ar _ _ _ _ hl, hf, h0] at hk
    exact hne (abs_eq_zero.1 (le_antisymm hk.2 (abs_nonneg _)))
  · intro s t last hmem hl h3 heq
    exact List.mem_filter.2 ⟨hmem, (keepTrackWith_iff ar _ _ _ _ hl).2 ⟨h3, le_of_eq heq⟩⟩

/-! ## The frame rate -/

theorem updateFramerate_fold (inputs : List ℚ) :
    ∀ s : alternativeHT,
      (inputs.foldl updateFramerate s).original_sequences_ = s.original_sequences_ ∧
      (inputs.foldl updateFramerate s).matcher_ = s.matcher_ ∧
      (inputs.foldl updateFramerate s).gen_sequences_ = s.gen_sequences_ ∧
      ((inputs.foldl updateFramerate s).framerate_ = s.framerate_ ∨
        (1 < (inputs.foldl updateFramerate s).framerate_ ∧
          (inputs.foldl updateFramerate s).framerate_ ∈ inputs)) := by
  induction inputs with
  | nil => exact fun s => ⟨rfl, rfl, rfl, Or.inl rfl⟩
  | cons x xs ih =>
    intro s
    obtain ⟨e1, e2, e3, e4⟩ := ih (updateFramerate s x)
    simp only [List.foldl_cons]
    by_cases hx : x > 1
    · have hu : updateFramerate s x = { s with framerate_ := x } := by
        unfold updateFramerate
        rw [if_pos hx]
      rw [hu] at e1 e2 e3 e4 ⊢
      refine ⟨e1, e2, e3, Or.inr ?_⟩
      rcases e4 with e | ⟨e5, e6⟩
      · rw [e]
        exact ⟨hx, List.mem_cons_self _ _⟩
      · exact ⟨e5, List.mem_cons_of_mem _ e6⟩
    · have hu : updateFramerate s x = s := by
        unfold updateFramerate
        rw [if_neg hx]
      rw [hu] at e1 e2 e3 e4 ⊢
      refine ⟨e1, e2, e3, ?_⟩
      rcases e4 with e | ⟨e5, e6⟩
      · exact Or.inl e
      · exact Or.inr ⟨e5, List.mem_cons_of_mem _ e6⟩

/-- C35 (the frame rate after updates). `updateFramerate` stores an input greater than 1 and
leaves the tracker as it is for every other input. After any sequence of calls the stored frame
rate is the initial one or one of the inputs, greater than 1, and code set, matcher and tracks
are the initial ones; a frame rate that differs from the initial one is therefore greater than
1, and the tolerance of the pruning is then `4 / framerate`, a division by a value above 1. -/
theorem updateFramerate_guard (s : alternativeHT) :
    (∀ input : ℚ, 1 < input → updateFramerate s input = { s with framerate_ := input }) ∧
    (∀ input : ℚ, input ≤ 1 → updateFramerate s input = s) ∧
    (∀ inputs : List ℚ,
      (inputs.foldl updateFramerate s).original_sequences_ = s.original_sequences_ ∧
      (inputs.foldl updateFramerate s).matcher_ = s.matcher_ ∧
      (inputs.foldl updateFramerate s).gen_sequences_ = s.gen_sequences_ ∧
      ((inputs.foldl updateFramerate s).framerate_ = s.framerate_ ∨
        (1 < (inputs.foldl updateFramerate s).framerate_ ∧
          (inputs.foldl updateFramerate s).framerate_ ∈ inputs))) ∧
    (∀ inputs : List ℚ, (inputs.foldl updateFramerate s).framerate_ ≠ s.framerate_ →
      1 < (inputs.foldl updateFramerate s).framerate_ ∧
      timingTolerance (inputs.foldl updateFramerate s).framerate_
        = 4 / (inputs.foldl updateFramerate s).framerate_) := by
  refine ⟨fun input h => ?_, fun input h => ?_, fun inputs => updateFramerate_fold inputs s,
    fun inputs hne => ?_⟩
  · unfold updateFramerate
    rw [if_pos h]
  · unfold updateFramerate
    rw [if_neg (not_lt.2 h)]
  · obtain ⟨-, -, -, e4⟩ := updateFramerate_fold inputs s
    rcases e4 with e | ⟨e5, -⟩
    · exact absurd e hne
    · refine ⟨e5, ?_⟩
      unfold timingTolerance
      rw [if_pos (by linarith)]
      ring

/-! ## The frame check of the receiver -/

theorem isStuffedBit_snoc (init : List ℤ) (x : ℤ) (i : ℕ) (hi : i < init.length) :
    isStuffedBit (init ++ [x]) i = isStuffedBit init i := by
  unfold isStuffedBit
  rw [List.getElem?_append_left hi, List.getElem?_append_left (by omega : i - 1 < init.length),
    List.getElem?_append_left (by omega : i - 2 < init.length),
    List.getElem?_append_left (by omega : i - 3 < init.length)]

theorem destuffed_snoc (init : List ℤ) (x : ℤ) :
    destuffed (init ++ [x])
      = destuffed init ++ (if isStuffedBit (init ++ [x]) init.length then [] else [x]) := by
  unfold destuffed
  rw [List.length_append, List.length_singleton, List.range_succ, List.filterMap_append]
  congr 1
  · apply List.filterMap_congr
    intro i hi
    have hi1 : i < init.length := List.mem_range.1 hi
    rw [isStuffedBit_snoc init x i hi1, List.getElem?_append_left hi1]
  · by_cases hs : isStuffedBit (init ++ [x]) init.length = true
    · simp [hs]
    · simp [hs]

theorem fourEqualAt_snoc (init : List ℤ) (x : ℤ) (i : ℕ) :
    FourEqualAt (init ++ [x]) i
      ↔ FourEqualAt init i ∨ (i = init.length ∧ FourEqualAt (init ++ [x]) init.length) := by
  constructor
  · intro h
    by_cases hi : i < init.length
    · left
      obtain ⟨h1, h2, h3, h4, h5⟩ := h
      rw [List.getElem?_append_left hi, List.getElem?_append_left (by omega : i - 1 < init.length),
        List.getElem?_append_left (by omega : i - 2 < init.length),
        List.getElem?_append_left (by omega : i - 3 < init.length)] at *
      exact ⟨h1, hi, h3, h4, h5⟩
    · right
      have h2 := h.2.1
      simp only [List.length_append, List.length_singleton] at h2
      have : i = init.length := by omega
      subst this
      exact ⟨rfl, h⟩
  · rintro (h | ⟨rfl, h⟩)
    · obtain ⟨h1, hi, h3, h4, h5⟩ := h
      refine ⟨h1, by simp; omega, ?_⟩
      rw [List.getElem?_append_left hi, List.getElem?_append_left (by omega : i - 1 < init.length),
        List.getElem?_append_left (by omega : i - 2 < init.length),
        List.getElem?_append_left (by omega : i - 3 < init.length)]
      exact ⟨h3, h4, h5⟩
    · exact h

theorem destuffed_short (l : List ℤ) (h : l.length ≤ 3) : destuffed l = l := by
  induction l using List.reverseRecOn with
  | nil => rfl
  | append_singleton init x ih =>
    simp only [List.length_append, List.length_singleton] at h
    rw [destuffed_snoc, ih (by omega)]
    have : isStuffedBit (init ++ [x]) init.length = false := by
      unfold isStuffedBit
      simp
      intro h3
      omega
    rw [this]
    simp

/-- The loop `for bs` on a vector whose part still to be scanned is `pre`: it returns from
inside when `pre` has four consecutive equal entries, and otherwise ends with the stuffed bits
of `pre` removed and the counter lowered by their number. -/
theorem bitStuffingLoop_spec : ∀ (m : ℕ) (pre post : List ℤ) (rs : ℤ), pre.length = m + 1 →
    ((∃ i, FourEqualAt pre i) →
      ∃ w, bitStuffingLoop m (pre ++ post) rs = Except.error w ∧ w.head? = pre.head?) ∧
    ((¬ ∃ i, FourEqualAt pre i) →
      bitStuffingLoop m (pre ++ post) rs
        = Except.ok (destuffed pre ++ post,
            rs - ((pre.length : ℤ) - ((destuffed pre).length : ℤ)))) := by
  intro m
  induction m with
  | zero =>
    intro pre post rs hlen
    constructor
    · rintro ⟨i, h1, h2, -⟩
      omega
    · intro _
      rw [destuffed_short pre (by omega)]
      simp [bitStuffingLoop]
  | succ m ih =>
    intro pre post rs hlen
    obtain ⟨init, x, rfl⟩ := exists_snoc_of_length_pos pre (by omega)
    have hinit : init.length = m + 1 := by simpa using hlen
    have hne : init ≠ [] := by
      intro h0
      simp [h0] at hinit
    have hhead : (init ++ [x]).head? = init.head? := by
      cases init with
      | nil => exact absurd rfl hne
      | cons a l => rfl
    have hv : ∀ j, j < init.length → (init ++ [x] ++ post)[j]? = init[j]? := by
      intro j hj
      rw [List.append_assoc, List.getElem?_append_left hj]
    have hp : ∀ j, j < init.length → (init ++ [x])[j]? = init[j]? := by
      intro j hj
      rw [List.getElem?_append_left hj]
    have hx : (init ++ [x] ++ post)[m + 1]? = some x := by
      rw [List.append_assoc, List.getElem?_append_right (by omega), hinit]
      simp
    have hpx : (init ++ [x])[m + 1]? = some x := by
      rw [List.getElem?_append_right (by omega), hinit]
      simp
    have herase : (init ++ [x] ++ post).eraseIdx (m + 1) = init ++ post := by
      rw [List.append_assoc, List.eraseIdx_append_of_length_le (by omega), hinit]
      simp
    have h1 : m + 1 - 1 < init.length := by omega
    have h2 : m + 1 - 2 < init.length := by omega
    have h3 : m + 1 - 3 < init.length := by omega
    by_cases hsmall : m + 1 < 3
    · constructor
      · rintro ⟨i, ha, hb, -⟩
        simp only [List.length_append, List.length_singleton] at hb
        omega
      · intro _
        rw [destuffed_short (init ++ [x]) (by simp; omega)]
        rw [bitStuffingLoop, if_pos hsmall]
        simp
    · have hge : 3 ≤ m + 1 := by omega
      rw [bitStuffingLoop, if_neg hsmall, hv _ h1, hv _ h2, hv _ h3, hx]
      have hstuff : isStuffedBit (init ++ [x]) init.length
          = decide (init[m + 1 - 1]? = init[m + 1 - 2]? ∧ init[m + 1 - 2]? = init[m + 1 - 3]? ∧
              init[m + 1 - 1]? ≠ some x) := by
        unfold isStuffedBit
        rw [hinit, hp _ h1, hp _ h2, hp _ h3, hpx]
        simp only [hge, true_and]
      have hfour : FourEqualAt (init ++ [x]) init.length
          ↔ (init[m + 1 - 3]? = init[m + 1 - 2]? ∧ init[m + 1 - 2]? = init[m + 1 - 1]? ∧
              init[m + 1 - 1]? = some x) := by
        unfold FourEqualAt
        rw [hinit, hp _ h1, hp _ h2, hp _ h3, hpx]
        constructor
        · rintro ⟨-, -, a, b, c⟩
          exact ⟨a, b, c⟩
        · rintro ⟨a, b, c⟩
          exact ⟨hge, by rw [List.length_append, hinit]; simp, a, b, c⟩
      have hex : (∃ i, FourEqualAt (init ++ [x]) i)
          ↔ (∃ i, FourEqualAt init i) ∨ FourEqualAt (init ++ [x]) init.length := by
        constructor
        · rintro ⟨i, hi⟩
          rcases (fourEqualAt_snoc init x i).1 hi with h | ⟨-, h⟩
          · exact Or.inl ⟨i, h⟩
          · exact Or.inr h
        · rintro (⟨i, h⟩ | h)
          · exact ⟨i, (fourEqualAt_snoc init x i).2 (Or.inl h)⟩
          · exact ⟨_, h⟩
      by_cases h3eq : init[m + 1 - 1]? = init[m + 1 - 2]? ∧ init[m + 1 - 2]? = init[m + 1 - 3]?
      · rw [if_pos h3eq]
        by_cases hdiff : init[m + 1 - 1]? ≠ some x
        · rw [if_pos hdiff, herase]
          have hs : isStuffedBit (init ++ [x]) init.length = true := by
            rw [hstuff]
            exact decide_eq_true ⟨h3eq.1, h3eq.2, hdiff⟩
          have hnf : ¬ FourEqualAt (init ++ [x]) init.length := by
            rw [hfour]
            exact fun hc => hdiff hc.2.2
          obtain ⟨ih1, ih2⟩ := ih init post (rs - 1) hinit
          constructor
          · intro hE
            rcases hex.1 hE with h | h
            · obtain ⟨w, e1, e2⟩ := ih1 h
              exact ⟨w, e1, by rw [e2, hhead]⟩
            · exact absurd h hnf
          · intro hE
            rw [ih2 (fun h => hE (hex.2 (Or.inl h))), destuffed_snoc, hs]
            simp only [if_true, List.append_nil, List.length_append, List.length_singleton]
            congr 2
            push_cast
            ring
        · rw [if_neg hdiff]
          have hd : init[m + 1 - 1]? = some x := not_not.1 hdiff
          have hf : FourEqualAt (init ++ [x]) init.length :=
            hfour.2 ⟨h3eq.2.symm, h3eq.1.symm, hd⟩
          constructor
          · intro _
            refine ⟨_, rfl, ?_⟩
            cases init with
            | nil => exact absurd rfl hne
            | cons a l => rfl
          · intro hE
            exact absurd ⟨_, hf⟩ hE
      · rw [if_neg h3eq]
        have hs : isStuffedBit (init ++ [x]) init.length = false := by
          rw [hstuff]
          exact decide_eq_false (fun hc => h3eq ⟨hc.1, hc.2.1⟩)
        have hnf : ¬ FourEqualAt (init ++ [x]) init.length := by
          rw [hfour]
          exact fun hc => h3eq ⟨hc.2.1.symm, hc.1.symm⟩
        have hassoc : init ++ [x] ++ post = init ++ (x :: post) := by simp
        obtain ⟨ih1, ih2⟩ := ih init (x :: post) rs hinit
        rw [hassoc]
        constructor
        · intro hE
          rcases hex.1 hE with h | h
          · obtain ⟨w, e1, e2⟩ := ih1 h
            exact ⟨w, e1, by rw [e2, hhead]⟩
          · exact absurd h hnf
        · intro hE
          rw [ih2 (fun h => hE (hex.2 (Or.inl h))), destuffed_snoc, hs]
          simp only [Bool.false_eq_true, if_false, List.length_append, List.length_singleton,
            List.append_assoc, List.singleton_append]
          congr 2
          push_cast
          ring


theorem destuffed_ne_nil (v : List ℤ) (hne : v ≠ []) : destuffed v ≠ [] := by
  induction v using List.reverseRecOn with
  | nil => exact absurd rfl hne
  | append_singleton init x ih =>
    rw [destuffed_snoc]
    by_cases h0 : init = []
    · subst h0
      have : isStuffedBit ([] ++ [x]) ([] : List ℤ).length = false := by
        unfold isStuffedBit
        exact decide_eq_false (fun hc => by simp at hc)
      rw [this]
      simp [destuffed]
    · intro hc
      exact ih h0 (List.append_eq_nil.1 hc).1

theorem destuffed_head (v : List ℤ) : (destuffed v).head? = v.head? := by
  induction v using List.reverseRecOn with
  | nil => rfl
  | append_singleton init x ih =>
    by_cases h0 : init = []
    · subst h0
      rw [destuffed_short _ (by simp)]
    · rw [destuffed_snoc]
      obtain ⟨d, ds, hd⟩ := List.exists_cons_of_ne_nil (destuffed_ne_nil init h0)
      obtain ⟨a, as, ha⟩ := List.exists_cons_of_ne_nil h0
      rw [hd] at ih ⊢
      rw [ha] at ih ⊢
      simpa using ih

/-- The frame check on a vector without four consecutive equal entries: the loop removes the
stuffed bits, the first element is removed, and length and parity of the rest decide. -/
theorem DataFrameCheck_clean (v : List ℤ) (hne : v ≠ []) (hno : ¬ ∃ i, FourEqualAt v i) :
    DataFrameCheck v = some
      (if (destuffed v).tail.length ≠ 8 ∧ (destuffed v).tail.length ≠ 9 ∧
          (destuffed v).tail.length ≠ 13 then 1
        else if (destuffed v).tail.countP (fun cnt => decide (cnt > 0)) % 2 ≠ 1 then 1 else 0,
       (destuffed v).tail) := by
  have hpos := List.length_pos.2 hne
  have hlen : v.length = (v.length - 1) + 1 := by omega
  have hloop := (bitStuffingLoop_spec (v.length - 1) v [] (v.length : ℤ) hlen).2 hno
  rw [List.append_nil, List.append_nil] at hloop
  obtain ⟨d0, stripped, hD⟩ := List.exists_cons_of_ne_nil (destuffed_ne_nil v hne)
  unfold DataFrameCheck
  rw [hloop, hD]
  simp only [List.tail_cons, List.length_cons]
  have hr : (v.length : ℤ) - ((v.length : ℤ) - ((stripped.length + 1 : ℕ) : ℤ)) - 1
      = (stripped.length : ℤ) := by
    push_cast
    ring
  simp only [hr]
  by_cases hl : stripped.length ≠ 8 ∧ stripped.length ≠ 9 ∧ stripped.length ≠ 13
  · rw [if_pos hl, if_pos (by omega)]
  · rw [if_neg hl, if_neg (by omega)]
    by_cases hp : stripped.countP (fun cnt => decide (cnt > 0)) % 2 ≠ 1
    · rw [if_pos hp, if_pos (by omega)]
    · rw [if_neg hp, if_neg (by omega)]

/-- The frame check on a vector with four consecutive equal entries: the value 1 is returned
from inside the loop and the first element of the vector is still in place. -/
theorem DataFrameCheck_stuffing (v : List ℤ) (h4 : ∃ i, FourEqualAt v i) :
    ∃ out, DataFrameCheck v = some (1, out) ∧ out.head? = v.head? := by
  have hpos : 0 < v.length := by
    obtain ⟨i, -, hi, -⟩ := h4
    omega
  have hlen : v.length = (v.length - 1) + 1 := by omega
  obtain ⟨w, hw, hh⟩ := (bitStuffingLoop_spec (v.length - 1) v [] (v.length : ℤ) hlen).1 h4
  rw [List.append_nil] at hw
  refine ⟨w, ?_, hh⟩
  unfold DataFrameCheck
  rw [hw]

/-- C36, as the code has it. On a non-empty vector `DataFrameCheck` is defined and returns 0 or
1. It returns 0 exactly when the vector has no four consecutive equal entries and the vector
without its stuffed bits and then without its first element has length 8, 9 or 13 and an odd
number of positive entries. When the vector has no four consecutive equal entries, the vector on
return is that destuffed frame without its first element, whatever the value returned; when it
has, the value 1 is returned from inside the loop and the vector on return still starts with
the first element of the input. -/
theorem DataFrameCheck_frame (v : List ℤ) (hne : v ≠ []) :
    ∃ (r : ℤ) (out : List ℤ), DataFrameCheck v = some (r, out) ∧ (r = 0 ∨ r = 1) ∧
      (r = 0 ↔ (¬ ∃ i, FourEqualAt v i) ∧
        ((destuffed v).tail.length = 8 ∨ (destuffed v).tail.length = 9 ∨
          (destuffed v).tail.length = 13) ∧
        (destuffed v).tail.countP (fun cnt => decide (cnt > 0)) % 2 = 1) ∧
      ((¬ ∃ i, FourEqualAt v i) → out = (destuffed v).tail) ∧
      ((∃ i, FourEqualAt v i) → r = 1 ∧ out.head? = v.head?) := by
  by_cases h4 : ∃ i, FourEqualAt v i
  · obtain ⟨out, e1, e2⟩ := DataFrameCheck_stuffing v h4
    refine ⟨1, out, e1, Or.inr rfl, ?_, fun hc => absurd h4 hc, fun _ => ⟨rfl, e2⟩⟩
    constructor
    · intro hc
      exact absurd hc one_ne_zero
    · intro hc
      exact absurd h4 hc.1
  · refine ⟨_, _, DataFrameCheck_clean v hne h4, ?_, ?_, fun _ => rfl, fun hc => absurd hc h4⟩
    · by_cases ha : (destuffed v).tail.length ≠ 8 ∧ (destuffed v).tail.length ≠ 9 ∧
          (destuffed v).tail.length ≠ 13
      · rw [if_pos ha]
        exact Or.inr rfl
      · rw [if_neg ha]
        by_cases hb : (destuffed v).tail.countP (fun cnt => decide (cnt > 0)) % 2 ≠ 1
        · rw [if_pos hb]
          exact Or.inr rfl
        · rw [if_neg hb]
          exact Or.inl rfl
    · by_cases ha : (destuffed v).tail.length ≠ 8 ∧ (destuffed v).tail.length ≠ 9 ∧
          (destuffed v).tail.length ≠ 13
      · rw [if_pos ha]
        constructor
        · intro hc
          exact absurd hc one_ne_zero
        · rintro ⟨-, hl, -⟩
          omega
      · rw [if_neg ha]
        by_cases hb : (destuffed v).tail.countP (fun cnt => decide (cnt > 0)) % 2 ≠ 1
        · rw [if_pos hb]
          constructor
          · intro hc
            exact absurd hc one_ne_zero
          · rintro ⟨-, -, hp⟩
            exact absurd hp hb
        · rw [if_neg hb]
          refine ⟨fun _ => ⟨h4, by omega, not_not.1 hb⟩, fun _ => rfl⟩

/-- C37 (four consecutive equal entries). For every vector in which some index `i ≥ 3` has
`v[i-3] = v[i-2] = v[i-1] = v[i]`, the entries being those of the input, `DataFrameCheck` is
defined and returns 1. -/
theorem DataFrameCheck_four_equal (v : List ℤ) (i : ℕ) (hi : 3 ≤ i) (hlt : i < v.length)
    (h1 : v[i - 3]? = v[i - 2]?) (h2 : v[i - 2]? = v[i - 1]?) (h3 : v[i - 1]? = v[i]?) :
    ∃ out, DataFrameCheck v = some (1, out) := by
  obtain ⟨out, e, -⟩ := DataFrameCheck_stuffing v ⟨i, hi, hlt, h1, h2, h3⟩
  exact ⟨out, e⟩

/-! ## The theorems at concrete inputs -/

theorem exTracker_tracks_ne_nil : ∀ t ∈ exTracker.gen_sequences_, t ≠ [] := by
  simp [exTracker]

theorem exAssoc_wf : exAssoc.WF := by
  simp [Assoc.WF, exAssoc, exTracker]

theorem exStart_step :
    processBuffer exConsts 0 0 exStart exMsg
      = some { exStart with gen_sequences_ := [[exOn 5 5 0]] } := by
  norm_num [processBuffer, findClosestPixelAndInsert, exStart, exMsg, setSequences, bufferCap,
    frameOf, fastPass, fastStep, scanPool, expandedSearch, expandedMatch, expandedLoop,
    insertVPs, cleanPotentialBuffer, keepTrack, timingTolerance, truncToInt, exConsts, exOn,
    exBlank]

theorem exEmptyCode_step :
    processBuffer exConsts 0 0 exEmptyCode exMsg
      = some { exEmptyCode with gen_sequences_ := [[exOn 5 5 0]] } := by
  norm_num [processBuffer, findClosestPixelAndInsert, exEmptyCode, exMsg, setSequences,
    bufferCap, frameOf, fastPass, fastStep, scanPool, expandedSearch, expandedMatch,
    expandedLoop, insertVPs, cleanPotentialBuffer, keepTrack, timingTolerance, truncToInt,
    exConsts, exOn, exBlank]

theorem fastPass_first_fit_witness :
    (bufferCap exConsts exTracker.original_sequences_ = some 12 ∧
      ∀ t ∈ exTracker.gen_sequences_, t ≠ []) ∧
    fastPass exConsts (some 12)
        { tracks := exTracker.gen_sequences_,
          pool := List.range exTracker.gen_sequences_.length, no_nn := [] } exFrame
      = some (specFastPass exConsts 12 exTracker.gen_sequences_ exFrame).toAssoc ∧
    findClosestPixelAndInsert exConsts exTracker.original_sequences_ (4/10)
        exTracker.gen_sequences_ exFrame
      = expandedSearch exConsts (some 12) (4/10)
          (specFastPass exConsts 12 exTracker.gen_sequences_ exFrame).toAssoc :=
  ⟨⟨rfl, exTracker_tracks_ne_nil⟩,
    fastPass_first_fit exConsts exTracker.original_sequences_ 12 (4/10)
      exTracker.gen_sequences_ exFrame rfl exTracker_tracks_ne_nil⟩

/-- C2, the claim as stated fails: with the single identity code of length 0 the bound is 0,
and after one frame with one detection the track set holds a track of length 1. -/
theorem track_length_bound_counterexample :
    exEmptyCode.gen_sequences_ = [] ∧
    bufferCap exConsts exEmptyCode.original_sequences_ = some 0 ∧
    ∃ s, Reachable exConsts exEmptyCode s ∧
      s.original_sequences_ = exEmptyCode.original_sequences_ ∧
      ∃ t ∈ s.gen_sequences_, ¬ t.length ≤ 0 :=
  ⟨rfl, rfl, { exEmptyCode with gen_sequences_ := [[exOn 5 5 0]] },
    Reachable.ingest exEmptyCode _ 0 0 exMsg Reachable.start exEmptyCode_step, rfl,
    [exOn 5 5 0], List.mem_singleton.2 rfl, by simp⟩

theorem track_length_bounded_witness :
    (exStart.gen_sequences_ = [] ∧
      exStart.original_sequences_ = [true, false, true, false] :: [[true, true, false, false]] ∧
      1 ≤ [true, false, true, false].length * exConsts.size_for_saved_seqs_ ∧
      Reachable exConsts exStart { exStart with gen_sequences_ := [[exOn 5 5 0]] }) ∧
    (({ exStart with gen_sequences_ := [[exOn 5 5 0]] } : alternativeHT).original_sequences_
        = [true, false, true, false] :: [[true, true, false, false]] ∧
      ∀ t ∈ ({ exStart with gen_sequences_ := [[exOn 5 5 0]] } : alternativeHT).gen_sequences_,
        t.length ≤ [true, false, true, false].length * exConsts.size_for_saved_seqs_) :=
  ⟨⟨rfl, rfl, by decide, Reachable.ingest exStart _ 0 0 exMsg Reachable.start exStart_step⟩,
    track_length_bounded exConsts exStart _ [true, false, true, false]
      [[true, true, false, false]] rfl rfl (by decide)
      (Reachable.ingest exStart _ 0 0 exMsg Reachable.start exStart_step)⟩

theorem findClosestPixelAndInsert_one_append_witness :
    (bufferCap exConsts exTracker.original_sequences_ = some 12 ∧
      ∀ t ∈ exTracker.gen_sequences_, t ≠ []) ∧
    ∃ tracks1, findClosestPixelAndInsert exConsts exTracker.original_sequences_ (4/10)
        exTracker.gen_sequences_ exFrame = some tracks1 ∧
      exTracker.gen_sequences_.length ≤ tracks1.length ∧
      ∀ (i : ℕ) (t0 : Track), exTracker.gen_sequences_[i]? = some t0 →
        ∃ old obs, SameCore old t0 ∧ tracks1[i]? = some (insertPointToSequence 12 old obs) ∧
          ((∃ d ∈ exFrame, Tagged old obs d) ∨
            (∃ last, old.getLast? = some last ∧ obs = placeholderOf (4/10) last)) :=
  ⟨⟨rfl, exTracker_tracks_ne_nil⟩,
    findClosestPixelAndInsert_one_append exConsts exTracker.original_sequences_ 12 (4/10)
      exTracker.gen_sequences_ exFrame rfl exTracker_tracks_ne_nil⟩

theorem processBuffer_no_three_off_witness :
    (bufferCap exConsts exTracker.original_sequences_ = some 12 ∧
      ∀ t ∈ exTracker.gen_sequences_, t ≠ []) ∧
    (∀ (clock : ℚ) (s1 : alternativeHT) (t : Track), EndsInThreeOff t →
      t ∉ (cleanPotentialBuffer clock s1).gen_sequences_) ∧
    (∀ (s1 s2 : alternativeHT) (clock clock_clean : ℚ) (msg : ImagePoints),
      processBuffer exConsts clock clock_clean s1 msg = some s2 →
        ∀ t ∈ s2.gen_sequences_, ¬ EndsInThreeOff t) ∧
    ∃ s1, processBuffer exConsts (4/10) (4/10) exTracker exMsg = some s1 ∧
      ∀ t ∈ s1.gen_sequences_, ¬ EndsInThreeOff t :=
  ⟨⟨rfl, exTracker_tracks_ne_nil⟩,
    processBuffer_no_three_off exConsts (4/10) (4/10) exTracker exMsg 12 rfl
      exTracker_tracks_ne_nil⟩

theorem exTracker_rate : exTracker.framerate_ ≠ 0 := by
  norm_num [exTracker, setSequences]

theorem exTracker_late :
    |binary64.sub (binary64.toSec (exOn 10 10 (1/10)).insert_time) (binary64.toSec 1)|
      > binary64.mul (binary64.div 1 exTracker.framerate_) 4 := by
  have h1 : (exOn 10 10 (1/10)).insert_time = 1 / 10 := rfl
  have h2 : exTracker.framerate_ = 10 := rfl
  rw [h1, h2, binary64_diff_late, binary64_tolerance_value, abs_neg,
    abs_of_pos (by norm_num)]
  norm_num

theorem cleanPotentialBuffer_removes_stale_witness :
    (exTracker.framerate_ ≠ 0 ∧
      [exOn 10 10 0, exOn 10 10 (1/10)].getLast? = some (exOn 10 10 (1/10)) ∧
      |binary64.sub (binary64.toSec (exOn 10 10 (1/10)).insert_time) (binary64.toSec 1)|
        > binary64.mul (binary64.div 1 exTracker.framerate_) 4) ∧
    [exOn 10 10 0, exOn 10 10 (1/10)]
      ∉ (cleanPotentialBufferWith binary64 1 exTracker).gen_sequences_ :=
  ⟨⟨exTracker_rate, rfl, exTracker_late⟩,
    cleanPotentialBuffer_removes_stale binary64 1 exTracker [exOn 10 10 0, exOn 10 10 (1/10)]
      (exOn 10 10 (1/10)) exTracker_rate rfl exTracker_late⟩

/-- C6, the claim as stated fails, at 10 Hz in binary64: a track whose last time stamp is
1700000000 s + 120 ns is older than the clock 1700000000 s + 400000121 ns by 0.400000001 s,
more than 4/10 s, and `cleanPotentialBuffer` keeps it: the `toSec()` values differ by
0.39999985..., which does not exceed the tolerance. -/
theorem removes_stale_counterexample :
    exStart.framerate_ = 10 ∧
    (1700000000 + 400000121 / 10 ^ 9 : ℚ)
      - (exOn 10 10 (1700000000 + 120 / 10 ^ 9)).insert_time > 4 / exStart.framerate_ ∧
    [exOn 10 10 (1700000000 + 120 / 10 ^ 9)] ∈
      (cleanPotentialBufferWith binary64 (1700000000 + 400000121 / 10 ^ 9)
        { exStart with
          gen_sequences_ := [[exOn 10 10 (1700000000 + 120 / 10 ^ 9)]] }).gen_sequences_ := by
  refine ⟨rfl, ?_, ?_⟩
  · norm_num [exOn, exStart, setSequences]
  · show [exOn 10 10 (1700000000 + 120 / 10 ^ 9)] ∈
      List.filter (keepTrackWith binary64 10 (1700000000 + 400000121 / 10 ^ 9))
        [[exOn 10 10 (1700000000 + 120 / 10 ^ 9)]]
    refine List.mem_filter.2 ⟨List.mem_singleton.2 rfl,
      (keepTrackWith_iff binary64 _ _ [exOn 10 10 (1700000000 + 120 / 10 ^ 9)]
        (exOn 10 10 (1700000000 + 120 / 10 ^ 9)) rfl).2
        ⟨not_threeOff_of_on [] [] _ rfl (by simp), ?_⟩⟩
    have h1 : (exOn 10 10 (1700000000 + 120 / 10 ^ 9)).insert_time
        = 1700000000 + 120 / 10 ^ 9 := rfl
    rw [h1, binary64_diff_epoch, binary64_tolerance, abs_neg, abs_of_pos (by norm_num)]
    norm_num

theorem getResults_invalid_sentinel_witness :
    (exTracker.original_sequences_ = [true, false, true, false] :: [[true, true, false, false]] ∧
      exTracker.matcher_
        = some (exMatcher [[true, false, true, false], [true, true, false, false]])) ∧
    ∃ results, getResults exTracker = some results ∧
      results[1]? = some ([exOn 60 10 0, exOff 60 10 (1/10), exOff 60 10 (2/10),
        exOff 60 10 (3/10)], -2) := by
  refine ⟨⟨rfl, rfl⟩, ?_⟩
  obtain ⟨results, h1, -, h3⟩ := getResults_invalid_sentinel exTracker
    [true, false, true, false] [[true, true, false, false]]
    (exMatcher [[true, false, true, false], [true, true, false, false]]) rfl rfl
  exact ⟨results, h1, (h3 1 _ rfl ⟨[true], [], rfl⟩).1⟩

theorem getResults_delegates_witness :
    (exTracker.original_sequences_ = [true, false, true, false] :: [[true, true, false, false]] ∧
      exTracker.matcher_
        = some (exMatcher [[true, false, true, false], [true, true, false, false]])) ∧
    ∃ results, getResults exTracker = some results ∧
      results[2]? = some ([exOn 10 60 0, exOff 10 60 (1/10), exOn 10 60 (2/10)],
        exMatcher [[true, false, true, false], [true, true, false, false]]
          [true, false, true]) := by
  refine ⟨⟨rfl, rfl⟩, ?_⟩
  obtain ⟨results, h1, -, h3⟩ := getResults_delegates exTracker
    [true, false, true, false] [[true, true, false, false]]
    (exMatcher [[true, false, true, false], [true, true, false, false]]) rfl rfl
  exact ⟨results, h1, (h3 2 _ rfl (by decide)).1⟩

theorem validity_guard_witness :
    exAssoc.WF ∧
    (∀ t : Track, checkSequenceValidityWithNewInsert t = false
      ↔ EndsInTwoOn t ∨ EndsInThreeOff t) ∧
    (∀ p : PointState, checkSequenceValidityWithNewInsert [p] = true) ∧
    ∃ tracks1, expandedSearch exConsts (some 12) (4/10) exAssoc = some tracks1 ∧
      ∀ h ∈ exAssoc.pool, checkSequenceValidityWithNewInsert (exAssoc.tracks.getD h []) = false →
        ∃ last, (exAssoc.tracks.getD h []).getLast? = some last ∧
          tracks1.getD h [] =
            insertPointToSequence 12 (exAssoc.tracks.getD h []) (placeholderOf (4/10) last) :=
  ⟨exAssoc_wf, validity_guard exConsts 12 (4/10) exAssoc exAssoc_wf⟩

/-- C10, the claim as stated fails: a track that ends in two detections fails the validity
guard, stays unmatched in an empty frame, and still receives the placeholder. -/
theorem placeholder_guard_counterexample :
    checkSequenceValidityWithNewInsert [exOn 10 10 0, exOn 10 10 (1/10)] = false ∧
    findClosestPixelAndInsert exConsts [[true, false, true, false]] (2/10)
        [[exOn 10 10 0, exOn 10 10 (1/10)]] []
      = some [[exOn 10 10 0, exOn 10 10 (1/10), exOff 10 10 (2/10)]] :=
  ⟨rfl, rfl⟩

theorem placeholder_regardless_of_guard_witness :
    exAssoc.WF ∧
    ∃ a1 tracks1, expandedMatch exConsts (some 12) exAssoc = some a1 ∧
      expandedSearch exConsts (some 12) (4/10) exAssoc = some tracks1 ∧
      ∀ h ∈ a1.pool, ∀ guard : Bool,
        checkSequenceValidityWithNewInsert (a1.tracks.getD h []) = guard →
        ∃ last, (a1.tracks.getD h []).getLast? = some last ∧
          tracks1.getD h [] =
            insertPointToSequence 12 (a1.tracks.getD h []) (placeholderOf (4/10) last) :=
  ⟨exAssoc_wf, placeholder_regardless_of_guard exConsts 12 (4/10) exAssoc exAssoc_wf⟩

theorem placeholder_fields_witness :
    backOf exTracker.gen_sequences_ 0 = some (exOn 10 10 (1/10)) ∧
    ∃ pVirtual, insertVPforSequencesWithNoInsert (some 12) (4/10) exTracker.gen_sequences_ 0
        = some (exTracker.gen_sequences_.set 0
            (insertPointToSequence 12 (exTracker.gen_sequences_.getD 0 []) pVirtual)) ∧
      backOf (exTracker.gen_sequences_.set 0
          (insertPointToSequence 12 (exTracker.gen_sequences_.getD 0 []) pVirtual)) 0
        = some pVirtual ∧
      pVirtual.point = (exOn 10 10 (1/10)).point ∧ pVirtual.led_state = false ∧
      pVirtual.insert_time = 4/10 ∧
      pVirtual.predicted = (exOn 10 10 (1/10)).predicted ∧
      pVirtual.ellipse = (exOn 10 10 (1/10)).ellipse ∧
      pVirtual.x_coeff = (exOn 10 10 (1/10)).x_coeff ∧
      pVirtual.y_coeff = (exOn 10 10 (1/10)).y_coeff ∧
      pVirtual.extended_search = (exOn 10 10 (1/10)).extended_search :=
  ⟨rfl, placeholder_fields 12 (4/10) exTracker.gen_sequences_ 0 (exOn 10 10 (1/10)) rfl⟩

/-- C12, the claim as stated fails: of two detections within the gate of the only track the
first is appended to it, and the second, although within the gate of the last position of
that track, starts a new track. -/
theorem gate_counterexample :
    specGate exConsts (exOn 11 10 (4/10)) [exOn 10 10 0] = true ∧
    specGate exConsts (exOn 11 10 (4/10)) [exOn 10 10 0, exOn 10 10 (4/10)] = true ∧
    findClosestPixelAndInsert exConsts exStart.original_sequences_ (4/10) [[exOn 10 10 0]]
        [exOn 10 10 (4/10), exOn 11 10 (4/10)]
      = some [[exOn 10 10 0, exOn 10 10 (4/10)], [exOn 11 10 (4/10)]] := by
  refine ⟨?_, ?_, ?_⟩
  · norm_num [specGate, exConsts, exOn, exBlank]
  · norm_num [specGate, exConsts, exOn, exBlank]
  · norm_num [findClosestPixelAndInsert, exStart, setSequences, bufferCap, fastPass, fastStep,
      scanPool, backOf, withinShift, computeXYDiff, expandedSearch, expandedMatch, expandedLoop,
      insertVPs, insertPointToSequence, exConsts, exOn, exBlank]

theorem exGate_holds : specGate exConsts (exOn 10 10 (4/10)) [exOn 10 10 0] = true := by
  norm_num [specGate, exConsts, exOn, exBlank]

theorem gate_first_fit_witness :
    (bufferCap exConsts exStart.original_sequences_ = some 12 ∧
      (∀ t ∈ [[exOn 10 10 0]], t ≠ []) ∧
      fastPass exConsts (some 12)
        { tracks := [[exOn 10 10 0]], pool := List.range [[exOn 10 10 0]].length, no_nn := [] }
        [] = some { tracks := [[exOn 10 10 0]], pool := [0], no_nn := [] } ∧
      0 ∈ [0] ∧ specGate exConsts (exOn 10 10 (4/10)) [exOn 10 10 0] = true) ∧
    ∃ (j h : ℕ) (tracks1 : List Track) (un : List PointState),
      [0][j]? = some h ∧
      [0].find? (fun x => specGate exConsts (exOn 10 10 (4/10))
        ([[exOn 10 10 0]].getD x [])) = some h ∧
      findClosestPixelAndInsert exConsts exStart.original_sequences_ (4/10) [[exOn 10 10 0]]
        ([] ++ exOn 10 10 (4/10) :: [exOn 11 10 (4/10)]) = some tracks1 ∧
      tracks1.getD h []
        = insertPointToSequence 12 ([[exOn 10 10 0]].getD h []) (exOn 10 10 (4/10)) ∧
      tracks1.drop [[exOn 10 10 0]].length = un.map (fun point => [point]) ∧
      un.Sublist ([] ++ [exOn 11 10 (4/10)]) := by
  refine ⟨⟨rfl, by simp, rfl, by simp, exGate_holds⟩, ?_⟩
  obtain ⟨j, h, tracks1, un, e1, e2, -, e4, e5, e6, e7⟩ :=
    gate_first_fit exConsts exStart.original_sequences_ 12 (4/10) [[exOn 10 10 0]] []
      [exOn 11 10 (4/10)] (exOn 10 10 (4/10))
      { tracks := [[exOn 10 10 0]], pool := [0], no_nn := [] } 0 rfl (by simp) rfl (by simp)
      exGate_holds
  exact ⟨j, h, tracks1, un, e1, e2, e4, e5, e6, e7⟩

/-- C13, the claim as stated fails: two detections lie outside the fast-pass gate and inside
the ellipse of the only track, which passes the validity guard; the track takes the first of
them and the second starts a new track. -/
theorem ellipse_inside_counterexample :
    checkSequenceValidityWithNewInsert exBlinking = true ∧
    specGate exConsts (exOn 7 60 (2/10)) exBlinking = false ∧
    ellipseTest exConsts (2/10) exBlinking (exOff 10 60 (1/10)) (exOn 7 60 (2/10)) = true ∧
    findClosestPixelAndInsert exConsts exStart.original_sequences_ (2/10) [exBlinking]
        [exOn 13 60 (2/10), exOn 7 60 (2/10)]
      = some [[exOn 10 60 0, withPrediction exConsts (2/10) exBlinking (exOff 10 60 (1/10)),
            tagDetection (withPrediction exConsts (2/10) exBlinking (exOff 10 60 (1/10)))
              (exOn 13 60 (2/10))],
          [exOn 7 60 (2/10)]] := by
  refine ⟨rfl, ?_, ?_, ?_⟩
  · norm_num [specGate, exBlinking, exConsts, exOn, exOff, exBlank]
  · norm_num [ellipseTest, withPrediction, selectStatisticsValues, exBlinking, exConsts,
      exSearch, exOn, exOff, exBlank]
  · norm_num [findClosestPixelAndInsert, exStart, setSequences, bufferCap, fastPass, fastStep,
      scanPool, backOf, withinShift, computeXYDiff, expandedSearch, expandedMatch, expandedLoop,
      insertVPs, insertVPforSequencesWithNoInsert, insertPointToSequence,
      checkSequenceValidityWithNewInsert, ledFromEnd, withPrediction, selectStatisticsValues,
      tagDetection, exBlinking, exConsts, exSearch, exOn, exOff, exBlank, List.findIdx?]

theorem exTwoInside_wf : exTwoInside.WF := by
  simp [Assoc.WF, exTwoInside, exBlinking]

theorem exTwoInside_first :
    ellipseTest exConsts (2/10) (exTwoInside.tracks.getD 0 []) (exOff 10 60 (1/10))
      (exOn 13 60 (2/10)) = true := by
  norm_num [ellipseTest, withPrediction, selectStatisticsValues, exTwoInside, exBlinking,
    exConsts, exSearch, exOn, exOff, exBlank]

theorem ellipse_first_inside_witness :
    (exTwoInside.WF ∧ exTwoInside.pool[0]? = some 0 ∧
      checkSequenceValidityWithNewInsert (exTwoInside.tracks.getD 0 []) = true ∧
      (exTwoInside.tracks.getD 0 []).getLast? = some (exOff 10 60 (1/10)) ∧
      exTwoInside.no_nn = [] ++ exOn 13 60 (2/10) :: [exOn 7 60 (2/10)] ∧
      (∀ x ∈ ([] : List PointState),
        ellipseTest exConsts (2/10) (exTwoInside.tracks.getD 0 []) (exOff 10 60 (1/10)) x
          = false) ∧
      ellipseTest exConsts (2/10) (exTwoInside.tracks.getD 0 []) (exOff 10 60 (1/10))
        (exOn 13 60 (2/10)) = true) ∧
    ∃ a1 tracks2, expandedLoop exConsts (some 12) (2/10) (0 + 1) 0 exTwoInside = some a1 ∧
      insertVPs (some 12) (2/10) a1.tracks a1.pool = some tracks2 ∧
      0 ∉ a1.pool ∧ a1.no_nn.Sublist ([] ++ [exOn 7 60 (2/10)]) ∧
      (tracks2 ++ a1.no_nn.map (fun point => [point])).getD 0 []
        = insertPointToSequence 12
            ((exTwoInside.tracks.getD 0 []).dropLast ++
              [withPrediction exConsts (2/10) (exTwoInside.tracks.getD 0 [])
                (exOff 10 60 (1/10))])
            (tagDetection (withPrediction exConsts (2/10) (exTwoInside.tracks.getD 0 [])
              (exOff 10 60 (1/10))) (exOn 13 60 (2/10))) :=
  ⟨⟨exTwoInside_wf, rfl, rfl, rfl, rfl, by simp, exTwoInside_first⟩,
    ellipse_first_inside exConsts 12 (2/10) (2/10) 0 0 exTwoInside 0 (exOff 10 60 (1/10)) []
      [exOn 7 60 (2/10)] (exOn 13 60 (2/10)) exTwoInside_wf rfl rfl rfl rfl (by simp)
      exTwoInside_first⟩

theorem exAfterFast_eq :
    fastPass exConsts (some 12)
      { tracks := exTracker.gen_sequences_, pool := List.range exTracker.gen_sequences_.length,
        no_nn := [] } exFrame = some exAfterFast := by
  norm_num [fastPass, fastStep, scanPool, backOf, withinShift, computeXYDiff,
    insertPointToSequence, exTracker, setSequences, exFrame, exAfterFast, exConsts, exOn, exOff,
    exBlank, List.range, List.range.loop]

theorem exAfterFast_outside :
    ∀ h ∈ exAfterFast.pool,
      checkSequenceValidityWithNewInsert (exAfterFast.tracks.getD h []) = true →
      OutsideEllipse exConsts ((exOn 200 200 (4/10)).insert_time + exConsts.prediction_margin_)
        (exOn 200 200 (4/10)) (exAfterFast.tracks.getD h []) := by
  intro h hh hg last hl
  have hcases : h = 1 ∨ h = 2 := by
    simpa [exAfterFast] using hh
  rcases hcases with rfl | rfl
  · exact absurd hg (by decide)
  · have hlast : last = exOn 10 60 (2/10) := by
      have : (exAfterFast.tracks.getD 2 []).getLast? = some (exOn 10 60 (2/10)) := rfl
      rw [this] at hl
      exact (Option.some.inj hl).symm
    subst hlast
    norm_num [ellipseTest, withPrediction, selectStatisticsValues, exAfterFast, exConsts,
      exSearch, exOn, exOff, exBlank]

theorem outside_starts_new_track_witness :
    (bufferCap exConsts exTracker.original_sequences_ = some 12 ∧
      (∀ t ∈ exTracker.gen_sequences_, t ≠ []) ∧
      fastPass exConsts (some 12)
        { tracks := exTracker.gen_sequences_,
          pool := List.range exTracker.gen_sequences_.length, no_nn := [] } exFrame
        = some exAfterFast ∧
      exOn 200 200 (4/10) ∈ exAfterFast.no_nn ∧
      exAfterFast.no_nn.head? = some (exOn 200 200 (4/10))) ∧
    ∃ (tracks1 : List Track) (un : List PointState),
      findClosestPixelAndInsert exConsts exTracker.original_sequences_ (4/10)
        exTracker.gen_sequences_ exFrame = some tracks1 ∧
      tracks1.drop exTracker.gen_sequences_.length = un.map (fun point => [point]) ∧
      un.Sublist exAfterFast.no_nn ∧ exOn 200 200 (4/10) ∈ un ∧
      un.count (exOn 200 200 (4/10)) = exAfterFast.no_nn.count (exOn 200 200 (4/10)) :=
  ⟨⟨rfl, exTracker_tracks_ne_nil, exAfterFast_eq, by simp [exAfterFast], rfl⟩,
    outside_starts_new_track exConsts exTracker.original_sequences_ 12 (4/10)
      exTracker.gen_sequences_ exFrame exAfterFast (exOn 200 200 (4/10)) (exOn 200 200 (4/10))
      rfl exTracker_tracks_ne_nil exAfterFast_eq (by simp [exAfterFast]) rfl
      exAfterFast_outside⟩

/-- C15, the claim as stated fails: the detection at `(9, 60)` lies inside the ellipse of the
track `exMoving` centred on its predicted position `(12, 60)`, but the code tests the ellipse
centred on the last position `(14, 60)`, does not accept it and lets it start a new track. -/
theorem expanded_gate_counterexample :
    checkSequenceValidityWithNewInsert exMoving = true ∧
    (withPrediction exConstsAvg (5/10) exMoving (exOff 14 60 (4/10))).predicted
      = { x := 12, y := 60 } ∧
    (withPrediction exConstsAvg (5/10) exMoving (exOff 14 60 (4/10))).ellipse
      = { x := 4, y := 4 } ∧
    predictedCentreTest exConstsAvg (5/10) exMoving (exOff 14 60 (4/10)) (exOn 9 60 (5/10))
      = true ∧
    ellipseTest exConstsAvg (5/10) exMoving (exOff 14 60 (4/10)) (exOn 9 60 (5/10)) = false ∧
    findClosestPixelAndInsert exConstsAvg exStart.original_sequences_ (5/10) [exMoving]
        [exOn 9 60 (5/10)]
      = some [exMoving.dropLast ++
            [withPrediction exConstsAvg (5/10) exMoving (exOff 14 60 (4/10)),
             placeholderOf (5/10)
               (withPrediction exConstsAvg (5/10) exMoving (exOff 14 60 (4/10)))],
          [exOn 9 60 (5/10)]] := by
  refine ⟨rfl, ?_, ?_, ?_, ?_, ?_⟩
  · norm_num [withPrediction, selectStatisticsValues, exMoving, exConstsAvg, exAverage,
      exConsts, exSearch, exOn, exOff, exBlank]
  · norm_num [withPrediction, selectStatisticsValues, exMoving, exConstsAvg, exAverage,
      exConsts, exSearch, exOn, exOff, exBlank]
  · norm_num [predictedCentreTest, withPrediction, selectStatisticsValues, exMoving,
      exConstsAvg, exAverage, exConsts, exSearch, exOn, exOff, exBlank]
  · norm_num [ellipseTest, withPrediction, selectStatisticsValues, exMoving, exConstsAvg,
      exAverage, exConsts, exSearch, exOn, exOff, exBlank]
  · norm_num [findClosestPixelAndInsert, exStart, setSequences, bufferCap, fastPass, fastStep,
      scanPool, backOf, withinShift, computeXYDiff, expandedSearch, expandedMatch, expandedLoop,
      insertVPs, insertVPforSequencesWithNoInsert, insertPointToSequence, placeholderOf,
      checkSequenceValidityWithNewInsert, ledFromEnd, withPrediction, selectStatisticsValues,
      tagDetection, exMoving, exConstsAvg, exAverage, exConsts, exSearch, exOn, exOff, exBlank,
      List.findIdx?]

theorem expanded_gate_on_last_position_witness :
    (exAssoc.pool[2]? = some 2 ∧
      checkSequenceValidityWithNewInsert (exAssoc.tracks.getD 2 []) = true ∧
      (exAssoc.tracks.getD 2 []).getLast? = some (exOn 10 60 (2/10))) ∧
    ∀ q : PointState, ellipseTest exConsts (4/10) (exAssoc.tracks.getD 2 [])
        (exOn 10 60 (2/10)) q
      = exConsts.extended_search_.checkIfInsideEllipse (exOn 10 60 (2/10)).point
          { x := (selectStatisticsValues exConsts
              ((observedSamples (exAssoc.tracks.getD 2 [])).map (fun s => s.1))
              ((observedSamples (exAssoc.tracks.getD 2 [])).map (fun s => s.2.2))
              (4/10) exConsts.max_pixel_shift_x_).ellipse_val,
            y := (selectStatisticsValues exConsts
              ((observedSamples (exAssoc.tracks.getD 2 [])).map (fun s => s.2.1))
              ((observedSamples (exAssoc.tracks.getD 2 [])).map (fun s => s.2.2))
              (4/10) exConsts.max_pixel_shift_y_).ellipse_val }
          q.point :=
  ⟨⟨rfl, rfl, rfl⟩,
    (expanded_gate_on_last_position exConsts (some 12) (4/10) 0 2 exAssoc 2
      (exOn 10 60 (2/10)) rfl rfl rfl).1⟩

theorem selectStatisticsValues_fallback_witness :
    ((∀ q ∈ (exConsts.extended_search_.polyReg [10, 10] [0, 1/10]
        (exConsts.extended_search_.calculateWeightVector [0, 1/10])).coeff, q = 0) ∨
      (([10, 10] : List ℚ).length : ℤ) ≤ (exConsts.extended_search_.polyReg [10, 10] [0, 1/10]
        (exConsts.extended_search_.calculateWeightVector [0, 1/10])).used_poly_order) ∧
    (selectStatisticsValues exConsts [10, 10] [0, 1/10] (2/10) 2).predicted_coordinate
      = exConsts.extended_search_.calcWeightedMean [10, 10]
          (exConsts.extended_search_.calculateWeightVector [0, 1/10]) ∧
    (selectStatisticsValues exConsts [10, 10] [0, 1/10] (2/10) 2).ellipse_val
      = 2 * max (exConsts.extended_search_.calcWSTD [10, 10]
          (exConsts.extended_search_.calculateWeightVector [0, 1/10])
          (exConsts.extended_search_.calcWeightedMean [10, 10]
            (exConsts.extended_search_.calculateWeightVector [0, 1/10]))) ((2 : ℤ) : ℚ) ∧
    (selectStatisticsValues exConsts [10, 10] [0, 1/10] (2/10) 2).coeff = [0] :=
  ⟨Or.inl (by simp [exConsts, exSearch]),
    selectStatisticsValues_fallback exConsts [10, 10] [0, 1/10] (2/10) 2
      (Or.inl (by simp [exConsts, exSearch]))⟩

theorem insertPointToSequence_fifo_witness :
    ([exOn 5 5 0] : Track) ≠ [] ∧
    insertPointToSequence 1 [exOn 5 5 0] (exOn 6 6 (1/10)) = [exOn 6 6 (1/10)] ∧
    (insertPointToSequence 1 [exOn 5 5 0] (exOn 6 6 (1/10))).getLast?
      = some (exOn 6 6 (1/10)) :=
  ⟨by simp,
    (insertPointToSequence_fifo 1 [exOn 5 5 0] (exOn 6 6 (1/10)) (by simp)).2.2.1 (by simp),
    (insertPointToSequence_fifo 1 [exOn 5 5 0] (exOn 6 6 (1/10)) (by simp)).2.2.2.2⟩

/-- C20, the claim as stated fails: `setSequences` with the empty list returns a tracker whose
code set is the empty list, in place of the two codes it had. -/
theorem setSequences_counterexample :
    exStart.original_sequences_ = [[true, false, true, false], [true, true, false, false]] ∧
    (setSequences exMatcher exStart []).original_sequences_ = [] ∧
    (setSequences exMatcher exStart []).matcher_ = some (exMatcher []) :=
  ⟨rfl, rfl, rfl⟩

/-- C34, the claim as stated fails, in binary64. At 10 Hz a track that does not end in three
placeholders and whose last time stamp, 1.2 s, differs from the clock, 1.6 s, by exactly
4/10 s is removed: the `toSec()` values differ by 0.40000000000000013, more than the computed
tolerance. With the frame rate 0 a track whose last time stamp lies 1 ns after the clock
1700000000 s is kept: both stamps have the `toSec()` value 1700000000. -/
theorem timing_tolerance_counterexample :
    (exStart.framerate_ = 10 ∧ ¬ EndsInThreeOff [exOn 10 10 (6/5)] ∧
      |(exOn 10 10 (6/5)).insert_time - 8/5| = 4 / exStart.framerate_ ∧
      [exOn 10 10 (6/5)] ∉
        (cleanPotentialBufferWith binary64 (8/5)
          { exStart with gen_sequences_ := [[exOn 10 10 (6/5)]] }).gen_sequences_) ∧
    ((exOn 10 10 (1700000000 + 1 / 10 ^ 9)).insert_time ≠ 1700000000 ∧
      [exOn 10 10 (1700000000 + 1 / 10 ^ 9)] ∈
        (cleanPotentialBufferWith binary64 1700000000
          { exStart with
            framerate_ := 0,
            gen_sequences_ := [[exOn 10 10 (1700000000 + 1 / 10 ^ 9)]] }).gen_sequences_) := by
  have hk : keepTrackWith binary64 10 (8/5) [exOn 10 10 (6/5)] = false := by
    refine keepTrackWith_stale binary64 _ _ _ (exOn 10 10 (6/5)) rfl ?_
    have h1 : (exOn 10 10 (6/5)).insert_time = 6 / 5 := rfl
    rw [h1, binary64_diff_boundary, binary64_tolerance, abs_neg, abs_of_pos (by norm_num)]
    norm_num
  refine ⟨⟨rfl, not_threeOff_of_on [] [] _ rfl (by simp), ?_, ?_⟩, ?_, ?_⟩
  · have h1 : (exOn 10 10 (6/5)).insert_time = 6 / 5 := rfl
    have h2 : exStart.framerate_ = 10 := rfl
    rw [h1, h2, abs_of_neg (by norm_num)]
    norm_num
  · show [exOn 10 10 (6/5)] ∉ List.filter (keepTrackWith binary64 10 (8/5)) [[exOn 10 10 (6/5)]]
    rw [List.filter_cons, hk]
    simp
  · have h1 : (exOn 10 10 (1700000000 + 1 / 10 ^ 9)).insert_time
        = 1700000000 + 1 / 10 ^ 9 := rfl
    rw [h1]
    norm_num
  · show [exOn 10 10 (1700000000 + 1 / 10 ^ 9)] ∈
      List.filter (keepTrackWith binary64 0 1700000000)
        [[exOn 10 10 (1700000000 + 1 / 10 ^ 9)]]
    refine List.mem_filter.2 ⟨List.mem_singleton.2 rfl,
      (keepTrackWith_iff binary64 _ _ [exOn 10 10 (1700000000 + 1 / 10 ^ 9)]
        (exOn 10 10 (1700000000 + 1 / 10 ^ 9)) rfl).2
        ⟨not_threeOff_of_on [] [] _ rfl (by simp), ?_⟩⟩
    have h1 : (exOn 10 10 (1700000000 + 1 / 10 ^ 9)).insert_time
        = 1700000000 + 1 / 10 ^ 9 := rfl
    have h0 : timingToleranceWith binary64 0 = 0 := by
      unfold timingToleranceWith
      norm_num
    rw [h1, binary64_diff_epoch_next, h0, abs_zero]

theorem observations_immutable_witness :
    (bufferCap exConsts exTracker.original_sequences_ = some 12 ∧
      ∀ t ∈ exTracker.gen_sequences_, t ≠ []) ∧
    ∃ (tracks1 : List Track) (it : ℚ),
      findClosestPixelAndInsert exConsts exTracker.original_sequences_ (4/10)
        exTracker.gen_sequences_ exFrame = some tracks1 ∧
      ∀ (i : ℕ) (t0 : Track), exTracker.gen_sequences_[i]? = some t0 →
        ∃ (old : Track) (obs : PointState) (n : ℕ), n ≤ 1 ∧
          tracks1[i]? = some ((old ++ [obs]).drop n) ∧
          old.map core = t0.map core ∧
          (old = t0 ∨ (checkSequenceValidityWithNewInsert t0 = true ∧
            ∃ last, t0.getLast? = some last ∧
              old = t0.dropLast ++ [withPrediction exConsts it t0 last])) := by
  refine ⟨⟨rfl, exTracker_tracks_ne_nil⟩, ?_⟩
  obtain ⟨tracks1, it, h1, -, h3⟩ := observations_immutable exConsts
    exTracker.original_sequences_ 12 (4/10) exTracker.gen_sequences_ exFrame rfl
    exTracker_tracks_ne_nil
  exact ⟨tracks1, it, h1, h3⟩

theorem round_trip_scenario_witness :
    (exIdle.gen_sequences_ = [] ∧ 0 ≤ exConsts.max_pixel_shift_x_ ∧
      0 ≤ exConsts.max_pixel_shift_y_ ∧ 1 ≤ exConsts.size_for_saved_seqs_) ∧
    ∃ (s4 : alternativeHT) (track : Track),
      feed exConsts (updateFramerate (setSequences exMatcher exIdle exCodes) 10) roundTripMsgs
        = some s4 ∧
      s4.gen_sequences_ = [track] ∧
      track.map (fun p => p.led_state) = [true, false, true, false] ∧
      (∀ p ∈ track, p.point = { x := 10, y := 10 }) ∧
      suffixWindow 4 track = [true, false, true, false] ∧
      getResults s4 = some [(track, exMatcher exCodes [true, false, true, false])] :=
  ⟨⟨rfl, by decide, by decide, by decide⟩,
    round_trip_scenario exConsts exMatcher exIdle rfl (by decide) (by decide) (by decide)⟩

/-- C25, the claim as stated fails: when the first marker follows the pattern `1 0 0 0`, its
track ends in three placeholders after the fourth frame and is pruned, so that one track is
left; and when the first marker follows the pattern `0 1 0 1`, its track starts in the second
frame and holds the three observations `1 0 1`. -/
theorem split_tracks_counterexample :
    feed exConsts exStart (splitMsgs [true, false, false, false] [true, false, true, false])
      = some { exStart with
          gen_sequences_ := [markerTrack exConsts 60 10 [true, false, true, false]] } ∧
    (feed exConsts exStart (splitMsgs [false, true, false, true] [true, false, true, false])).map
        (fun s => s.gen_sequences_.map (fun t => t.map (fun p => (p.point, p.led_state))))
      = some [[(⟨60, 10⟩, true), (⟨60, 10⟩, false), (⟨60, 10⟩, true), (⟨60, 10⟩, false)],
          [(⟨10, 10⟩, true), (⟨10, 10⟩, false), (⟨10, 10⟩, true)]] := by
  constructor
  · norm_num [feed, splitMsgs, splitMsg, markerTrack, obsAt, List.enum, List.enumFrom,
      processBuffer, frameOf, truncToInt, cleanPotentialBuffer, keepTrack,
      timingTolerance, ledFromEnd, exStart,
      findClosestPixelAndInsert, setSequences, bufferCap, fastPass, fastStep,
      scanPool, backOf, withinShift, computeXYDiff, expandedSearch, expandedMatch, expandedLoop,
      insertVPs, insertVPforSequencesWithNoInsert, insertPointToSequence,
      exConsts, exBlank]
  · norm_num [feed, splitMsgs, splitMsg, List.enum, List.enumFrom,
      processBuffer, frameOf, truncToInt, cleanPotentialBuffer, keepTrack,
      timingTolerance, ledFromEnd, exStart,
      findClosestPixelAndInsert, setSequences, bufferCap, fastPass, fastStep,
      scanPool, backOf, withinShift, computeXYDiff, expandedSearch, expandedMatch, expandedLoop,
      insertVPs, insertVPforSequencesWithNoInsert, insertPointToSequence,
      checkSequenceValidityWithNewInsert, withPrediction, selectStatisticsValues, tagDetection,
      exConsts, exSearch, exBlank, List.findIdx?]

theorem split_tracks_scenario_witness :
    (exIdle.gen_sequences_ = [] ∧ 0 ≤ exConsts.max_pixel_shift_x_ ∧
      0 ≤ exConsts.max_pixel_shift_y_ ∧ exConsts.max_pixel_shift_x_ < 50 ∧
      1 ≤ exConsts.size_for_saved_seqs_ ∧ ¬ (false = false ∧ true = false ∧ false = false) ∧
      ¬ (true = false ∧ false = false ∧ false = false)) ∧
    ∃ (s4 : alternativeHT) (trackA trackB : Track),
      feed exConsts (updateFramerate (setSequences exMatcher exIdle exCodes) 10)
        (splitMsgs [true, false, true, false] [true, true, false, false]) = some s4 ∧
      s4.gen_sequences_ = [trackA, trackB] ∧
      trackA.map (fun p => p.led_state) = [true, false, true, false] ∧
      trackB.map (fun p => p.led_state) = [true, true, false, false] ∧
      (∀ p ∈ trackA, p.point = { x := 10, y := 10 }) ∧
      (∀ p ∈ trackB, p.point = { x := 60, y := 10 }) :=
  ⟨⟨rfl, by decide, by decide, by decide, by decide, by decide, by decide⟩,
    split_tracks_scenario exConsts exMatcher exIdle rfl (by decide) (by decide) (by decide)
      (by decide) false true false true false false (by decide) (by decide)⟩

/-- C26, the claim as stated fails: the track `exThreeOn` holds three real detections that move
6 px per frame in x, and the only detection of the fourth frame lies on the linear
extrapolation, outside the fast-pass gate and inside the ellipse of the track; the track ends in
two real detections, so the expanded search skips it: the track receives the placeholder and
the detection starts a new track. -/
theorem prediction_gate_counterexample :
    (∀ p ∈ exThreeOn, p.led_state = true) ∧
    specGate exConstsWide (exOn 28 60 (3/10)) exThreeOn = false ∧
    ellipseTest exConstsWide (3/10) exThreeOn (exOn 22 60 (2/10)) (exOn 28 60 (3/10)) = true ∧
    findClosestPixelAndInsert exConstsWide exCodes (3/10) [exThreeOn] [exOn 28 60 (3/10)]
      = some [exThreeOn ++ [exOff 22 60 (3/10)], [exOn 28 60 (3/10)]] := by
  refine ⟨by simp [exThreeOn, exOn], ?_, ?_, ?_⟩
  · norm_num [specGate, exThreeOn, exConstsWide, exConsts, exOn, exBlank]
  · norm_num [ellipseTest, withPrediction, selectStatisticsValues, exThreeOn, exConstsWide,
      exWide, exConsts, exSearch, exOn, exBlank]
  · norm_num [findClosestPixelAndInsert, exCodes, bufferCap, fastPass, fastStep,
      scanPool, backOf, withinShift, computeXYDiff, expandedSearch, expandedMatch, expandedLoop,
      insertVPs, insertVPforSequencesWithNoInsert, insertPointToSequence,
      checkSequenceValidityWithNewInsert, ledFromEnd,
      exThreeOn, exConstsWide, exWide, exConsts, exSearch, exOn, exOff, exBlank]

theorem exOnOnOff_gate : specGate exConstsWide (exOn 22 60 (3/10)) exOnOnOff = false := by
  norm_num [specGate, exOnOnOff, exConstsWide, exConsts, exOn, exOff, exBlank]

theorem exOnOnOff_inside :
    ellipseTest exConstsWide ((exOn 22 60 (3/10)).insert_time + exConstsWide.prediction_margin_)
      exOnOnOff (exOff 16 60 (2/10)) (exOn 22 60 (3/10)) = true := by
  norm_num [ellipseTest, withPrediction, selectStatisticsValues, exOnOnOff, exConstsWide,
    exWide, exConsts, exSearch, exOn, exOff, exBlank]

theorem prediction_gate_scenario_witness :
    (bufferCap exConstsWide exCodes = some 12 ∧
      exOnOnOff.getLast? = some (exOff 16 60 (2/10)) ∧
      specGate exConstsWide (exOn 22 60 (3/10)) exOnOnOff = false ∧
      checkSequenceValidityWithNewInsert exOnOnOff = true ∧
      ellipseTest exConstsWide
        ((exOn 22 60 (3/10)).insert_time + exConstsWide.prediction_margin_)
        exOnOnOff (exOff 16 60 (2/10)) (exOn 22 60 (3/10)) = true) ∧
    findClosestPixelAndInsert exConstsWide exCodes (3/10) [exOnOnOff] [exOn 22 60 (3/10)]
      = some [insertPointToSequence 12
          (exOnOnOff.dropLast ++ [withPrediction exConstsWide
            ((exOn 22 60 (3/10)).insert_time + exConstsWide.prediction_margin_) exOnOnOff
            (exOff 16 60 (2/10))])
          (tagDetection (withPrediction exConstsWide
            ((exOn 22 60 (3/10)).insert_time + exConstsWide.prediction_margin_) exOnOnOff
            (exOff 16 60 (2/10))) (exOn 22 60 (3/10)))] :=
  ⟨⟨rfl, rfl, exOnOnOff_gate, rfl, exOnOnOff_inside⟩,
    (prediction_gate_scenario exConstsWide exCodes 12 (3/10) exOnOnOff (exOff 16 60 (2/10))
      (exOn 22 60 (3/10)) rfl rfl exOnOnOff_gate).1 rfl exOnOnOff_inside⟩

/-- C27, the code at the failing input. The tracker holds the two tracks of `exPair` and a
frame with one detection at `(10, 10)` is ingested. When the last iteration of the fast-pass
loop releases the lock (line 73), the track set holds the detection appended to the first
track while the second track is still without its placeholder: this track set is neither the
one before the ingestion nor the one after it, and `getResults` returns for it a result that
differs from the results before and after the ingestion. -/
theorem ingestion_partial_state :
    fastPass exConsts (some 12)
        { tracks := exPair, pool := List.range exPair.length, no_nn := [] } [exOn 10 10 (1/10)]
      = some { tracks := [[exOn 10 10 0, exOn 10 10 (1/10)], [exOn 60 10 0]], pool := [1],
               no_nn := [] } ∧
    processBuffer exConsts (1/10) (1/10) { exStart with gen_sequences_ := exPair }
        { points := [{ x := 10, y := 10 }], stamp := 1/10 }
      = some { exStart with gen_sequences_ :=
          [[exOn 10 10 0, exOn 10 10 (1/10)], [exOn 60 10 0, exOff 60 10 (1/10)]] } ∧
    getResults { exStart with gen_sequences_ := exPair }
      = some [([exOn 10 10 0], 1), ([exOn 60 10 0], 1)] ∧
    getResults { exStart with
        gen_sequences_ := [[exOn 10 10 0, exOn 10 10 (1/10)], [exOn 60 10 0]] }
      = some [([exOn 10 10 0, exOn 10 10 (1/10)], 2), ([exOn 60 10 0], 1)] ∧
    getResults { exStart with gen_sequences_ :=
        [[exOn 10 10 0, exOn 10 10 (1/10)], [exOn 60 10 0, exOff 60 10 (1/10)]] }
      = some [([exOn 10 10 0, exOn 10 10 (1/10)], 2),
          ([exOn 60 10 0, exOff 60 10 (1/10)], 1)] := by
  refine ⟨?_, ?_, rfl, rfl, rfl⟩
  · norm_num [fastPass, fastStep, scanPool, backOf, withinShift, computeXYDiff,
      insertPointToSequence, exPair, exConsts, exOn, exBlank, List.range, List.range.loop]
  · norm_num [processBuffer, frameOf, truncToInt, cleanPotentialBuffer, keepTrack,
      timingTolerance, ledFromEnd, exStart, exPair,
      findClosestPixelAndInsert, setSequences, bufferCap, fastPass, fastStep,
      scanPool, backOf, withinShift, computeXYDiff, expandedSearch, expandedMatch, expandedLoop,
      insertVPs, insertVPforSequencesWithNoInsert, insertPointToSequence,
      exConsts, exOn, exOff, exBlank]

theorem exCloser_wf : exCloser.WF := by
  simp [Assoc.WF, exCloser, exBlinking]

theorem exCloser_pass :
    ellipseTest exConsts (2/10) (exCloser.tracks.getD 0 []) (exOff 10 60 (1/10))
      (exOn 14 60 (2/10)) = true := by
  norm_num [ellipseTest, withPrediction, selectStatisticsValues, exCloser, exBlinking,
    exConsts, exSearch, exOn, exOff, exBlank]

theorem exCloser_later :
    ellipseTest exConsts (2/10) (exCloser.tracks.getD 0 []) (exOff 10 60 (1/10))
      (exOn 13 60 (2/10)) = true := by
  norm_num [ellipseTest, withPrediction, selectStatisticsValues, exCloser, exBlinking,
    exConsts, exSearch, exOn, exOff, exBlank]

theorem exCloser_first :
    ∀ (j : ℕ) (x : PointState), j < 1 → exCloser.no_nn[j]? = some x →
      ellipseTest exConsts (2/10) (exCloser.tracks.getD 0 []) (exOff 10 60 (1/10)) x
        = false := by
  intro j x hj hx
  obtain rfl : j = 0 := by omega
  have hx1 : exOn 200 200 (2/10) = x := by
    simpa [exCloser] using hx
  subst hx1
  norm_num [ellipseTest, withPrediction, selectStatisticsValues, exCloser, exBlinking,
    exConsts, exSearch, exOn, exOff, exBlank]

theorem expanded_first_fit_witness :
    (exCloser.WF ∧ exCloser.pool[0]? = some 0 ∧
      checkSequenceValidityWithNewInsert (exCloser.tracks.getD 0 []) = true ∧
      (exCloser.tracks.getD 0 []).getLast? = some (exOff 10 60 (1/10)) ∧
      exCloser.no_nn[1]? = some (exOn 14 60 (2/10)) ∧
      ellipseTest exConsts (2/10) (exCloser.tracks.getD 0 []) (exOff 10 60 (1/10))
        (exOn 14 60 (2/10)) = true ∧
      ∀ (j : ℕ) (x : PointState), j < 1 → exCloser.no_nn[j]? = some x →
        ellipseTest exConsts (2/10) (exCloser.tracks.getD 0 []) (exOff 10 60 (1/10)) x
          = false) ∧
    (exCloser.no_nn[2]? = some (exOn 13 60 (2/10)) ∧
      ellipseTest exConsts (2/10) (exCloser.tracks.getD 0 []) (exOff 10 60 (1/10))
        (exOn 13 60 (2/10)) = true) ∧
    ∃ a1, expandedLoop exConsts (some 12) (2/10) (0 + 1) 0 exCloser = some a1 ∧
      0 ∉ a1.pool ∧ a1.no_nn.Sublist (exCloser.no_nn.eraseIdx 1) ∧
      a1.tracks.getD 0 [] = insertPointToSequence 12
        ((exCloser.tracks.getD 0 []).dropLast ++
          [withPrediction exConsts (2/10) (exCloser.tracks.getD 0 []) (exOff 10 60 (1/10))])
        (tagDetection (withPrediction exConsts (2/10) (exCloser.tracks.getD 0 [])
          (exOff 10 60 (1/10))) (exOn 14 60 (2/10))) := by
  refine ⟨⟨exCloser_wf, rfl, rfl, rfl, rfl, exCloser_pass, exCloser_first⟩,
    ⟨rfl, exCloser_later⟩, ?_⟩
  obtain ⟨-, a1, e1, e2, -, e4, e5⟩ := expanded_first_fit exConsts 12 (2/10) 0 0 exCloser 0
    (exOff 10 60 (1/10)) 1 (exOn 14 60 (2/10)) exCloser_wf rfl rfl rfl rfl exCloser_pass
    exCloser_first
  exact ⟨a1, e1, e2, e4, e5⟩

/-- C29, the claim as stated fails: the first candidate detection `(200, 200)` fails the
ellipse test of the track `exBlinking`, and the second detection is then tested, passes and is
appended to the track; only the first detection starts a new track. -/
theorem expanded_second_detection_counterexample :
    checkSequenceValidityWithNewInsert exBlinking = true ∧
    ellipseTest exConsts (2/10) exBlinking (exOff 10 60 (1/10)) (exOn 200 200 (2/10)) = false ∧
    findClosestPixelAndInsert exConsts exCodes (2/10) [exBlinking]
        [exOn 200 200 (2/10), exOn 13 60 (2/10)]
      = some [[exOn 10 60 0, withPrediction exConsts (2/10) exBlinking (exOff 10 60 (1/10)),
            tagDetection (withPrediction exConsts (2/10) exBlinking (exOff 10 60 (1/10)))
              (exOn 13 60 (2/10))],
          [exOn 200 200 (2/10)]] := by
  refine ⟨rfl, ?_, ?_⟩
  · norm_num [ellipseTest, withPrediction, selectStatisticsValues, exBlinking, exConsts,
      exSearch, exOn, exOff, exBlank]
  · norm_num [findClosestPixelAndInsert, exCodes, bufferCap, fastPass, fastStep,
      scanPool, backOf, withinShift, computeXYDiff, expandedSearch, expandedMatch, expandedLoop,
      insertVPs, insertVPforSequencesWithNoInsert, insertPointToSequence,
      checkSequenceValidityWithNewInsert, ledFromEnd, withPrediction, selectStatisticsValues,
      tagDetection, exBlinking, exConsts, exSearch, exOn, exOff, exBlank, List.findIdx?]
    exact ⟨⟨rfl, rfl, rfl⟩, rfl⟩

theorem expanded_tries_every_detection_witness :
    (exCloser.WF ∧ exCloser.pool[0]? = some 0 ∧
      checkSequenceValidityWithNewInsert (exCloser.tracks.getD 0 []) = true ∧
      (exCloser.tracks.getD 0 []).getLast? = some (exOff 10 60 (1/10))) ∧
    (exCloser.no_nn[0]? = some (exOn 200 200 (2/10)) ∧
      ellipseTest exConsts (2/10) (exCloser.tracks.getD 0 []) (exOff 10 60 (1/10))
        (exOn 200 200 (2/10)) = false) ∧
    ∃ (i : ℕ) (q : PointState) (a1 : Assoc), exCloser.no_nn[i]? = some q ∧
      ellipseTest exConsts (2/10) (exCloser.tracks.getD 0 []) (exOff 10 60 (1/10)) q = true ∧
      expandedLoop exConsts (some 12) (2/10) (0 + 1) 0 exCloser = some a1 ∧ 0 ∉ a1.pool ∧
      a1.tracks.getD 0 [] = insertPointToSequence 12
        ((exCloser.tracks.getD 0 []).dropLast ++
          [withPrediction exConsts (2/10) (exCloser.tracks.getD 0 []) (exOff 10 60 (1/10))])
        (tagDetection (withPrediction exConsts (2/10) (exCloser.tracks.getD 0 [])
          (exOff 10 60 (1/10))) q) := by
  refine ⟨⟨exCloser_wf, rfl, rfl, rfl⟩, ⟨rfl, exCloser_first 0 _ (by decide) rfl⟩, ?_⟩
  obtain ⟨i, q, a1, e1, e2, -, e4, e5, e6⟩ :=
    (expanded_tries_every_detection exConsts 12 (2/10) 0 0 exCloser 0 (exOff 10 60 (1/10))
      exCloser_wf rfl rfl rfl).2 ⟨exOn 14 60 (2/10), by simp [exCloser], exCloser_pass⟩
  exact ⟨i, q, a1, e1, e2, e4, e5, e6⟩

theorem exStart_reach :
    Reachable exConsts exStart { exStart with gen_sequences_ := [[exOn 5 5 0]] } :=
  Reachable.ingest exStart _ 0 0 exMsg Reachable.start exStart_step

theorem reachable_no_three_placeholders_witness :
    (exStart.gen_sequences_ = [] ∧
      exStart.original_sequences_ = [true, false, true, false] :: [[true, true, false, false]] ∧
      exStart.matcher_ = some (exMatcher exCodes) ∧
      Reachable exConsts exStart { exStart with gen_sequences_ := [[exOn 5 5 0]] }) ∧
    (∀ t ∈ ({ exStart with gen_sequences_ := [[exOn 5 5 0]] } : alternativeHT).gen_sequences_,
      NoThreeOff t) ∧
    getResults { exStart with gen_sequences_ := [[exOn 5 5 0]] }
      = some (({ exStart with gen_sequences_ := [[exOn 5 5 0]] } : alternativeHT).gen_sequences_.map
          (fun t => (t, exMatcher exCodes (suffixWindow [true, false, true, false].length t)))) :=
  ⟨⟨rfl, rfl, rfl, exStart_reach⟩,
    (reachable_no_three_placeholders exConsts exStart _ [true, false, true, false]
      [[true, true, false, false]] (exMatcher exCodes) rfl rfl rfl exStart_reach).1,
    (reachable_no_three_placeholders exConsts exStart _ [true, false, true, false]
      [[true, true, false, false]] (exMatcher exCodes) rfl rfl rfl exStart_reach).2.2⟩

/-- C32, the claim as stated fails: with the bound 0 (a code of length 0) an append to a track
of one observation returns a track of one observation, not the empty track, and the track of a
reachable state stays non-empty over the next frame. -/
theorem append_cap_zero_counterexample :
    bufferCap exConsts exEmptyCode.original_sequences_ = some 0 ∧
    insertPointToSequence 0 [exOn 5 5 0] (exOff 5 5 (1/10)) = [exOff 5 5 (1/10)] ∧
    insertPointToSequence 0 [exOn 5 5 0] (exOff 5 5 (1/10)) ≠ [] ∧
    processBuffer exConsts (1/10) (1/10) { exEmptyCode with gen_sequences_ := [[exOn 5 5 0]] }
        { points := [], stamp := 1/10 }
      = some { exEmptyCode with gen_sequences_ := [[exOff 5 5 (1/10)]] } := by
  refine ⟨rfl, rfl, by simp [insertPointToSequence], ?_⟩
  norm_num [processBuffer, findClosestPixelAndInsert, exEmptyCode, setSequences, bufferCap,
    frameOf, fastPass, expandedSearch, expandedMatch, expandedLoop, insertVPs,
    insertVPforSequencesWithNoInsert, insertPointToSequence, backOf, cleanPotentialBuffer,
    keepTrack, timingTolerance, exConsts, exOn, exOff, exBlank]

theorem tracks_never_empty_witness :
    (exStart.gen_sequences_ = [] ∧ bufferCap exConsts exStart.original_sequences_ = some 12 ∧
      Reachable exConsts exStart { exStart with gen_sequences_ := [[exOn 5 5 0]] }) ∧
    (∀ t ∈ ({ exStart with gen_sequences_ := [[exOn 5 5 0]] } : alternativeHT).gen_sequences_,
      t ≠ [] ∧ ∃ last, t.getLast? = some last) ∧
    (∀ (now now_clean : ℚ) (pts_msg : ImagePoints),
      ∃ s1, processBuffer exConsts now now_clean
        { exStart with gen_sequences_ := [[exOn 5 5 0]] } pts_msg = some s1) :=
  ⟨⟨rfl, rfl, exStart_reach⟩,
    (tracks_never_empty exConsts exStart _ 12 rfl rfl exStart_reach).1,
    (tracks_never_empty exConsts exStart _ 12 rfl rfl exStart_reach).2.1⟩

/-- C36, the claim as stated fails: the vector `0 1 1 1 1 0 0 0 1` has four consecutive equal
entries; the value 1 is returned from inside the loop, and the vector on return, with the
stuffed bits removed and the first element in place, is not the destuffed vector without its
first element. -/
theorem DataFrameCheck_counterexample :
    DataFrameCheck [0, 1, 1, 1, 1, 0, 0, 0, 1] = some (1, [0, 1, 1, 1, 1, 0, 0]) ∧
    (destuffed [0, 1, 1, 1, 1, 0, 0, 0, 1]).tail = [1, 1, 1, 1, 0, 0] := by
  constructor
  · decide
  · decide

theorem DataFrameCheck_frame_witness :
    ([1, 0, 0, 0, 1, 1, 0, 1, 0, 1, 0] : List ℤ) ≠ [] ∧
    DataFrameCheck [1, 0, 0, 0, 1, 1, 0, 1, 0, 1, 0] = some (0, [0, 0, 0, 1, 0, 1, 0, 1, 0]) ∧
    ∃ (r : ℤ) (out : List ℤ),
      DataFrameCheck [1, 0, 0, 0, 1, 1, 0, 1, 0, 1, 0] = some (r, out) ∧ (r = 0 ∨ r = 1) ∧
      (r = 0 ↔ (¬ ∃ i, FourEqualAt [1, 0, 0, 0, 1, 1, 0, 1, 0, 1, 0] i) ∧
        ((destuffed [1, 0, 0, 0, 1, 1, 0, 1, 0, 1, 0]).tail.length = 8 ∨
          (destuffed [1, 0, 0, 0, 1, 1, 0, 1, 0, 1, 0]).tail.length = 9 ∨
          (destuffed [1, 0, 0, 0, 1, 1, 0, 1, 0, 1, 0]).tail.length = 13) ∧
        (destuffed [1, 0, 0, 0, 1, 1, 0, 1, 0, 1, 0]).tail.countP
          (fun cnt => decide (cnt > 0)) % 2 = 1) ∧
      ((¬ ∃ i, FourEqualAt [1, 0, 0, 0, 1, 1, 0, 1, 0, 1, 0] i) →
        out = (destuffed [1, 0, 0, 0, 1, 1, 0, 1, 0, 1, 0]).tail) ∧
      ((∃ i, FourEqualAt [1, 0, 0, 0, 1, 1, 0, 1, 0, 1, 0] i) →
        r = 1 ∧ out.head? = ([1, 0, 0, 0, 1, 1, 0, 1, 0, 1, 0] : List ℤ).head?) :=
  ⟨List.cons_ne_nil _ _, by decide,
    DataFrameCheck_frame [1, 0, 0, 0, 1, 1, 0, 1, 0, 1, 0] (List.cons_ne_nil _ _)⟩

theorem DataFrameCheck_four_equal_witness :
    (3 ≤ 4 ∧ 4 < ([0, 1, 1, 1, 1] : List ℤ).length ∧
      ([0, 1, 1, 1, 1] : List ℤ)[4 - 3]? = ([0, 1, 1, 1, 1] : List ℤ)[4 - 2]? ∧
      ([0, 1, 1, 1, 1] : List ℤ)[4 - 2]? = ([0, 1, 1, 1, 1] : List ℤ)[4 - 1]? ∧
      ([0, 1, 1, 1, 1] : List ℤ)[4 - 1]? = ([0, 1, 1, 1, 1] : List ℤ)[4]?) ∧
    ∃ out, DataFrameCheck [0, 1, 1, 1, 1] = some (1, out) :=
  ⟨⟨by decide, by decide, rfl, rfl, rfl⟩,
    DataFrameCheck_four_equal [0, 1, 1, 1, 1] 4 (by decide) (by decide) rfl rfl rfl⟩

end uvdar
